import Mathlib

/-!
Verification of the managed-heap subsystem of slowjs (src/vm/gc.c).

The development shallowly embeds the reference-count engine, the
trial-deletion cycle collector, the weak-ref sweep, the GC trigger and the
heap-snapshot dumper.  Cells are identified by natural numbers; the heap
graph enumerated by mark_children is a static function from a cell to the
list of its children (one occurrence per strong reference), and the mutable
per-cell state (ref_count, mark, free_mark) is threaded explicitly.
-/

namespace SlowJS

/-- Pointwise update of a function at one key, used to model an in-place
field store such as p->ref_count = v. -/
def updF {α : Type} (f : Nat → α) (k : Nat) (v : α) : Nat → α :=
  fun x => if x = k then v else f x

/-! ## GC trigger and threshold (js_trigger_gc, JS_SetGCThreshold) -/

/-- Word size of size_t on the target (64-bit build). -/
def W64 : Nat := 2 ^ 64

/-- Sentinel passed to JS_SetGCThreshold to disable automatic GC: the
source comment says to use -1, i.e. (size_t)-1 = 2^64 - 1. -/
def GC_THRESHOLD_DISABLED : Nat := W64 - 1

/-- Condition computed by js_trigger_gc (the default, non-FORCE_GC_AT_MALLOC
build): force_gc = ((rt->malloc_state.malloc_size + size) >
rt->malloc_gc_threshold), with size_t addition wrapping modulo 2^64. -/
def js_trigger_gc_fires (malloc_size gc_threshold size : Nat) : Bool :=
  (malloc_size + size) % W64 > gc_threshold

/-- Threshold reset performed after the triggered JS_RunGC call:
rt->malloc_gc_threshold = malloc_size + (malloc_size >> 1), evaluated on
the malloc_size current after the collection. -/
def js_trigger_gc_new_threshold (used_after_gc : Nat) : Nat :=
  (used_after_gc + used_after_gc / 2) % W64

/-- Result of js_trigger_gc: whether JS_RunGC ran, and the threshold
afterwards.  used_after_gc is the allocator's malloc_size after the
collection (the collection may have freed memory). -/
def js_trigger_gc (malloc_size gc_threshold size used_after_gc : Nat) :
    Bool × Nat :=
  if js_trigger_gc_fires malloc_size gc_threshold size then
    (true, js_trigger_gc_new_threshold used_after_gc)
  else
    (false, gc_threshold)

/-- Model of JS_SetGCThreshold: stores the given threshold verbatim. -/
def JS_SetGCThreshold (gc_threshold : Nat) : Nat := gc_threshold

/-! ## Core data model

A GC cell is identified by a Nat.  The static heap graph records, for every
cell, the list of children enumerated by mark_children (one list entry per
strong reference; a child referenced twice appears twice).  The embedding
restricts the cell kinds to the JS_OBJECT / FUNCTION_BYTECODE free path —
the kinds __JS_FreeValueRT and gc_free_cycles actually free; the other
kinds (shapes, var refs, async functions, contexts) are reclaimed as side
effects of those and do not change the list discipline verified here. -/

/-- GC phases, mirroring JSGCPhaseEnum (JS_GC_PHASE_NONE / DECREF /
REMOVE_CYCLES). -/
inductive GCPhase where
  | none
  | decref
  | removeCycles
deriving DecidableEq, Repr

/-- Static mark_children graph: children p lists the cells passed to
mark_func when visiting p. -/
structure Graph where
  children : Nat → List Nat

/-- Mutable runtime state: per-cell header fields plus the three intrusive
lists (gc_obj_list, tmp_obj_list, gc_zero_ref_count_list), the phase, the
event trace and the multiset of cells whose memory js_free_rt released. -/
structure GCState where
  rc : Nat → Int
  mark : Nat → Nat
  free_mark : Nat → Bool
  live : List Nat
  tmp : List Nat
  zero : List Nat
  phase : GCPhase
  freed : List Nat

/-- Number of references to c held by the cells of ps (indegree of c from
ps in the mark_children graph, counted with multiplicity). -/
def indegFrom (g : Graph) (ps : List Nat) (c : Nat) : Nat :=
  (ps.map (fun p => (g.children p).count c)).sum

/-! ## The cycle collector: decref pass (gc_decref) -/

/-- gc_decref_child: decrement the child's ref_count; if it is now zero
and the child was already visited in this pass (mark == 1), move it from
gc_obj_list to tmp_obj_list. -/
def gc_decref_child (s : GCState) (c : Nat) : GCState :=
  let rcc := s.rc c - 1
  if rcc = 0 ∧ s.mark c = 1 then
    { s with rc := updF s.rc c rcc,
             live := s.live.erase c,
             tmp := s.tmp ++ [c] }
  else
    { s with rc := updF s.rc c rcc }

/-- One iteration of the gc_decref loop body for cell p: decrement the
children, set p's mark, and move p to tmp_obj_list if its own count
reached zero. -/
def gc_decref_step (g : Graph) (s : GCState) (p : Nat) : GCState :=
  let s1 := (g.children p).foldl gc_decref_child s
  let s2 := { s1 with mark := updF s1.mark p 1 }
  if s2.rc p = 0 then
    { s2 with live := s2.live.erase p, tmp := s2.tmp ++ [p] }
  else s2

/-- gc_decref: init tmp_obj_list, then walk gc_obj_list decrementing every
child.  The C loop uses list_for_each_safe; a cell is only ever moved to
tmp at or before the cursor (a child moves only when its mark is already
1, i.e. it was already visited), so the traversal visits exactly the cells
of the initial list in order, which the fold makes explicit. -/
def gc_decref (g : Graph) (s : GCState) : GCState :=
  s.live.foldl (gc_decref_step g) { s with tmp := [] }

/-! ## The cycle collector: scan pass (gc_scan) -/

/-- gc_scan_incref_child: re-increment the child's count; if the count was
zero the child is pulled back from tmp_obj_list to the tail of
gc_obj_list and its mark is reset. -/
def gc_scan_incref_child (s : GCState) (c : Nat) : GCState :=
  let rcc := s.rc c + 1
  if rcc = 1 then
    { s with rc := updF s.rc c rcc,
             tmp := s.tmp.erase c,
             live := s.live ++ [c],
             mark := updF s.mark c 0 }
  else
    { s with rc := updF s.rc c rcc }

/-- gc_scan_incref_child2: increment only (restores the counts of the
cells about to be deleted). -/
def gc_scan_incref_child2 (s : GCState) (c : Nat) : GCState :=
  { s with rc := updF s.rc c (s.rc c + 1) }

/-- First gc_scan loop: walk gc_obj_list from position i onward, resetting
marks and re-incrementing children.  Cells rescued from tmp_obj_list are
appended to the tail of gc_obj_list and are themselves visited later, as
with the C list_for_each cursor.  fuel bounds the number of iterations;
gc_scan passes enough fuel for the loop to run to completion. -/
def gc_scan_pass1 (g : Graph) : Nat → Nat → GCState → GCState
  | 0, _, s => s
  | fuel + 1, i, s =>
    if h : i < s.live.length then
      let p := s.live.get ⟨i, h⟩
      let s1 := { s with mark := updF s.mark p 0 }
      let s2 := (g.children p).foldl gc_scan_incref_child s1
      gc_scan_pass1 g fuel (i + 1) s2
    else s

/-- gc_scan: keep the objects with refcount > 0 and their children, then
restore the refcount of the objects to be deleted (second loop over
tmp_obj_list with gc_scan_incref_child2). -/
def gc_scan (g : Graph) (s : GCState) : GCState :=
  let s1 := gc_scan_pass1 g (s.live.length + s.tmp.length) 0 s
  s1.tmp.foldl
    (fun t p => (g.children p).foldl gc_scan_incref_child2 t) s1

/-! ## The free paths (__JS_FreeValueRT, free_object, the drain loop and
gc_free_cycles) -/

/-- Events recorded by the teardown code, in the order the corresponding
statements execute in free_object. -/
inductive GCEvent where
  | setFreeMark (p : Nat)
  | releaseProp (p c : Nat)
  | freePropArray (p : Nat)
  | freeShape (p : Nat)
  | weakSweep (p : Nat)
  | classFinalizer (p : Nat)
  | unlink (p : Nat)
  | freeMem (p : Nat)
  | deferMem (p : Nat)
deriving DecidableEq, Repr

/-- Teardown trace threaded alongside the state (kept outside GCState so
the collector functions stay exactly the shape of the C code; the traced
variants below pair a state with its trace). -/
abbrev GCTrace := List GCEvent

/-- list_del on an intrusive header link: the cell is removed from
whichever of the three lists holds it (a cell is on at most one). -/
def listDel (s : GCState) (p : Nat) : GCState :=
  { s with live := s.live.erase p,
           tmp := s.tmp.erase p,
           zero := s.zero.erase p }

/-- JS_FreeValueRT applied to a child reference during a teardown
(free_property, the constant pool walk, ...): decrement the child's count
and, when it reaches zero, run the __JS_FreeValueRT list logic.  During a
teardown the phase is DECREF or REMOVE_CYCLES, never NONE, so the
recursive drain branch of __JS_FreeValueRT cannot fire and the cell is
only enqueued (list_del + list_add at the head of gc_zero_ref_count_list);
in phase REMOVE_CYCLES nothing at all is done. -/
def release_child (s : GCState) (c : Nat) : GCState :=
  let rcc := s.rc c - 1
  let s1 := { s with rc := updF s.rc c rcc }
  if rcc ≤ 0 then
    if s1.phase ≠ GCPhase.removeCycles then
      let s2 := listDel s1 c
      { s2 with zero := c :: s2.zero }
    else s1
  else s1

/-- free_object (restricted to the fields of the reduced model; the
FUNCTION_BYTECODE teardown free_function_bytecode follows the identical
list discipline).  Steps, in source order: set free_mark; release every
property value (the cell's graph children); free the property array and
the shape inline; weak sweep if records exist; class finalizer;
remove_gc_object; then either defer the memory to
gc_zero_ref_count_list (phase REMOVE_CYCLES and refcount still nonzero)
or free it now. -/
def free_object (g : Graph) (s : GCState) (p : Nat) (tr : GCTrace) :
    GCState × GCTrace :=
  let s1 := { s with free_mark := updF s.free_mark p true }
  let tr1 := tr ++ [GCEvent.setFreeMark p]
  let s2 := (g.children p).foldl release_child s1
  let tr2 := tr1 ++ (g.children p).map (fun c => GCEvent.releaseProp p c)
  let tr3 := tr2 ++ [GCEvent.freePropArray p, GCEvent.freeShape p,
                     GCEvent.classFinalizer p]
  let s3 := listDel s2 p
  let tr4 := tr3 ++ [GCEvent.unlink p]
  if s3.phase = GCPhase.removeCycles ∧ s3.rc p ≠ 0 then
    ({ s3 with zero := s3.zero ++ [p] }, tr4 ++ [GCEvent.deferMem p])
  else
    ({ s3 with freed := s3.freed ++ [p] }, tr4 ++ [GCEvent.freeMem p])

/-- free_gc_object: dispatch on the cell kind; in the reduced model every
cell takes the free_object path. -/
def free_gc_object (g : Graph) (s : GCState) (p : Nat) (tr : GCTrace) :
    GCState × GCTrace :=
  free_object g s p tr

/-- Drain loop of free_zero_refcount: repeatedly pop the head of
gc_zero_ref_count_list and free it.  Each iteration permanently frees one
cell, so the fuel passed by free_zero_refcount (the total number of cells
on the lists) suffices for the loop to reach the empty list. -/
def free_zero_refcount_loop (g : Graph) :
    Nat → GCState → GCTrace → GCState × GCTrace
  | 0, s, tr => (s, tr)
  | fuel + 1, s, tr =>
    match s.zero with
    | [] => (s, tr)
    | p :: _ =>
      let (s1, tr1) := free_gc_object g s p tr
      free_zero_refcount_loop g fuel s1 tr1

/-- free_zero_refcount: enter phase DECREF, drain
gc_zero_ref_count_list, return the phase to NONE. -/
def free_zero_refcount (g : Graph) (s : GCState) (tr : GCTrace) :
    GCState × GCTrace :=
  let s1 := { s with phase := GCPhase.decref }
  let (s2, tr2) :=
    free_zero_refcount_loop g (s1.live.length + s1.tmp.length + s1.zero.length)
      s1 tr
  ({ s2 with phase := GCPhase.none }, tr2)

/-- __JS_FreeValueRT on a JS_TAG_OBJECT / JS_TAG_FUNCTION_BYTECODE value
whose ref_count has reached zero: unless the cycle collector is running,
move the cell to the head of gc_zero_ref_count_list, and if no GC is in
progress at all, drain the list; in phase REMOVE_CYCLES the code does
nothing. -/
def gc_free_value_rt (g : Graph) (s : GCState) (p : Nat) (tr : GCTrace) :
    GCState × GCTrace :=
  if s.phase ≠ GCPhase.removeCycles then
    let s1 := listDel s p
    let s2 := { s1 with zero := p :: s1.zero }
    if s2.phase = GCPhase.none then free_zero_refcount g s2 tr
    else (s2, tr)
  else (s, tr)

/-- JS_FreeValueRT on an object value (the decrement wrapper from the
public header, modelled from its standard definition: decrement, then call
__JS_FreeValueRT when the count falls to zero or below). -/
def JS_FreeValueRT_obj (g : Graph) (s : GCState) (p : Nat) (tr : GCTrace) :
    GCState × GCTrace :=
  let rcc := s.rc p - 1
  let s1 := { s with rc := updF s.rc p rcc }
  if rcc ≤ 0 then gc_free_value_rt g s1 p tr else (s1, tr)

/-! ## The cycle collector: free pass and JS_RunGC -/

/-- Loop of gc_free_cycles: pop the head of tmp_obj_list and free it until
the list is empty.  In phase REMOVE_CYCLES a release never adds to
tmp_obj_list, so the initial length of the list bounds the iterations. -/
def gc_free_cycles_loop (g : Graph) :
    Nat → GCState → GCTrace → GCState × GCTrace
  | 0, s, tr => (s, tr)
  | fuel + 1, s, tr =>
    match s.tmp with
    | [] => (s, tr)
    | p :: _ =>
      let (s1, tr1) := free_gc_object g s p tr
      gc_free_cycles_loop g fuel s1 tr1

/-- gc_free_cycles: enter phase REMOVE_CYCLES, free every cell on
tmp_obj_list (deferring the memory of cells whose count is still nonzero
to gc_zero_ref_count_list), return the phase to NONE, then release the
memory of the deferred cells and reset gc_zero_ref_count_list. -/
def gc_free_cycles (g : Graph) (s : GCState) (tr : GCTrace) :
    GCState × GCTrace :=
  let s1 := { s with phase := GCPhase.removeCycles }
  let (s2, tr2) := gc_free_cycles_loop g s1.tmp.length s1 tr
  let s3 := { s2 with phase := GCPhase.none }
  ({ s3 with freed := s3.freed ++ s3.zero, zero := [] },
   tr2 ++ s3.zero.map GCEvent.freeMem)

/-- JS_RunGC: decref pass, scan pass, free pass. -/
def JS_RunGC (g : Graph) (s : GCState) (tr : GCTrace) :
    GCState × GCTrace :=
  gc_free_cycles g (gc_scan g (gc_decref g s)) tr

/-! ## Values and JS_IsLiveObject -/

/-- Tagged values.  Heap-allocated kinds carry the id of the allocation;
only vObject and vFuncBytecode participate in cycle collection. -/
inductive JSValue where
  | vInt (n : Int)
  | vBool (b : Bool)
  | vNull
  | vUndefined
  | vFloat64
  | vString (id : Nat)
  | vSymbol (id : Nat)
  | vObject (p : Nat)
  | vFuncBytecode (p : Nat)
deriving DecidableEq, Repr

/-- JS_IsObject: true exactly for the JS_TAG_OBJECT tag. -/
def JS_IsObject (v : JSValue) : Bool :=
  match v with
  | JSValue.vObject _ => true
  | _ => false

/-- JS_IsLiveObject: false if not an object, otherwise the negation of the
object's free_mark (zombie objects are visible in finalizers when freeing
cycles). -/
def JS_IsLiveObject (s : GCState) (v : JSValue) : Bool :=
  match v with
  | JSValue.vObject p => !s.free_mark p
  | _ => false

/-! ## Weak-ref sweep (reset_weak_ref)

A dying object's weak-record chain (first_weak_ref, linked by
next_weak_ref) is modelled as the list of record ids in chain order.  Each
record carries the id of its owning weak map/set and its value field; each
map owns the hash bucket holding the record's hash_link and the
insertion-order list holding its link. -/

/-- Static data of one JSMapRecord reachable from the dying object. -/
structure WeakRecord where
  mapId : Nat
  value : Nat
deriving DecidableEq, Repr

/-- Per-map intrusive lists: the hash bucket and the insertion-order
list. -/
structure WeakMapLists where
  hash : List Nat
  order : List Nat
deriving DecidableEq, Repr

/-- Events recorded by the weak sweep. -/
inductive WeakEvent where
  | unlink (mr : Nat)
  | releaseValue (mr : Nat)
  | freeRecord (mr : Nat)
deriving DecidableEq, Repr

/-- Mutable state of the weak sweep: the maps' lists, the values released
by JS_FreeValueRT, the record structs freed by js_free_rt, and the event
trace. -/
structure WeakState where
  maps : Nat → WeakMapLists
  releasedValues : List Nat
  freedRecords : List Nat
  trace : List WeakEvent

/-- First pass of reset_weak_ref: remove each record from the owning
map's hash bucket (list_del(&mr->hash_link)) and insertion-order list
(list_del(&mr->link)); nothing is freed. -/
def reset_weak_ref_pass1 (rec : Nat → WeakRecord) (chain : List Nat)
    (s : WeakState) : WeakState :=
  chain.foldl
    (fun t mr =>
      let m := (rec mr).mapId
      { t with
          maps := updF t.maps m
            { hash := (t.maps m).hash.erase mr,
              order := (t.maps m).order.erase mr },
          trace := t.trace ++ [WeakEvent.unlink mr] })
    s

/-- Second pass of reset_weak_ref: release each record's value and free
the record struct; next_weak_ref is read before the record is freed. -/
def reset_weak_ref_pass2 (rec : Nat → WeakRecord) (chain : List Nat)
    (s : WeakState) : WeakState :=
  chain.foldl
    (fun t mr =>
      { t with
          releasedValues := t.releasedValues ++ [(rec mr).value],
          freedRecords := t.freedRecords ++ [mr],
          trace := t.trace ++ [WeakEvent.releaseValue mr,
                               WeakEvent.freeRecord mr] })
    s

/-- reset_weak_ref: the two passes in order. -/
def reset_weak_ref (rec : Nat → WeakRecord) (chain : List Nat)
    (s : WeakState) : WeakState :=
  reset_weak_ref_pass2 rec chain (reset_weak_ref_pass1 rec chain s)

/-! ## Heap-snapshot dumper

Pointers are abstract Nats (0 standing for the C NULL pointer).  The kid
hashmap / dynamic array collaborators (they live outside gc.c) are
modelled as association lists and Lean lists; allocation never fails in
the model, so the kid_array_push < 0 error paths are the untaken
branches of the source's checks. -/

/-- NODE_FIELD_COUNT: nodes are 5-tuples (type, name, id, self_size,
edge_count). -/
def NODE_FIELD_COUNT : Nat := 5

/-- Node types of the snapshot meta block, in declaration order. -/
inductive DNodeType where
  | hidden
  | array
  | str
  | object
  | code
  | closure
  | regexp
  | heapNumber
  | native
  | synthetic
  | concatStr
  | slicedStr
  | symbol
  | bigint
deriving DecidableEq, Repr

/-- Edge types of the snapshot meta block, in declaration order. -/
inductive DEdgeType where
  | context
  | element
  | property
  | internal
  | hidden
  | shortcut
  | weak
deriving DecidableEq, Repr

/-- JSGCDumpEdge: type, name_or_idx (a strings index for property edges,
a raw integer for element edges), to (node index times
NODE_FIELD_COUNT). -/
structure DEdge where
  type : DEdgeType
  name_or_idx : Int
  to_node : Nat
deriving DecidableEq, Repr

/-- JSGCDumpNode: id, name (-2 until assigned), type, self_size and the
edge array. -/
structure DNode where
  id : Nat
  name : Int
  type : DNodeType
  self_size : Nat
  edges : List DEdge
deriving DecidableEq, Repr

/-- JSGCDumpContext: the nodes array, the interned strings array with its
str2id hashmap, the obj2node hashmap from pointer to node index, and the
running edge counter. -/
structure DumpCtx where
  nodes : List DNode
  strs : List String
  str2id : List (String × Nat)
  obj2node : List (Nat × Nat)
  edges_len : Nat
deriving DecidableEq, Repr

/-- Fresh context built by js_gcdump_new_ctx. -/
def js_gcdump_new_ctx : DumpCtx :=
  { nodes := [], strs := [], str2id := [], obj2node := [], edges_len := 0 }

/-- Association-list lookup standing for kid_hashmap_get. -/
def alookup {α β : Type} [DecidableEq α] (l : List (α × β)) (k : α) :
    Option β :=
  (l.find? (fun e => e.1 = k)).map (fun e => e.2)

/-- js_gcdump_node_from_gp: return the node index interned for the
pointer, creating the node (id = current length, name = -2, type hidden,
self_size 0, no edges) and the obj2node entry on first sight. -/
def js_gcdump_node_from_gp (dc : DumpCtx) (gp : Nat) : DumpCtx × Nat :=
  match alookup dc.obj2node gp with
  | some i => (dc, i)
  | none =>
    let i := dc.nodes.length
    let node : DNode :=
      { id := i, name := -2, type := DNodeType.hidden, self_size := 0,
        edges := [] }
    ({ dc with nodes := dc.nodes ++ [node],
               obj2node := dc.obj2node ++ [(gp, i)] }, i)

/-- js_gcdump_add_cstr: return the strings index interned for the byte
string, appending it and the str2id entry on first sight. -/
def js_gcdump_add_cstr (dc : DumpCtx) (cstr : String) : DumpCtx × Nat :=
  match alookup dc.str2id cstr with
  | some i => (dc, i)
  | none =>
    let i := dc.strs.length
    ({ dc with strs := dc.strs ++ [cstr],
               str2id := dc.str2id ++ [(cstr, i)] }, i)

/-- Atoms: either a tagged integer (array indices) or a named atom whose
string is its UTF-8 spelling. -/
inductive DAtom where
  | taggedInt (i : Nat)
  | named (s : String)
deriving DecidableEq, Repr

/-- js_gcdump_add_atom: convert the atom to its string and intern it. -/
def js_gcdump_add_atom (dc : DumpCtx) (a : DAtom) : DumpCtx × Nat :=
  match a with
  | DAtom.taggedInt i => js_gcdump_add_cstr dc (toString i)
  | DAtom.named s => js_gcdump_add_cstr dc s

/-- Values seen by the dumper.  vInt carries the abstract address of the
stack slot JS_GCDumpValue passes for JS_TAG_INT values (the source hands
walk_func the address of its local val parameter). -/
inductive DValue where
  | vInt (n : Int) (addr : Nat)
  | vStr (sid : Nat)
  | vObj (p : Nat)
  | vFnBc (p : Nat)
  | vOther
deriving DecidableEq, Repr

/-- Property slots of an object (JSProperty together with the
JSShapeProperty flags). -/
inductive DPropSlot where
  | value (v : DValue)
  | getset (getter setter : Option Nat)
  | varRefSlot (vr : Nat) (detached : Bool)
  | autoinit (realm : Nat)
deriving DecidableEq, Repr

/-- Reduced JSObject as the dumper consults it.  isArray and isFunction
are the JS_IsArray / JS_IsFunction collaborator predicates (isArray
already excludes the Array prototype); nodeName is the name
js_gcdump_get_node_name resolves through the property-lookup
collaborators; objSize is js_gcdump_obj_size; arrayElems are the elements
the js_get_length64 / JS_GetPropertyInt64 loop yields. -/
structure DObj where
  shape : Nat
  props : List (Option DAtom × DPropSlot)
  isArray : Bool
  isFunction : Bool
  isCFunc : Bool
  cfuncPtr : Nat
  funcBytecode : Nat
  typedArrayBuf : Option Nat
  objSize : Nat
  isGlobal : Bool
  nodeName : String
  arrayElems : List DValue
deriving DecidableEq, Repr

/-- Reduced JSFunctionBytecode: constant pool, realm, and the self_size
formula (sizeof(JSFunctionBytecode) + byte_code_len + vardefs + closure
vars + cpool + debug source) evaluated on the cell. -/
structure DFnBc where
  cpool : List DValue
  realm : Option Nat
  selfSize : Nat
deriving DecidableEq, Repr

/-- Reduced JSShape: prototype pointer (0 = NULL), the shape properties
as (address of sh->prop[i], atom) pairs, and the is_hashed flag. -/
structure DShape where
  proto : Nat
  propAtoms : List (Nat × DAtom)
  isHashed : Bool
deriving DecidableEq, Repr

/-- Reduced JSContext as JS_Context_gcdump consults it: the named
well-known slots in walk order, the two synthetic containers with their
element lists, and the array shape. -/
structure DCtx where
  slots : List (String × DValue)
  nativeErrorArrPtr : Nat
  nativeErrorProtos : List DValue
  classProtoArrPtr : Nat
  classProtos : List DValue
  arrayShape : Option Nat
deriving DecidableEq, Repr

/-- Cells of the dump heap.  opaquePtr covers targets the dumper interns
a node for without ever classifying (NULL prototypes, C function
pointers, typed-array buffers, shape-property addresses, int slots). -/
inductive DCell where
  | obj (o : DObj)
  | fnBc (b : DFnBc)
  | varRef (pvalue : DValue)
  | shape (sh : DShape)
  | context (c : DCtx)
  | jsstr (s : String)
  | opaquePtr
deriving Repr

/-- Dump heap: cell data per pointer, and gc_obj_list. -/
structure DHeap where
  cells : Nat → DCell
  list : List Nat

/-- Labels carried in JS_GCDumpFuncContext: plen/p.n (named slot), plen =
-1/p.i (element index), or prs/pr while walking a shape-property slot
(plain carries pr->u.value for plain-value slots — the branch that sets
is_int; getset/varref/autoinit slots leave it unset). -/
inductive DumpLabel where
  | noLbl
  | nameLbl (s : String)
  | idxLbl (i : Int)
  | propLbl (atom : DAtom) (plain : Option DValue)
deriving DecidableEq, Repr

/-- Sizeof constants used by self_size assignments (fixed values of the
64-bit build; the claims do not depend on them). -/
def sizeof_double : Nat := 8

/-- Size of a C function pointer. -/
def sizeof_fnptr : Nat := 8

/-- Size of struct JSShape. -/
def sizeof_JSShape : Nat := 104

/-- Size of struct JSShapeProperty. -/
def sizeof_JSShapeProperty : Nat := 8

/-- Update of the node at index i, standing for a store through
kid_array_el(&dc->nodes, JSGCDumpNode, i). -/
def modifyNode (dc : DumpCtx) (i : Nat) (f : DNode → DNode) : DumpCtx :=
  match dc.nodes.get? i with
  | some n => { dc with nodes := dc.nodes.set i (f n) }
  | none => dc

/-- Read of the node at index i (default on out-of-range never taken in
runs). -/
def getNode (dc : DumpCtx) (i : Nat) : DNode :=
  (dc.nodes.get? i).getD
    { id := 0, name := -2, type := DNodeType.hidden, self_size := 0,
      edges := [] }

/-- Push of an edge onto node i's edge array followed by the
dc->edges_len++ the source pairs with every push. -/
def pushEdgeAt (dc : DumpCtx) (i : Nat) (e : DEdge) : DumpCtx :=
  let dc1 := modifyNode dc i (fun n => { n with edges := n.edges ++ [e] })
  { dc1 with edges_len := dc1.edges_len + 1 }

/-- Content of a JSString cell. -/
def strContent (h : DHeap) (p : Nat) : String :=
  match h.cells p with
  | DCell.jsstr s => s
  | _ => ""

/-- js_gcdump_add_str: JS_ToCStringLen on the string then intern. -/
def js_gcdump_add_str (h : DHeap) (dc : DumpCtx) (p : Nat) :
    DumpCtx × Nat :=
  js_gcdump_add_cstr dc (strContent h p)

/-- Shape data of a shape cell. -/
def shapeOf (h : DHeap) (p : Nat) : DShape :=
  match h.cells p with
  | DCell.shape sh => sh
  | _ => { proto := 0, propAtoms := [], isHashed := false }

/-- JS_VALUE_GET_PTR: payload of a value reinterpreted as a pointer (for
JS_TAG_INT the source reads the integer payload bits; the model uses the
value's abstract address slot). -/
def valuePtr (v : DValue) : Nat :=
  match v with
  | DValue.vInt _ addr => addr
  | DValue.vStr sid => sid
  | DValue.vObj p => p
  | DValue.vFnBc p => p
  | DValue.vOther => 0

/-- js_gcdump_process_obj.  The interned node is looked up or created;
string and int property values type the node directly; GC cells are
classified by kind (the JS_GC_OBJ_TYPE_JS_CONTEXT and ASYNC_FUNCTION
kinds fall into the default branch of the source switch and leave the
node untouched — in particular its name stays -2); finally the edge to
the parent is pushed when a parent exists and a label or a shape-property
context was supplied. -/
def js_gcdump_process_obj (h : DHeap) (dc : DumpCtx) (cell : Nat)
    (parent : Int) (label : DumpLabel) : DumpCtx :=
  let t0 := js_gcdump_node_from_gp dc cell
  let dc := t0.1
  let node_i := t0.2
  let plainv : Option DValue :=
    match label with
    | DumpLabel.propLbl _ p => p
    | _ => none
  let dc :=
    match plainv with
    | some (DValue.vStr _) =>
      -- tag == JS_TAG_STRING: the walked cell is the JSString
      let t := js_gcdump_add_str h dc cell
      modifyNode t.1 node_i (fun n =>
        { n with type := DNodeType.str, name := t.2,
                 self_size := (strContent h cell).length })
    | some (DValue.vInt k _) =>
      -- tag == JS_TAG_INT && is_int: format the number and intern it
      let t := js_gcdump_add_cstr dc (toString k)
      modifyNode t.1 node_i (fun n =>
        { n with type := DNodeType.str, name := t.2,
                 self_size := sizeof_double })
    | _ =>
      match h.cells cell with
      | DCell.obj o =>
        -- first time we see this obj
        if (getNode dc node_i).self_size = 0 then
          let ntype :=
            if o.isArray then DNodeType.array
            else if o.isFunction then DNodeType.closure
            else DNodeType.object
          let dc := modifyNode dc node_i (fun n =>
            { n with type := ntype, self_size := o.objSize })
          -- __proto__ edge (objp->shape->proto, NULL interned as 0)
          let tp := js_gcdump_node_from_gp dc (shapeOf h o.shape).proto
          let dc := tp.1
          let tn := js_gcdump_add_atom dc (DAtom.named "__proto__")
          let dc := pushEdgeAt tn.1 node_i
            { type := DEdgeType.property, name_or_idx := tn.2,
              to_node := tp.2 * NODE_FIELD_COUNT }
          -- shape edge
          let ts := js_gcdump_node_from_gp dc o.shape
          let dc := ts.1
          let tsn := js_gcdump_add_atom dc (DAtom.named "shape")
          let dc := pushEdgeAt tsn.1 node_i
            { type := DEdgeType.internal, name_or_idx := tsn.2,
              to_node := ts.2 * NODE_FIELD_COUNT }
          -- container of arraybuffer; the source does not reassign
          -- edge.type here, so the local edge struct still holds the
          -- INTERNAL of the shape edge
          let dc :=
            match o.typedArrayBuf with
            | some buf =>
              let tb := js_gcdump_node_from_gp dc buf
              let tbn := js_gcdump_add_cstr tb.1 "typed_array"
              pushEdgeAt tbn.1 node_i
                { type := DEdgeType.internal, name_or_idx := tbn.2,
                  to_node := tb.2 * NODE_FIELD_COUNT }
            | none => dc
          -- if obj is function also traverse its bytecode
          let dc :=
            if o.isFunction then
              let tb :=
                if o.isCFunc then
                  let tc := js_gcdump_node_from_gp dc o.cfuncPtr
                  let tcn := js_gcdump_add_atom tc.1 (DAtom.named "cfunc")
                  (modifyNode tcn.1 tc.2 (fun n =>
                    { n with name := tcn.2, type := DNodeType.native,
                             self_size := sizeof_fnptr }), tc.2)
                else
                  js_gcdump_node_from_gp dc o.funcBytecode
              let tbn := js_gcdump_add_atom tb.1 (DAtom.named "code")
              pushEdgeAt tbn.1 node_i
                { type := DEdgeType.internal, name_or_idx := tbn.2,
                  to_node := tb.2 * NODE_FIELD_COUNT }
            else dc
          -- node name: the global object, else js_gcdump_get_node_name
          -- (whose Proxy / own-name / constructor / class-name paths all
          -- end in an add_atom or add_cstr interning)
          let dc :=
            if (getNode dc node_i).name = -2 then
              if o.isGlobal then
                let tg := js_gcdump_add_atom dc (DAtom.named "global")
                modifyNode tg.1 node_i (fun n => { n with name := tg.2 })
              else
                let tg := js_gcdump_add_cstr dc o.nodeName
                modifyNode tg.1 node_i (fun n => { n with name := tg.2 })
            else dc
          -- element edges of array-typed nodes
          if (getNode dc node_i).type = DNodeType.array then
            o.arrayElems.enum.foldl (fun dc iv =>
              let te := js_gcdump_node_from_gp dc (valuePtr iv.2)
              pushEdgeAt te.1 node_i
                { type := DEdgeType.element, name_or_idx := iv.1,
                  to_node := te.2 * NODE_FIELD_COUNT }) dc
          else dc
        else dc
      | DCell.varRef pv =>
        match pv with
        | DValue.vStr _ =>
          modifyNode dc node_i (fun n => { n with type := DNodeType.str })
        | DValue.vInt _ _ =>
          modifyNode dc node_i (fun n =>
            { n with type := DNodeType.heapNumber })
        | _ => dc
      | DCell.fnBc b =>
        modifyNode dc node_i (fun n =>
          { n with type := DNodeType.code, self_size := b.selfSize })
      | DCell.shape sh =>
        let dc := modifyNode dc node_i (fun n =>
          { n with type := DNodeType.hidden })
        let dc :=
          if (getNode dc node_i).name = -2 then
            let tn := js_gcdump_add_atom dc (DAtom.named "shape")
            modifyNode tn.1 node_i (fun n => { n with name := tn.2 })
          else dc
        if (getNode dc node_i).self_size = 0 ∧ sh.isHashed then
          let dc := modifyNode dc node_i (fun n =>
            { n with self_size := sizeof_JSShape })
          sh.propAtoms.enum.foldl (fun dc iv =>
            let tp := js_gcdump_node_from_gp dc iv.2.1
            let ta := js_gcdump_add_atom tp.1 iv.2.2
            let dc := modifyNode ta.1 tp.2 (fun n =>
              { n with type := DNodeType.hidden, name := ta.2,
                       self_size := sizeof_JSShapeProperty })
            pushEdgeAt dc node_i
              { type := DEdgeType.element, name_or_idx := iv.1,
                to_node := tp.2 * NODE_FIELD_COUNT }) dc
        else dc
      | _ => dc
  -- create edge to connect node to its parent
  if parent ≥ 0 ∧ node_i ≠ 0 ∧ label ≠ DumpLabel.noLbl then
    match label with
    | DumpLabel.nameLbl s =>
      let tn := js_gcdump_add_cstr dc s
      pushEdgeAt tn.1 parent.toNat
        { type := DEdgeType.property, name_or_idx := tn.2,
          to_node := node_i * NODE_FIELD_COUNT }
    | DumpLabel.idxLbl i =>
      pushEdgeAt dc parent.toNat
        { type := DEdgeType.element, name_or_idx := i,
          to_node := node_i * NODE_FIELD_COUNT }
    | DumpLabel.propLbl (DAtom.taggedInt k) _ =>
      pushEdgeAt dc parent.toNat
        { type := DEdgeType.element, name_or_idx := k,
          to_node := node_i * NODE_FIELD_COUNT }
    | DumpLabel.propLbl (DAtom.named s) _ =>
      let tn := js_gcdump_add_atom dc (DAtom.named s)
      pushEdgeAt tn.1 parent.toNat
        { type := DEdgeType.property, name_or_idx := tn.2,
          to_node := node_i * NODE_FIELD_COUNT }
    | DumpLabel.noLbl => dc
  else dc

/-- JS_GCDumpValue: walk refcounted object / function-bytecode / string
pointers and the address of int values; other tags are skipped. -/
def JS_GCDumpValue (h : DHeap) (dc : DumpCtx) (v : DValue) (parent : Int)
    (label : DumpLabel) : DumpCtx :=
  match v with
  | DValue.vObj p => js_gcdump_process_obj h dc p parent label
  | DValue.vFnBc p => js_gcdump_process_obj h dc p parent label
  | DValue.vStr sid => js_gcdump_process_obj h dc sid parent label
  | DValue.vInt _ addr => js_gcdump_process_obj h dc addr parent label
  | DValue.vOther => dc

/-- JS_Context_gcdump: walk the named well-known slots, materialize the
two synthetic container nodes (named Array, type synthetic, linked to the
parent by an internal edge) with one indexed child walk per element, and
walk the array shape.  js_gcdump_module_def is an empty stub in the
source, so loaded modules contribute nothing. -/
def JS_Context_gcdump (h : DHeap) (dc : DumpCtx) (c : DCtx)
    (parent : Int) : DumpCtx :=
  let dc := c.slots.foldl (fun dc sv =>
    JS_GCDumpValue h dc sv.2 parent (DumpLabel.nameLbl sv.1)) dc
  let tn := js_gcdump_node_from_gp dc c.nativeErrorArrPtr
  let ta := js_gcdump_add_atom tn.1 (DAtom.named "Array")
  let dc := modifyNode ta.1 tn.2 (fun n =>
    { n with name := ta.2, type := DNodeType.synthetic })
  let tc := js_gcdump_add_cstr dc "native_error_proto"
  let dc := pushEdgeAt tc.1 parent.toNat
    { type := DEdgeType.internal, name_or_idx := tc.2,
      to_node := tn.2 * NODE_FIELD_COUNT }
  let dc := c.nativeErrorProtos.enum.foldl (fun dc iv =>
    JS_GCDumpValue h dc iv.2 (Int.ofNat tn.2) (DumpLabel.idxLbl iv.1)) dc
  let tn2 := js_gcdump_node_from_gp dc c.classProtoArrPtr
  let ta2 := js_gcdump_add_atom tn2.1 (DAtom.named "Array")
  let dc := modifyNode ta2.1 tn2.2 (fun n =>
    { n with name := ta2.2, type := DNodeType.synthetic })
  let tc2 := js_gcdump_add_cstr dc "class_proto"
  let dc := pushEdgeAt tc2.1 parent.toNat
    { type := DEdgeType.internal, name_or_idx := tc2.2,
      to_node := tn2.2 * NODE_FIELD_COUNT }
  let dc := c.classProtos.enum.foldl (fun dc iv =>
    JS_GCDumpValue h dc iv.2 (Int.ofNat tn2.2) (DumpLabel.idxLbl iv.1)) dc
  match c.arrayShape with
  | some sh =>
    js_gcdump_process_obj h dc sh parent (DumpLabel.nameLbl "array_shape")
  | none => dc

/-- gcdump_children: kind dispatch of the child walk.  For object
property slots the source sets dctx.prs/dctx.pr before the walk; for
var-ref slots it reads the property union with an indeterminate value
tag, modelled as a tag that is neither string nor int.  The per-class
gc_dump callbacks of the source are all empty stubs. -/
def gcdump_children (h : DHeap) (dc : DumpCtx) (cell : Nat)
    (parent : Int) : DumpCtx :=
  match h.cells cell with
  | DCell.obj o =>
    o.props.foldl (fun dc pr =>
      match pr with
      | (some atom, DPropSlot.getset gtr str) =>
        let dc :=
          match gtr with
          | some gp =>
            js_gcdump_process_obj h dc gp parent
              (DumpLabel.propLbl atom none)
          | none => dc
        match str with
        | some sp =>
          js_gcdump_process_obj h dc sp parent
            (DumpLabel.propLbl atom none)
        | none => dc
      | (some atom, DPropSlot.varRefSlot vr detached) =>
        if detached then
          js_gcdump_process_obj h dc vr parent
            (DumpLabel.propLbl atom none)
        else dc
      | (some atom, DPropSlot.autoinit realm) =>
        js_gcdump_process_obj h dc realm parent
          (DumpLabel.propLbl atom none)
      | (some atom, DPropSlot.value v) =>
        JS_GCDumpValue h dc v parent (DumpLabel.propLbl atom (some v))
      | (none, _) => dc) dc
  | DCell.fnBc b =>
    let dc := b.cpool.foldl (fun dc v =>
      JS_GCDumpValue h dc v parent DumpLabel.noLbl) dc
    match b.realm with
    | some r => js_gcdump_process_obj h dc r parent DumpLabel.noLbl
    | none => dc
  | DCell.varRef pv => JS_GCDumpValue h dc pv parent DumpLabel.noLbl
  | DCell.shape sh =>
    if sh.proto ≠ 0 then
      js_gcdump_process_obj h dc sh.proto parent DumpLabel.noLbl
    else dc
  | DCell.context c => JS_Context_gcdump h dc c parent
  | _ => dc

/-- __js_gcdump_objects: intern the context as root node 0, then for each
cell of gc_obj_list intern its node, classify it (parent -1) and walk
its children with itself as parent. -/
def js_gcdump_objects_run (h : DHeap) (ctxPtr : Nat) : DumpCtx :=
  let t0 := js_gcdump_node_from_gp js_gcdump_new_ctx ctxPtr
  h.list.foldl (fun dc gp =>
    let t := js_gcdump_node_from_gp dc gp
    let dc := js_gcdump_process_obj h t.1 gp (-1) DumpLabel.noLbl
    gcdump_children h dc gp (Int.ofNat t.2)) t0.1

/-- Edge rows written by js_gcdump_write_edges: the nodes' edge arrays in
node order. -/
def js_gcdump_edge_rows (dc : DumpCtx) : List DEdge :=
  (dc.nodes.map DNode.edges).flatten

/-- edge_count field written in the snapshot header. -/
def snapshot_edge_count (dc : DumpCtx) : Nat := dc.edges_len

/-- node_count field written in the snapshot header. -/
def snapshot_node_count (dc : DumpCtx) : Nat := dc.nodes.length

/-! ## Snapshot file output (js_gcdump_write2file, js_gcdump_objects) -/

/-- IO operations issued by js_gcdump_write2file; each records whether
the FILE* it operates on came from a successful fopen. -/
inductive IOOp where
  | fopenOp (ok : Bool)
  | fprintfOp (handleValid : Bool)
  | fwriteOp (handleValid : Bool)
  | fcloseOp (handleValid : Bool)
deriving DecidableEq, Repr

/-- js_gcdump_write2file: build the Heap.YYYYMMDD.HHMMSS.mmm.heapsnapshot
name, fopen it, print the header and meta block, fwrite the nodes, edges
and strings arrays, print the closing brace and fclose.  The source never
tests the fopen result: no operation is guarded by a check of fp, so
every op below carries the validity of the opened handle unconditionally.
The fprintf multiplicity abbreviates the fixed meta text (its exact count
is irrelevant to the claims). -/
def js_gcdump_write2file_io (openOk : Bool) : List IOOp :=
  IOOp.fopenOp openOk ::
  (List.replicate 45 (IOOp.fprintfOp openOk) ++
   [IOOp.fwriteOp openOk,
    IOOp.fwriteOp openOk,
    IOOp.fwriteOp openOk,
    IOOp.fprintfOp openOk,
    IOOp.fcloseOp openOk])

/-- js_gcdump_objects (the intrinsic surfaced to the language): calls
__js_gcdump_objects and returns JS_NULL unconditionally — the return
value does not depend on whether writing succeeded. -/
def js_gcdump_objects_ret : JSValue := JSValue.vNull

/-! ## Concrete heaps used to exercise the theorems -/

/-- A heap for the refcount-frame property: cells 0 and 1 form a garbage
cycle and cell 0 also references cell 2, which is externally held
(ref_count 2 but only one incoming heap reference). -/
def frameWitnessGraph : Graph :=
  { children := fun p => if p = 0 then [1, 2] else if p = 1 then [0]
                         else [] }

/-- The matching initial state for frameWitnessGraph. -/
def frameWitnessState : GCState :=
  { rc := fun c => if c = 0 then 1 else if c = 1 then 1
                   else if c = 2 then 2 else 0,
    mark := fun _ => 0, free_mark := fun _ => false,
    live := [0, 1, 2], tmp := [], zero := [], phase := GCPhase.none,
    freed := [] }

/-- A heap for the idempotence property: a garbage cycle 0 <-> 1 plus an
externally referenced isolated cell 2. -/
def idemWitnessGraph : Graph :=
  { children := fun p => if p = 0 then [1] else if p = 1 then [0]
                         else [] }

/-- The matching initial state for idemWitnessGraph. -/
def idemWitnessState : GCState :=
  { rc := fun c => if c = 0 then 1 else if c = 1 then 1
                   else if c = 2 then 1 else 0,
    mark := fun _ => 0, free_mark := fun _ => false,
    live := [0, 1, 2], tmp := [], zero := [], phase := GCPhase.none,
    freed := [] }

/-- A heap for the zero-refcount drain: cell 0 (whose last reference has
just been dropped) references cell 1, which has no other reference. -/
def freeRtWitnessGraph : Graph :=
  { children := fun p => if p = 0 then [1] else [] }

/-- The matching state: cell 0 already at ref_count zero, handed to
__JS_FreeValueRT with no GC in progress. -/
def freeRtWitnessState : GCState :=
  { rc := fun c => if c = 0 then 0 else if c = 1 then 1 else 0,
    mark := fun _ => 0, free_mark := fun _ => false,
    live := [0, 1], tmp := [], zero := [], phase := GCPhase.none,
    freed := [] }

/-- The same shape of state caught in phase REMOVE_CYCLES: the free path
leaves it completely untouched. -/
def freeRtCexState : GCState :=
  { rc := fun _ => 0, mark := fun _ => 0, free_mark := fun _ => false,
    live := [0], tmp := [], zero := [], phase := GCPhase.removeCycles,
    freed := [] }

/-- A dump heap whose only GC cell is a JSContext (pointer 0); pointers
1 and 2 are the two synthetic container allocations the context walk
interns. -/
def gcdumpCexHeap : DHeap :=
  { cells := fun p =>
      if p = 0 then
        DCell.context
          { slots := [], nativeErrorArrPtr := 1, nativeErrorProtos := [],
            classProtoArrPtr := 2, classProtos := [], arrayShape := none }
      else DCell.opaquePtr,
    list := [0] }

/-! ## Invariant predicates used by the theorems -/

/-- Mid-pass invariant of gc_decref.  done lists the cells already
visited by the loop; D c is the number of edge decrements already applied
to c (the edges out of done, plus the consumed prefix of the current
cell's children). -/
structure DecMid (g : Graph) (s0 : GCState) (done : List Nat)
    (D : Nat → Nat) (s : GCState) : Prop where
  rc_eq : ∀ c, s.rc c = s0.rc c - (D c : Int)
  mark_eq : ∀ c, s.mark c = if c ∈ done then 1 else s0.mark c
  tmp_iff : ∀ c, c ∈ s.tmp ↔ (c ∈ done ∧ s.rc c = 0)
  tmp_nodup : s.tmp.Nodup
  live_iff : ∀ c, c ∈ s.live ↔ (c ∈ s0.live ∧ c ∉ s.tmp)
  live_nodup : s.live.Nodup
  zero_eq : s.zero = s0.zero
  phase_eq : s.phase = s0.phase
  fm_eq : s.free_mark = s0.free_mark
  freed_eq : s.freed = s0.freed

/-- Witness heap for the decref pass: cells 0 and 1 form a cycle, cell 2
is referenced by 0 and also held externally. -/
def decrefWitnessGraph : Graph :=
  { children := fun p => if p = 0 then [1, 2] else if p = 1 then [0]
                         else [] }

/-- Witness state matching decrefWitnessGraph. -/
def decrefWitnessState : GCState :=
  { rc := fun c => if c = 0 then 1 else if c = 1 then 1
                   else if c = 2 then 2 else 0,
    mark := fun _ => 0, free_mark := fun _ => false,
    live := [0, 1, 2], tmp := [], zero := [], phase := GCPhase.none,
    freed := [] }

/-- Reachability from a list of root cells along mark_children edges. -/
inductive Reach (g : Graph) (roots : List Nat) : Nat → Prop where
  | root (c : Nat) : c ∈ roots → Reach g roots c
  | step (p c : Nat) : Reach g roots p → c ∈ g.children p → Reach g roots c

/-- Invariant threaded through the gc_scan rescue loop.  L is the whole
cell population (live and tmp together), s the state at scan entry, proc
the cells whose children have been re-incremented so far, and D the
number of increments already applied per cell. -/
structure ScanInv (g : Graph) (L : List Nat) (s : GCState)
    (proc : List Nat) (D : Nat → Nat) (t : GCState) : Prop where
  live_ext : ∃ r, t.live = s.live ++ r
  part : ∀ c, c ∈ t.live ↔ (c ∈ L ∧ c ∉ t.tmp)
  live_nodup : t.live.Nodup
  tmp_sub : ∀ c ∈ t.tmp, c ∈ s.tmp
  tmp_nodup : t.tmp.Nodup
  rc_eq : ∀ c, t.rc c = s.rc c + (D c : Int)
  live_pos : ∀ c ∈ t.live, 0 < t.rc c
  tmp_zero : ∀ c ∈ t.tmp, t.rc c = 0
  reach : ∀ c ∈ t.live, Reach g s.live c
  proc_marks : ∀ c ∈ proc, t.mark c = 0
  tmp_marks : ∀ c ∈ t.tmp, t.mark c = s.mark c
  marks_out : ∀ c, c ∉ t.live → c ∉ t.tmp → t.mark c = s.mark c
  proc_closed : ∀ p ∈ proc, ∀ c ∈ g.children p, c ∈ t.live
  zero_eq : t.zero = s.zero
  phase_eq : t.phase = s.phase
  fm_eq : t.free_mark = s.free_mark
  freed_eq : t.freed = s.freed

/-- Outcome of the whole gc_scan pass over population L. -/
structure ScanRes (g : Graph) (L : List Nat) (s s2 : GCState) : Prop where
  live_reach : ∀ c, c ∈ s2.live ↔ Reach g s.live c
  tmp_char : ∀ c, c ∈ s2.tmp ↔ (c ∈ L ∧ ¬Reach g s.live c)
  rc_eq : ∀ c, s2.rc c = s.rc c + (indegFrom g L c : Int)
  live_marks : ∀ c ∈ s2.live, s2.mark c = 0
  tmp_marks : ∀ c ∈ s2.tmp, s2.mark c = s.mark c
  marks_out : ∀ c, c ∉ s2.live → c ∉ s2.tmp → s2.mark c = s.mark c
  live_pos : ∀ c ∈ s2.live, 0 < s2.rc c
  live_nodup : s2.live.Nodup
  tmp_nodup : s2.tmp.Nodup
  perm : (s2.live ++ s2.tmp).Perm L
  live_pref : ∃ r, s2.live = s.live ++ r
  zero_eq : s2.zero = s.zero
  phase_eq : s2.phase = s.phase
  fm_eq : s2.free_mark = s.free_mark
  freed_eq : s2.freed = s.freed

/-- Mid-fold invariant while free_object releases the children of the
zero-refcount cell p at the head of the drain: u is the prefix of
children already released.  The pool keeps the same elements (a released
child moves to the head of the zero list), refcounts drop by the
released occurrences, and zero-list cells (p included) stay at count
zero. -/
structure DrainMid (g : Graph) (s0 : GCState) (p : Nat) (u : List Nat)
    (t : GCState) : Prop where
  rc_eq : ∀ c, t.rc c = s0.rc c - (u.count c : Int)
  pperm : (t.live ++ t.tmp ++ t.zero).Perm (s0.live ++ s0.tmp ++ s0.zero)
  zeros : ∀ c ∈ t.zero, t.rc c = 0
  pz : p ∈ t.zero
  oldz : ∀ c ∈ s0.zero, c ∈ t.zero
  phase_eq : t.phase = s0.phase
  freed_eq : t.freed = s0.freed

/-- Invariant of the DECREF drain: a nodup pool whose refcounts cover
the internal references, zero-list cells at refcount zero (hence
unreferenced), children inside the pool. -/
structure DrainInv (g : Graph) (s : GCState) : Prop where
  nodup : (s.live ++ s.tmp ++ s.zero).Nodup
  counts : ∀ c, (indegFrom g (s.live ++ s.tmp ++ s.zero) c : Int) ≤ s.rc c
  closed : ∀ q ∈ s.live ++ s.tmp ++ s.zero, ∀ c ∈ g.children q,
    c ∈ s.live ++ s.tmp ++ s.zero
  zeros : ∀ c ∈ s.zero, s.rc c = 0
  phase_eq : s.phase = GCPhase.decref

/-- Well-formed mutator quiescent state: a runtime between operations,
with the refcount of every live cell at least its indegree from the live
list (the difference being the external references). -/
structure WFState (g : Graph) (s : GCState) : Prop where
  live_nodup : s.live.Nodup
  tmp_nil : s.tmp = []
  zero_nil : s.zero = []
  phase_none : s.phase = GCPhase.none
  marks : ∀ c ∈ s.live, s.mark c = 0
  closed : ∀ p ∈ s.live, ∀ c ∈ g.children p, c ∈ s.live
  counts : ∀ c ∈ s.live, (indegFrom g s.live c : Int) ≤ s.rc c

/-- Outcome of one full JS_RunGC over a well-formed state.  The condemned
set is the tmp_obj_list after the scan pass; the survivors are the cells
reachable from the externally referenced ones. -/
structure RunRes (g : Graph) (s0 : GCState) (r : GCState) : Prop where
  roots_char : ∀ c, c ∈ (gc_decref g s0).live ↔
    (c ∈ s0.live ∧ s0.rc c ≠ (indegFrom g s0.live c : Int))
  cond_char : ∀ c, c ∈ (gc_scan g (gc_decref g s0)).tmp ↔
    (c ∈ s0.live ∧ ¬Reach g (gc_decref g s0).live c)
  live_char : ∀ c, c ∈ r.live ↔ Reach g (gc_decref g s0).live c
  live_nodup : r.live.Nodup
  live_sub : ∀ c ∈ r.live, c ∈ s0.live
  tmp_nil : r.tmp = []
  zero_nil : r.zero = []
  phase_none : r.phase = GCPhase.none
  rc_eq : ∀ c, r.rc c =
    s0.rc c - (indegFrom g (gc_scan g (gc_decref g s0)).tmp c : Int)
  ext_eq : ∀ c, r.rc c - (indegFrom g r.live c : Int) =
    s0.rc c - (indegFrom g s0.live c : Int)
  live_marks : ∀ c ∈ r.live, r.mark c = 0
  marks_out : ∀ c, c ∉ s0.live → r.mark c = s0.mark c
  fm_cond : ∀ c ∈ (gc_scan g (gc_decref g s0)).tmp, r.free_mark c = true
  fm_out : ∀ c, c ∉ (gc_scan g (gc_decref g s0)).tmp →
    r.free_mark c = s0.free_mark c
  freed_eq : ∃ D, r.freed = s0.freed ++ D ∧
    (∀ c, c ∈ D ↔ c ∈ (gc_scan g (gc_decref g s0)).tmp)
  closed_live : ∀ p ∈ r.live, ∀ c ∈ g.children p, c ∈ r.live
  counts_live : ∀ c ∈ r.live, (indegFrom g r.live c : Int) ≤ r.rc c

/-- Well-formedness of a dump context: the running edge counter equals
the number of edge rows stored across the nodes, every edge's to_node is
a node index times NODE_FIELD_COUNT, every property edge's name is a
valid strings index, every node's name is a valid strings index or the
initial -2 placeholder, and the two hashmaps hold in-range indices. -/
structure Sane (dc : DumpCtx) : Prop where
  len_eq : dc.edges_len = (dc.nodes.map (fun n => n.edges.length)).sum
  edge_to : ∀ n ∈ dc.nodes, ∀ e ∈ n.edges,
    ∃ j, j < dc.nodes.length ∧ e.to_node = j * NODE_FIELD_COUNT
  edge_name : ∀ n ∈ dc.nodes, ∀ e ∈ n.edges,
    e.type = DEdgeType.property →
    ∃ k, k < dc.strs.length ∧ e.name_or_idx = (k : Int)
  name_ok : ∀ n ∈ dc.nodes,
    n.name = -2 ∨ ∃ k, k < dc.strs.length ∧ n.name = (k : Int)
  str2id_ok : ∀ pr ∈ dc.str2id, pr.2 < dc.strs.length
  obj2node_ok : ∀ pr ∈ dc.obj2node, pr.2 < dc.nodes.length

/-- Well-formedness of the result of a dump step, with the node and
string arrays only ever growing. -/
def SaneFrom (dc dc' : DumpCtx) : Prop :=
  Sane dc' ∧ dc.nodes.length ≤ dc'.nodes.length ∧
    dc.strs.length ≤ dc'.strs.length

/-! # Lemmas and theorems -/

@[simp] theorem updF_same {α : Type} (f : Nat → α) (k : Nat) (v : α) :
    updF f k v k = v := by simp [updF]

@[simp] theorem updF_other {α : Type} (f : Nat → α) (k : Nat) (v : α)
    (x : Nat) (h : x ≠ k) : updF f k v x = f x := by simp [updF, h]

/-! ## C5: the allocation-time GC trigger -/

/-- C5: for every allocation of size bytes, the automatic trigger runs
the collection exactly when allocated-plus-size exceeds the threshold
(the sizes staying below the size_t range); afterwards the threshold is
used + (used >> 1) of the post-collection usage; and the sentinel
threshold disables the trigger for every allocation. -/
theorem trigger_gc_spec (malloc_size gc_threshold size used_after : Nat)
    (hnowrap : malloc_size + size < W64)
    (hnowrap2 : used_after + used_after / 2 < W64) :
    ((js_trigger_gc malloc_size gc_threshold size used_after).1 = true ↔
      malloc_size + size > gc_threshold) ∧
    (malloc_size + size > gc_threshold →
      (js_trigger_gc malloc_size gc_threshold size used_after).2 =
        used_after + used_after / 2) ∧
    (∀ used sz used2,
      (js_trigger_gc used GC_THRESHOLD_DISABLED sz used2).1 = false) := by
  refine ⟨?_, ?_, ?_⟩
  · simp only [js_trigger_gc, js_trigger_gc_fires, Nat.mod_eq_of_lt hnowrap,
      gt_iff_lt, decide_eq_true_eq]
    by_cases h : gc_threshold < malloc_size + size <;> simp [h]
  · intro h
    simp [js_trigger_gc, js_trigger_gc_fires, Nat.mod_eq_of_lt hnowrap, h,
      js_trigger_gc_new_threshold, Nat.mod_eq_of_lt hnowrap2]
  · intro used sz used2
    simp only [js_trigger_gc, js_trigger_gc_fires, GC_THRESHOLD_DISABLED]
    have h1 : (used + sz) % W64 < W64 := Nat.mod_lt _ (by norm_num [W64])
    have h2 : (used + sz) % W64 ≤ W64 - 1 := by omega
    simp [Nat.not_lt.mpr h2]

/-- Witness for trigger_gc_spec at malloc_size 900, threshold 1024,
size 200, used-after 600. -/
theorem trigger_gc_spec_witness :
    ((js_trigger_gc 900 1024 200 600).1 = true ↔ 900 + 200 > 1024) ∧
    (900 + 200 > 1024 → (js_trigger_gc 900 1024 200 600).2 = 600 + 600 / 2) ∧
    (∀ used sz used2,
      (js_trigger_gc used GC_THRESHOLD_DISABLED sz used2).1 = false) :=
  trigger_gc_spec 900 1024 200 600 (by norm_num [W64]) (by norm_num [W64])

/-! ## C6: JS_IsLiveObject and the zombie flag -/

theorem release_child_free_mark (s : GCState) (c : Nat) :
    (release_child s c).free_mark = s.free_mark := by
  unfold release_child listDel
  dsimp only
  split
  · split <;> rfl
  · rfl

theorem foldl_release_child_free_mark (cs : List Nat) (s : GCState) :
    (cs.foldl release_child s).free_mark = s.free_mark := by
  induction cs generalizing s with
  | nil => rfl
  | cons c cs ih => simp [List.foldl_cons, ih, release_child_free_mark]

/-- free_object preserves an already-set zombie flag and sets the flag of
the object it tears down. -/
theorem free_object_free_mark (g : Graph) (s : GCState) (p q : Nat)
    (tr : GCTrace) :
    (free_object g s p tr).1.free_mark q =
      (updF s.free_mark p true) q := by
  unfold free_object listDel
  dsimp only
  split <;> simp [foldl_release_child_free_mark]

/-- C6: JS_IsLiveObject is false for non-objects and for objects whose
free_mark is set, true otherwise; free_object records the free_mark store
as its very first action, before any property release and before the
class finalizer; and once an object is torn down, it (and any previously
torn down peer) is observed dead by JS_IsLiveObject for the rest of the
free pass. -/
theorem is_live_object_spec :
    (∀ s v, JS_IsObject v = false → JS_IsLiveObject s v = false) ∧
    (∀ s p, s.free_mark p = true →
      JS_IsLiveObject s (JSValue.vObject p) = false) ∧
    (∀ s p, s.free_mark p = false →
      JS_IsLiveObject s (JSValue.vObject p) = true) ∧
    (∀ g s p tr, ∃ rest,
      (free_object g s p tr).2 = tr ++ GCEvent.setFreeMark p :: rest) ∧
    (∀ g s p tr,
      JS_IsLiveObject (free_object g s p tr).1 (JSValue.vObject p) = false) ∧
    (∀ g s p q tr, s.free_mark q = true →
      JS_IsLiveObject (free_object g s p tr).1 (JSValue.vObject q) = false) := by
  refine ⟨?_, ?_, ?_, ?_, ?_, ?_⟩
  · intro s v h
    cases v <;> simp_all [JS_IsObject, JS_IsLiveObject]
  · intro s p h; simp [JS_IsLiveObject, h]
  · intro s p h; simp [JS_IsLiveObject, h]
  · intro g s p tr
    unfold free_object listDel
    dsimp only
    split
    · exact ⟨(g.children p).map (fun c => GCEvent.releaseProp p c) ++
        [GCEvent.freePropArray p, GCEvent.freeShape p,
         GCEvent.classFinalizer p, GCEvent.unlink p, GCEvent.deferMem p],
        by simp⟩
    · exact ⟨(g.children p).map (fun c => GCEvent.releaseProp p c) ++
        [GCEvent.freePropArray p, GCEvent.freeShape p,
         GCEvent.classFinalizer p, GCEvent.unlink p, GCEvent.freeMem p],
        by simp⟩
  · intro g s p tr
    simp [JS_IsLiveObject, free_object_free_mark]
  · intro g s p q tr h
    simp [JS_IsLiveObject, free_object_free_mark, updF]
    intro _
    exact h

/-- Witness for is_live_object_spec: a one-object state, queried before
and after free_object tears the object down. -/
theorem is_live_object_spec_witness :
    let g0 : Graph := { children := fun _ => [] }
    let s0 : GCState :=
      { rc := fun _ => 0, mark := fun _ => 0, free_mark := fun _ => false,
        live := [0], tmp := [], zero := [], phase := GCPhase.decref,
        freed := [] }
    JS_IsLiveObject s0 (JSValue.vInt 7) = false ∧
    JS_IsLiveObject s0 (JSValue.vObject 0) = true ∧
    (∃ rest, (free_object g0 s0 0 []).2 =
      [] ++ GCEvent.setFreeMark 0 :: rest) ∧
    JS_IsLiveObject (free_object g0 s0 0 []).1 (JSValue.vObject 0) = false :=
  ⟨is_live_object_spec.1 _ (JSValue.vInt 7) rfl,
   (is_live_object_spec.2.2.1 _ 0 rfl),
   is_live_object_spec.2.2.2.1 _ _ 0 [],
   is_live_object_spec.2.2.2.2.1 _ _ 0 []⟩

/-! ## C7: the two-pass weak-ref sweep -/

theorem reset_weak_ref_pass1_effects (rec : Nat → WeakRecord)
    (chain : List Nat) (s : WeakState) :
    (reset_weak_ref_pass1 rec chain s).freedRecords = s.freedRecords ∧
    (reset_weak_ref_pass1 rec chain s).releasedValues = s.releasedValues ∧
    (reset_weak_ref_pass1 rec chain s).trace =
      s.trace ++ chain.map WeakEvent.unlink := by
  induction chain generalizing s with
  | nil => simp [reset_weak_ref_pass1]
  | cons mr rest ih =>
    simp only [reset_weak_ref_pass1, List.foldl_cons] at *
    refine ⟨(ih _).1, (ih _).2.1, ?_⟩
    rw [(ih _).2.2]
    simp

/-- Each pass-1 step only erases from the map lists, so membership can
only shrink. -/
theorem reset_weak_ref_pass1_sub (rec : Nat → WeakRecord)
    (chain : List Nat) (s : WeakState) (m : Nat) (x : Nat) :
    (x ∈ ((reset_weak_ref_pass1 rec chain s).maps m).hash →
      x ∈ (s.maps m).hash) ∧
    (x ∈ ((reset_weak_ref_pass1 rec chain s).maps m).order →
      x ∈ (s.maps m).order) := by
  induction chain generalizing s with
  | nil => simp [reset_weak_ref_pass1]
  | cons mr rest ih =>
    simp only [reset_weak_ref_pass1, List.foldl_cons] at *
    constructor
    · intro hx
      have := (ih _).1 hx
      by_cases hm : m = (rec mr).mapId
      · subst hm
        simp only [updF_same] at this
        exact List.mem_of_mem_erase this
      · simpa [updF, hm] using this
    · intro hx
      have := (ih _).2 hx
      by_cases hm : m = (rec mr).mapId
      · subst hm
        simp only [updF_same] at this
        exact List.mem_of_mem_erase this
      · simpa [updF, hm] using this

theorem reset_weak_ref_pass1_nodup (rec : Nat → WeakRecord)
    (chain : List Nat) (s : WeakState)
    (h : ∀ m, ((s.maps m).hash.Nodup ∧ (s.maps m).order.Nodup)) (m : Nat) :
    ((reset_weak_ref_pass1 rec chain s).maps m).hash.Nodup ∧
    ((reset_weak_ref_pass1 rec chain s).maps m).order.Nodup := by
  induction chain generalizing s with
  | nil => simpa [reset_weak_ref_pass1] using h m
  | cons mr rest ih =>
    simp only [reset_weak_ref_pass1, List.foldl_cons] at *
    apply ih
    intro m'
    by_cases hm : m' = (rec mr).mapId
    · subst hm
      simp only [updF_same]
      exact ⟨(h _).1.erase _, (h _).2.erase _⟩
    · simpa [updF, hm] using h m'

/-- Pass 1 removes every record of the chain from its owning map's hash
bucket and insertion-order list. -/
theorem reset_weak_ref_pass1_unlinks (rec : Nat → WeakRecord)
    (chain : List Nat) (s : WeakState)
    (h : ∀ m, ((s.maps m).hash.Nodup ∧ (s.maps m).order.Nodup)) :
    ∀ mr ∈ chain,
      mr ∉ ((reset_weak_ref_pass1 rec chain s).maps (rec mr).mapId).hash ∧
      mr ∉ ((reset_weak_ref_pass1 rec chain s).maps (rec mr).mapId).order := by
  induction chain generalizing s with
  | nil => intro mr hmr; simp at hmr
  | cons mr0 rest ih =>
    intro mr hmr
    simp only [reset_weak_ref_pass1, List.foldl_cons] at *
    rcases List.mem_cons.mp hmr with hEq | hRest
    · subst hEq
      constructor
      · intro hmem
        have := (reset_weak_ref_pass1_sub rec rest _ (rec mr).mapId mr).1 hmem
        simp only [updF_same] at this
        exact (h _).1.not_mem_erase this
      · intro hmem
        have := (reset_weak_ref_pass1_sub rec rest _ (rec mr).mapId mr).2 hmem
        simp only [updF_same] at this
        exact (h _).2.not_mem_erase this
    · apply ih
      · intro m'
        by_cases hm : m' = (rec mr0).mapId
        · subst hm
          simp only [updF_same]
          exact ⟨(h _).1.erase _, (h _).2.erase _⟩
        · simpa [updF, hm] using h m'
      · exact hRest

theorem reset_weak_ref_pass2_effects (rec : Nat → WeakRecord)
    (chain : List Nat) (s : WeakState) :
    (reset_weak_ref_pass2 rec chain s).freedRecords =
      s.freedRecords ++ chain ∧
    (reset_weak_ref_pass2 rec chain s).releasedValues =
      s.releasedValues ++ chain.map (fun mr => (rec mr).value) ∧
    (reset_weak_ref_pass2 rec chain s).trace =
      s.trace ++ (chain.map (fun mr =>
        [WeakEvent.releaseValue mr, WeakEvent.freeRecord mr])).flatten ∧
    (reset_weak_ref_pass2 rec chain s).maps = s.maps := by
  induction chain generalizing s with
  | nil => simp [reset_weak_ref_pass2]
  | cons mr rest ih =>
    simp only [reset_weak_ref_pass2, List.foldl_cons] at *
    refine ⟨?_, ?_, ?_, (ih _).2.2.2⟩
    · rw [(ih _).1]; simp
    · rw [(ih _).2.1]; simp
    · rw [(ih _).2.2.1]; simp

/-- C7: the sweep of a dying object's weak-record chain makes two passes:
pass 1 unlinks every record from the owning map's hash bucket and
insertion-order list while freeing nothing and releasing nothing; pass 2
then releases each record's value and frees each record struct; in the
event trace every free comes after the complete unlink prefix, so no
record's memory is freed before the first pass finished traversing the
chain. -/
theorem reset_weak_ref_spec (rec : Nat → WeakRecord) (chain : List Nat)
    (s : WeakState)
    (h : ∀ m, ((s.maps m).hash.Nodup ∧ (s.maps m).order.Nodup)) :
    (reset_weak_ref_pass1 rec chain s).freedRecords = s.freedRecords ∧
    (reset_weak_ref_pass1 rec chain s).releasedValues = s.releasedValues ∧
    (∀ mr ∈ chain,
      mr ∉ ((reset_weak_ref_pass1 rec chain s).maps (rec mr).mapId).hash ∧
      mr ∉ ((reset_weak_ref_pass1 rec chain s).maps (rec mr).mapId).order) ∧
    (reset_weak_ref rec chain s).freedRecords = s.freedRecords ++ chain ∧
    (reset_weak_ref rec chain s).releasedValues =
      s.releasedValues ++ chain.map (fun mr => (rec mr).value) ∧
    (reset_weak_ref rec chain s).trace =
      s.trace ++ chain.map WeakEvent.unlink ++
      (chain.map (fun mr =>
        [WeakEvent.releaseValue mr, WeakEvent.freeRecord mr])).flatten := by
  have h1 := reset_weak_ref_pass1_effects rec chain s
  have h2 := reset_weak_ref_pass2_effects rec chain
    (reset_weak_ref_pass1 rec chain s)
  refine ⟨h1.1, h1.2.1, reset_weak_ref_pass1_unlinks rec chain s h, ?_, ?_, ?_⟩
  · rw [show reset_weak_ref rec chain s =
      reset_weak_ref_pass2 rec chain (reset_weak_ref_pass1 rec chain s) from rfl,
      h2.1, h1.1]
  · rw [show reset_weak_ref rec chain s =
      reset_weak_ref_pass2 rec chain (reset_weak_ref_pass1 rec chain s) from rfl,
      h2.2.1, h1.2.1]
  · rw [show reset_weak_ref rec chain s =
      reset_weak_ref_pass2 rec chain (reset_weak_ref_pass1 rec chain s) from rfl,
      h2.2.2.1, h1.2.2]

/-- Witness for reset_weak_ref_spec: two records 5 and 7 owned by map 1,
values 100 and 200. -/
theorem reset_weak_ref_spec_witness :
    let rec0 : Nat → WeakRecord := fun mr =>
      if mr = 5 then { mapId := 1, value := 100 }
      else { mapId := 1, value := 200 }
    let s0 : WeakState :=
      { maps := fun m => if m = 1 then { hash := [5, 7], order := [7, 5] }
                         else { hash := [], order := [] },
        releasedValues := [], freedRecords := [], trace := [] }
    (reset_weak_ref_pass1 rec0 [5, 7] s0).freedRecords = [] ∧
    (reset_weak_ref_pass1 rec0 [5, 7] s0).releasedValues = [] ∧
    (∀ mr ∈ [5, 7],
      mr ∉ ((reset_weak_ref_pass1 rec0 [5, 7] s0).maps (rec0 mr).mapId).hash ∧
      mr ∉ ((reset_weak_ref_pass1 rec0 [5, 7] s0).maps (rec0 mr).mapId).order) ∧
    (reset_weak_ref rec0 [5, 7] s0).freedRecords = [] ++ [5, 7] ∧
    (reset_weak_ref rec0 [5, 7] s0).releasedValues =
      [] ++ [5, 7].map (fun mr => (rec0 mr).value) ∧
    (reset_weak_ref rec0 [5, 7] s0).trace =
      [] ++ [5, 7].map WeakEvent.unlink ++
      ([5, 7].map (fun mr =>
        [WeakEvent.releaseValue mr, WeakEvent.freeRecord mr])).flatten :=
  reset_weak_ref_spec _ [5, 7] _ (by
    intro m
    by_cases hm : m = 1 <;> simp [hm])

/-! ## C9: snapshot file output on open failure -/

/-- C9 (divergence from the claim): when fopen fails, the dumper does not
abandon the snapshot — the write sequence is still issued against the
failed handle (fprintf/fwrite/fclose on a NULL FILE*), and the intrinsic
returns JS_NULL on every run, successful or not, rather than as a failure
signal. -/
theorem gcdump_write2file_no_open_check :
    IOOp.fprintfOp false ∈ js_gcdump_write2file_io false ∧
    IOOp.fwriteOp false ∈ js_gcdump_write2file_io false ∧
    IOOp.fcloseOp false ∈ js_gcdump_write2file_io false ∧
    js_gcdump_objects_ret = JSValue.vNull := by
  refine ⟨?_, ?_, ?_, rfl⟩ <;> decide

/-! ## Decref pass characterization (towards C2, C3, C4) -/

theorem indegFrom_nil (g : Graph) (c : Nat) : indegFrom g [] c = 0 := rfl

theorem indegFrom_append (g : Graph) (a b : List Nat) (c : Nat) :
    indegFrom g (a ++ b) c = indegFrom g a c + indegFrom g b c := by
  simp [indegFrom]

theorem indegFrom_cons (g : Graph) (p : Nat) (b : List Nat) (c : Nat) :
    indegFrom g (p :: b) c = (g.children p).count c + indegFrom g b c := by
  simp [indegFrom]

/-- If no cell of ps has c among its children, the indegree of c from ps
is zero. -/
theorem indegFrom_eq_zero (g : Graph) (ps : List Nat) (c : Nat)
    (h : ∀ p ∈ ps, c ∉ g.children p) : indegFrom g ps c = 0 := by
  induction ps with
  | nil => rfl
  | cons p rest ih =>
    rw [indegFrom_cons, List.count_eq_zero.mpr (h p (by simp)),
      ih (fun q hq => h q (by simp [hq]))]

theorem DecMid.congrD {g : Graph} {s0 : GCState} {done : List Nat}
    {D D' : Nat → Nat} {s : GCState} (h : DecMid g s0 done D s)
    (hD : ∀ c, D c = D' c) : DecMid g s0 done D' s :=
  { h with rc_eq := fun c => by rw [h.rc_eq c, hD c] }

/-- Folding gc_decref_child over the remaining children of the cell being
visited preserves the mid-pass invariant. -/
theorem decref_children_fold (g : Graph) (s0 : GCState)
    (hnodup : s0.live.Nodup)
    (hmarks : ∀ c ∈ s0.live, s0.mark c = 0)
    (hclosed : ∀ p ∈ s0.live, ∀ c ∈ g.children p, c ∈ s0.live)
    (hcounts : ∀ c ∈ s0.live, (indegFrom g s0.live c : Int) ≤ s0.rc c)
    (done rest' : List Nat) (p : Nat) (hL : s0.live = done ++ p :: rest') :
    ∀ v u s, g.children p = u ++ v →
      DecMid g s0 done (fun c => indegFrom g done c + u.count c) s →
      DecMid g s0 done
        (fun c => indegFrom g done c + (g.children p).count c)
        (v.foldl gc_decref_child s) := by
  intro v
  induction v with
  | nil =>
    intro u s hsplit hmid
    simp only [List.foldl_nil]
    exact hmid.congrD (fun c => by rw [hsplit]; simp)
  | cons c v' ih =>
    intro u s hsplit hmid
    have hpmem : p ∈ s0.live := by rw [hL]; simp
    have hcmem : c ∈ s0.live :=
      hclosed p hpmem c (by rw [hsplit]; simp)
    -- consumed decrements of c so far stay strictly below its indegree
    have hbound : (indegFrom g done c + u.count c : Int) + 1 ≤ s0.rc c := by
      have h1 : indegFrom g s0.live c =
          indegFrom g done c + (g.children p).count c +
            indegFrom g rest' c := by
        rw [hL, indegFrom_append, indegFrom_cons]; ring
      have h2 : u.count c + 1 ≤ (g.children p).count c := by
        rw [hsplit]; simp [List.count_append, List.count_cons]
      have h3 := hcounts c hcmem
      have h4 : (indegFrom g done c + u.count c + 1 : Nat) ≤
          indegFrom g s0.live c := by omega
      omega
    have hrc_pos : 0 < s.rc c := by
      have h5 := hmid.rc_eq c
      push_cast at h5
      omega
    have hcnot : c ∉ s.tmp := by
      intro hmem
      have h6 := ((hmid.tmp_iff c).mp hmem).2
      omega
    -- the decremented count of c
    have hrc' : s.rc c - 1 =
        s0.rc c - ((indegFrom g done c + (u ++ [c]).count c : Nat) : Int) := by
      have h7 := hmid.rc_eq c
      have h8 : (u ++ [c]).count c = u.count c + 1 := by simp
      rw [h8]
      push_cast at h7 ⊢
      omega
    have hstep : DecMid g s0 done
        (fun x => indegFrom g done x + (u ++ [c]).count x)
        (gc_decref_child s c) := by
      unfold gc_decref_child
      dsimp only
      by_cases hmove : s.rc c - 1 = 0 ∧ s.mark c = 1
      · have hcdone : c ∈ done := by
          by_contra hnd
          have := hmid.mark_eq c
          rw [if_neg hnd, hmarks c hcmem] at this
          omega
        rw [if_pos hmove]
        refine ⟨?_, ?_, ?_, ?_, ?_, ?_, hmid.zero_eq, hmid.phase_eq,
          hmid.fm_eq, hmid.freed_eq⟩
        · intro x
          dsimp only
          by_cases hx : x = c
          · subst hx; rw [updF_same, hrc']
          · rw [updF_other _ _ _ _ hx, hmid.rc_eq x]
            simp [List.count_append, List.count_cons, hx]
        · exact hmid.mark_eq
        · intro x
          dsimp only
          by_cases hx : x = c
          · subst hx
            simp only [List.mem_append, List.mem_singleton, updF_same]
            constructor
            · intro _; exact ⟨hcdone, hmove.1⟩
            · intro _; exact Or.inr trivial
          · simp only [List.mem_append, List.mem_singleton, hx,
              or_false, updF_other _ _ _ _ hx]
            exact hmid.tmp_iff x
        · exact hmid.tmp_nodup.append (by simp)
            (by simp; intro h; exact hcnot h)
        · intro x
          dsimp only
          by_cases hx : x = c
          · subst hx
            constructor
            · intro hmem
              exact absurd hmem (hmid.live_nodup.not_mem_erase)
            · intro ⟨_, hnot⟩
              exact absurd (by simp) hnot
          · rw [List.Nodup.mem_erase_iff hmid.live_nodup]
            rw [hmid.live_iff x]
            simp only [List.mem_append, List.mem_singleton]
            constructor
            · intro ⟨hne, hx0, hnt⟩
              exact ⟨hx0, by simp [hne, hnt, hx]⟩
            · intro ⟨hx0, hnt⟩
              refine ⟨hx, hx0, ?_⟩
              intro hmem
              exact hnt (Or.inl hmem)
        · exact hmid.live_nodup.erase c
      · rw [if_neg hmove]
        refine ⟨?_, hmid.mark_eq, ?_, hmid.tmp_nodup, ?_,
          hmid.live_nodup, hmid.zero_eq, hmid.phase_eq, hmid.fm_eq,
          hmid.freed_eq⟩
        · intro x
          dsimp only
          by_cases hx : x = c
          · subst hx; rw [updF_same, hrc']
          · rw [updF_other _ _ _ _ hx, hmid.rc_eq x]
            simp [List.count_append, List.count_cons, hx]
        · intro x
          dsimp only
          by_cases hx : x = c
          · subst hx
            simp only [updF_same]
            constructor
            · intro hmem; exact absurd hmem hcnot
            · intro ⟨hdone, hzero⟩
              exfalso
              apply hmove
              refine ⟨hzero, ?_⟩
              rw [hmid.mark_eq x, if_pos hdone]
          · rw [updF_other _ _ _ _ hx]
            exact hmid.tmp_iff x
        · intro x
          dsimp only
          rw [hmid.live_iff x]
    have := ih (u ++ [c]) (gc_decref_child s c)
      (by rw [hsplit, List.append_assoc]; rfl) hstep
    simpa using this

theorem indegFrom_single (g : Graph) (p c : Nat) :
    indegFrom g [p] c = (g.children p).count c := by
  simp [indegFrom]

/-- One gc_decref_step iteration advances the mid-pass invariant past the
visited cell. -/
theorem decref_step_inv (g : Graph) (s0 : GCState)
    (hnodup : s0.live.Nodup)
    (hmarks : ∀ c ∈ s0.live, s0.mark c = 0)
    (hclosed : ∀ p ∈ s0.live, ∀ c ∈ g.children p, c ∈ s0.live)
    (hcounts : ∀ c ∈ s0.live, (indegFrom g s0.live c : Int) ≤ s0.rc c)
    (done rest' : List Nat) (p : Nat) (hL : s0.live = done ++ p :: rest')
    (s : GCState)
    (hInv : DecMid g s0 done (fun c => indegFrom g done c) s) :
    DecMid g s0 (done ++ [p]) (fun c => indegFrom g (done ++ [p]) c)
      (gc_decref_step g s p) := by
  have hfold := decref_children_fold g s0 hnodup hmarks hclosed hcounts
    done rest' p hL (g.children p) [] s (by simp)
    (hInv.congrD (fun c => by simp))
  have hnd2 : (done ++ p :: rest').Nodup := hL ▸ hnodup
  have hdisj := (List.nodup_append.mp hnd2).2.2
  have hpnd : p ∉ done := fun hmem => hdisj hmem (List.mem_cons_self p rest')
  have hD : ∀ c, indegFrom g (done ++ [p]) c =
      indegFrom g done c + (g.children p).count c := by
    intro c
    rw [indegFrom_append, indegFrom_single]
  unfold gc_decref_step
  dsimp only
  have hpnt : p ∉ ((g.children p).foldl gc_decref_child s).tmp := by
    intro hmem
    exact hpnd ((hfold.tmp_iff p).mp hmem).1
  by_cases hz : ((g.children p).foldl gc_decref_child s).rc p = 0
  · rw [if_pos hz]
    refine ⟨?_, ?_, ?_, ?_, ?_, ?_, hfold.zero_eq, hfold.phase_eq,
      hfold.fm_eq, hfold.freed_eq⟩
    · intro c
      dsimp only
      rw [hfold.rc_eq c, hD c]
    · intro c
      dsimp only
      by_cases hc : c = p
      · subst hc
        rw [updF_same, if_pos (by simp)]
      · rw [updF_other _ _ _ _ hc, hfold.mark_eq c]
        by_cases hcd : c ∈ done
        · rw [if_pos hcd, if_pos (by simp [hcd])]
        · rw [if_neg hcd, if_neg (by simp [hcd, hc])]
    · intro x
      dsimp only
      by_cases hx : x = p
      · subst hx
        simp only [List.mem_append, List.mem_singleton]
        constructor
        · intro _; exact ⟨by simp, hz⟩
        · intro _; exact Or.inr trivial
      · simp only [List.mem_append, List.mem_singleton, hx, or_false]
        rw [hfold.tmp_iff x]
    · exact hfold.tmp_nodup.append (by simp)
        (by simp only [List.disjoint_singleton]; exact hpnt)
    · intro x
      dsimp only
      by_cases hx : x = p
      · subst hx
        constructor
        · intro hmem
          exact absurd hmem hfold.live_nodup.not_mem_erase
        · intro ⟨_, hnot⟩
          exact absurd (by simp) hnot
      · rw [List.Nodup.mem_erase_iff hfold.live_nodup, hfold.live_iff x]
        simp only [List.mem_append, List.mem_singleton]
        constructor
        · intro ⟨hne, hx0, hnt⟩
          exact ⟨hx0, by simp [hne, hnt, hx]⟩
        · intro ⟨hx0, hnt⟩
          refine ⟨hx, hx0, ?_⟩
          intro hmem
          exact hnt (Or.inl hmem)
    · exact hfold.live_nodup.erase p
  · rw [if_neg hz]
    refine ⟨?_, ?_, ?_, hfold.tmp_nodup, ?_, hfold.live_nodup,
      hfold.zero_eq, hfold.phase_eq, hfold.fm_eq, hfold.freed_eq⟩
    · intro c
      dsimp only
      rw [hfold.rc_eq c, hD c]
    · intro c
      dsimp only
      by_cases hc : c = p
      · subst hc
        rw [updF_same, if_pos (by simp)]
      · rw [updF_other _ _ _ _ hc, hfold.mark_eq c]
        by_cases hcd : c ∈ done
        · rw [if_pos hcd, if_pos (by simp [hcd])]
        · rw [if_neg hcd, if_neg (by simp [hcd, hc])]
    · intro x
      dsimp only
      by_cases hx : x = p
      · subst hx
        constructor
        · intro hmem; exact absurd hmem hpnt
        · intro ⟨_, hzero⟩; exact absurd hzero hz
      · rw [hfold.tmp_iff x]
        simp [hx]
    · intro x
      dsimp only
      rw [hfold.live_iff x]

/-- The gc_decref loop maintains the invariant over the whole initial
gc_obj_list. -/
theorem decref_loop (g : Graph) (s0 : GCState)
    (hnodup : s0.live.Nodup)
    (hmarks : ∀ c ∈ s0.live, s0.mark c = 0)
    (hclosed : ∀ p ∈ s0.live, ∀ c ∈ g.children p, c ∈ s0.live)
    (hcounts : ∀ c ∈ s0.live, (indegFrom g s0.live c : Int) ≤ s0.rc c) :
    ∀ todo done s, s0.live = done ++ todo →
      DecMid g s0 done (fun c => indegFrom g done c) s →
      DecMid g s0 s0.live (fun c => indegFrom g s0.live c)
        (todo.foldl (gc_decref_step g) s) := by
  intro todo
  induction todo with
  | nil =>
    intro done s hL hInv
    simp only [List.foldl_nil]
    rw [List.append_nil] at hL
    exact hL ▸ hInv
  | cons p rest ih =>
    intro done s hL hInv
    simp only [List.foldl_cons]
    exact ih (done ++ [p]) (gc_decref_step g s p)
      (by rw [hL, List.append_assoc]; rfl)
      (decref_step_inv g s0 hnodup hmarks hclosed hcounts done rest p hL s
        hInv)

/-- Master characterization of gc_decref: the invariant at the end of the
pass. -/
theorem gc_decref_char (g : Graph) (s0 : GCState)
    (hnodup : s0.live.Nodup)
    (hmarks : ∀ c ∈ s0.live, s0.mark c = 0)
    (hclosed : ∀ p ∈ s0.live, ∀ c ∈ g.children p, c ∈ s0.live)
    (hcounts : ∀ c ∈ s0.live, (indegFrom g s0.live c : Int) ≤ s0.rc c) :
    DecMid g s0 s0.live (fun c => indegFrom g s0.live c)
      (gc_decref g s0) := by
  apply decref_loop g s0 hnodup hmarks hclosed hcounts s0.live [] _ rfl
  refine ⟨?_, ?_, ?_, by simp, ?_, hnodup, rfl, rfl, rfl, rfl⟩
  · intro c
    simp [indegFrom]
  · intro c
    simp
  · intro c
    simp
  · intro c
    simp

/-- C2: in the decref pass every cell's count is decremented once per
incoming reference from the live list (gc_decref_child moving a child to
tmp exactly when its count becomes zero with mark already 1, and
gc_decref moving the visited cell itself after marking it); at the end of
the pass every visited cell has mark 1, and tmp_obj_list holds exactly
the cells whose whole ref_count was contributed by the live set — the
externally unreachable candidates — while gc_obj_list keeps the rest. -/
theorem gc_decref_spec (g : Graph) (s0 : GCState)
    (hnodup : s0.live.Nodup)
    (hmarks : ∀ c ∈ s0.live, s0.mark c = 0)
    (hclosed : ∀ p ∈ s0.live, ∀ c ∈ g.children p, c ∈ s0.live)
    (hcounts : ∀ c ∈ s0.live, (indegFrom g s0.live c : Int) ≤ s0.rc c) :
    (∀ c, (gc_decref g s0).rc c =
      s0.rc c - (indegFrom g s0.live c : Int)) ∧
    (∀ c ∈ s0.live, (gc_decref g s0).mark c = 1) ∧
    (∀ c, c ∈ (gc_decref g s0).tmp ↔
      (c ∈ s0.live ∧ s0.rc c = (indegFrom g s0.live c : Int))) ∧
    (∀ c, c ∈ (gc_decref g s0).live ↔
      (c ∈ s0.live ∧ s0.rc c ≠ (indegFrom g s0.live c : Int))) := by
  have h := gc_decref_char g s0 hnodup hmarks hclosed hcounts
  refine ⟨h.rc_eq, ?_, ?_, ?_⟩
  · intro c hc
    rw [h.mark_eq c, if_pos hc]
  · intro c
    rw [h.tmp_iff c, h.rc_eq c]
    constructor
    · intro ⟨h1, h2⟩; exact ⟨h1, by omega⟩
    · intro ⟨h1, h2⟩; exact ⟨h1, by omega⟩
  · intro c
    rw [h.live_iff c, h.tmp_iff c, h.rc_eq c]
    constructor
    · intro ⟨h1, h2⟩
      refine ⟨h1, ?_⟩
      intro he
      exact h2 ⟨h1, by omega⟩
    · intro ⟨h1, h2⟩
      refine ⟨h1, ?_⟩
      intro hand
      exact h2 (by omega)

/-- Witness for gc_decref_spec on the concrete two-cycle-plus-leaf
heap. -/
theorem gc_decref_spec_witness :
    (∀ c, (gc_decref decrefWitnessGraph decrefWitnessState).rc c =
      decrefWitnessState.rc c -
        (indegFrom decrefWitnessGraph decrefWitnessState.live c : Int)) ∧
    (∀ c ∈ decrefWitnessState.live,
      (gc_decref decrefWitnessGraph decrefWitnessState).mark c = 1) ∧
    (∀ c, c ∈ (gc_decref decrefWitnessGraph decrefWitnessState).tmp ↔
      (c ∈ decrefWitnessState.live ∧ decrefWitnessState.rc c =
        (indegFrom decrefWitnessGraph decrefWitnessState.live c : Int))) ∧
    (∀ c, c ∈ (gc_decref decrefWitnessGraph decrefWitnessState).live ↔
      (c ∈ decrefWitnessState.live ∧ decrefWitnessState.rc c ≠
        (indegFrom decrefWitnessGraph decrefWitnessState.live c : Int))) :=
  gc_decref_spec decrefWitnessGraph decrefWitnessState (by decide)
    (by decide) (by decide) (by decide)

/-! ## Scan pass characterization (towards C3, C4) -/

/-- Reachability only depends on the roots through membership, and is
monotone in the root set. -/
theorem Reach.mono {g : Graph} {r1 r2 : List Nat}
    (hsub : ∀ x ∈ r1, x ∈ r2) {c : Nat} (h : Reach g r1 c) :
    Reach g r2 c := by
  induction h with
  | root c hc => exact Reach.root c (hsub c hc)
  | step p c _ hc ih => exact Reach.step p c ih hc

/-- Everything reachable from roots inside a children-closed population L
stays in L. -/
theorem Reach.mem_of_closed {g : Graph} {roots L : List Nat}
    (hroots : ∀ x ∈ roots, x ∈ L)
    (hclosed : ∀ p ∈ L, ∀ c ∈ g.children p, c ∈ L) {c : Nat}
    (h : Reach g roots c) : c ∈ L := by
  induction h with
  | root c hc => exact hroots c hc
  | step p c _ hc ih => exact hclosed p ih c hc

theorem ScanInv.congrS {g : Graph} {L : List Nat} {s : GCState}
    {proc : List Nat} {D D' : Nat → Nat} {t : GCState}
    (h : ScanInv g L s proc D t) (hD : ∀ c, D c = D' c) :
    ScanInv g L s proc D' t :=
  { h with rc_eq := fun c => by rw [h.rc_eq c, hD c] }

/-- Folding gc_scan_incref_child over the children of a cell p already on
the (growing) live list preserves the scan invariant, extending the
increment count by the consumed prefix. -/
theorem scan_children_fold (g : Graph) (L : List Nat) (s : GCState)
    (hclosed : ∀ p ∈ L, ∀ c ∈ g.children p, c ∈ L)
    (proc : List Nat) (p : Nat) :
    ∀ v u t, g.children p = u ++ v → p ∈ t.live →
      ScanInv g L s proc (fun c => indegFrom g proc c + u.count c) t →
      (∀ c ∈ u, c ∈ t.live) →
      ScanInv g L s proc
          (fun c => indegFrom g proc c + (g.children p).count c)
          (v.foldl gc_scan_incref_child t) ∧
        (∀ c ∈ g.children p, c ∈ (v.foldl gc_scan_incref_child t).live) ∧
        (∃ r, (v.foldl gc_scan_incref_child t).live = t.live ++ r) ∧
        p ∈ (v.foldl gc_scan_incref_child t).live ∧
        (∀ c, t.mark c = 0 →
          (v.foldl gc_scan_incref_child t).mark c = 0) := by
  intro v
  induction v with
  | nil =>
    intro u t hsplit hp hinv hu
    simp only [List.foldl_nil]
    refine ⟨hinv.congrS (fun c => by rw [hsplit]; simp), ?_, ⟨[], by simp⟩,
      hp, fun c hc => hc⟩
    intro c hc
    rw [hsplit, List.append_nil] at hc
    exact hu c hc
  | cons c v' ih =>
    intro u t hsplit hp hinv hu
    have hpL : p ∈ L := ((hinv.part p).mp hp).1
    have hcL : c ∈ L := hclosed p hpL c (by rw [hsplit]; simp)
    simp only [List.foldl_cons]
    have hcount_self : (u ++ [c]).count c = u.count c + 1 := by simp
    have hcount_oth : ∀ x, x ≠ c → (u ++ [c]).count x = u.count x := by
      intro x hx
      simp [List.count_append, hx]
    by_cases hmem : c ∈ t.tmp
    -- the child is on tmp_obj_list: its count was 0, it is rescued
    · have hrc0 : t.rc c = 0 := hinv.tmp_zero c hmem
      have hcnl : c ∉ t.live := by
        intro hl
        exact ((hinv.part c).mp hl).2 hmem
      have hstep : gc_scan_incref_child t c =
          { t with rc := updF t.rc c (t.rc c + 1),
                   tmp := t.tmp.erase c,
                   live := t.live ++ [c],
                   mark := updF t.mark c 0 } := by
        unfold gc_scan_incref_child
        rw [if_pos (by omega)]
      have hinv' : ScanInv g L s proc
          (fun x => indegFrom g proc x + (u ++ [c]).count x)
          (gc_scan_incref_child t c) := by
        rw [hstep]
        refine ⟨?_, ?_, ?_, ?_, ?_, ?_, ?_, ?_, ?_, ?_, ?_, ?_, ?_,
          hinv.zero_eq, hinv.phase_eq, hinv.fm_eq, hinv.freed_eq⟩
        · obtain ⟨r, hr⟩ := hinv.live_ext
          exact ⟨r ++ [c], by simp [hr]⟩
        · intro x
          dsimp only
          by_cases hx : x = c
          · subst hx
            simp only [List.mem_append, List.mem_singleton]
            constructor
            · intro _
              exact ⟨hcL, hinv.tmp_nodup.not_mem_erase⟩
            · intro _
              exact Or.inr trivial
          · simp only [List.mem_append, List.mem_singleton, hx, or_false]
            rw [hinv.part x, List.Nodup.mem_erase_iff hinv.tmp_nodup]
            simp [hx]
        · exact hinv.live_nodup.append (by simp) (by
            simp only [List.disjoint_singleton]
            exact hcnl)
        · intro x hx
          exact hinv.tmp_sub x (List.mem_of_mem_erase hx)
        · exact hinv.tmp_nodup.erase c
        · intro x
          dsimp only
          by_cases hx : x = c
          · subst hx
            rw [updF_same, hinv.rc_eq x, hcount_self]
            push_cast
            ring
          · rw [updF_other _ _ _ _ hx, hinv.rc_eq x, hcount_oth x hx]
        · intro x hx
          dsimp only at hx ⊢
          rcases List.mem_append.mp hx with hxl | hxc
          · by_cases hxc2 : x = c
            · subst hxc2; rw [updF_same]; omega
            · rw [updF_other _ _ _ _ hxc2]
              exact hinv.live_pos x hxl
          · have : x = c := by simpa using hxc
            subst this
            rw [updF_same]
            omega
        · intro x hx
          dsimp only at hx ⊢
          have hxt : x ∈ t.tmp := List.mem_of_mem_erase hx
          have hxc : x ≠ c := by
            intro he
            subst he
            exact hinv.tmp_nodup.not_mem_erase hx
          rw [updF_other _ _ _ _ hxc]
          exact hinv.tmp_zero x hxt
        · intro x hx
          dsimp only at hx
          rcases List.mem_append.mp hx with hxl | hxc
          · exact hinv.reach x hxl
          · have : x = c := by simpa using hxc
            subst this
            exact Reach.step p x (hinv.reach p hp) (by rw [hsplit]; simp)
        · intro x hx
          dsimp only
          by_cases hxc : x = c
          · subst hxc; rw [updF_same]
          · rw [updF_other _ _ _ _ hxc]
            exact hinv.proc_marks x hx
        · intro x hx
          dsimp only at hx ⊢
          have hxt : x ∈ t.tmp := List.mem_of_mem_erase hx
          have hxc : x ≠ c := by
            intro he
            subst he
            exact hinv.tmp_nodup.not_mem_erase hx
          rw [updF_other _ _ _ _ hxc]
          exact hinv.tmp_marks x hxt
        · intro x hxl hxt
          dsimp only at hxl hxt ⊢
          have hxc : x ≠ c := by
            intro he
            subst he
            exact hxl (List.mem_append_right _ (by simp))
          rw [updF_other _ _ _ _ hxc]
          apply hinv.marks_out x
          · intro hm
            exact hxl (List.mem_append_left _ hm)
          · intro hm
            exact hxt ((List.Nodup.mem_erase_iff hinv.tmp_nodup).mpr
              ⟨hxc, hm⟩)
        · intro q hq x hx
          dsimp only
          exact List.mem_append_left _ (hinv.proc_closed q hq x hx)
      have hrec := ih (u ++ [c]) (gc_scan_incref_child t c)
        (by rw [hsplit, List.append_assoc]; rfl)
        (by rw [hstep]; exact List.mem_append_left _ hp)
        hinv'
        (by
          intro x hx
          rw [hstep]
          dsimp only
          rcases List.mem_append.mp hx with hxu | hxc
          · exact List.mem_append_left _ (hu x hxu)
          · have : x = c := by simpa using hxc
            subst this
            exact List.mem_append_right _ (by simp))
      refine ⟨hrec.1, hrec.2.1, ?_, hrec.2.2.2.1, ?_⟩
      · obtain ⟨r, hr⟩ := hrec.2.2.1
        refine ⟨[c] ++ r, ?_⟩
        rw [hr, hstep]
        simp
      · intro x hx
        apply hrec.2.2.2.2 x
        rw [hstep]
        dsimp only
        by_cases hxc : x = c
        · subst hxc; rw [updF_same]
        · rw [updF_other _ _ _ _ hxc]; exact hx
    -- the child is already live: its count is positive, increment only
    · have hcl : c ∈ t.live := (hinv.part c).mpr ⟨hcL, hmem⟩
      have hpos : 0 < t.rc c := hinv.live_pos c hcl
      have hstep : gc_scan_incref_child t c =
          { t with rc := updF t.rc c (t.rc c + 1) } := by
        unfold gc_scan_incref_child
        rw [if_neg (by omega)]
      have hinv' : ScanInv g L s proc
          (fun x => indegFrom g proc x + (u ++ [c]).count x)
          (gc_scan_incref_child t c) := by
        rw [hstep]
        refine ⟨hinv.live_ext, hinv.part, hinv.live_nodup, hinv.tmp_sub,
          hinv.tmp_nodup, ?_, ?_, ?_, hinv.reach, hinv.proc_marks,
          hinv.tmp_marks, hinv.marks_out, hinv.proc_closed, hinv.zero_eq,
          hinv.phase_eq, hinv.fm_eq, hinv.freed_eq⟩
        · intro x
          dsimp only
          by_cases hx : x = c
          · subst hx
            rw [updF_same, hinv.rc_eq x, hcount_self]
            push_cast
            ring
          · rw [updF_other _ _ _ _ hx, hinv.rc_eq x, hcount_oth x hx]
        · intro x hx
          dsimp only
          by_cases hxc : x = c
          · subst hxc; rw [updF_same]; omega
          · rw [updF_other _ _ _ _ hxc]
            exact hinv.live_pos x hx
        · intro x hx
          dsimp only
          have hxc : x ≠ c := by
            intro he
            subst he
            exact hmem hx
          rw [updF_other _ _ _ _ hxc]
          exact hinv.tmp_zero x hx
      have hrec := ih (u ++ [c]) (gc_scan_incref_child t c)
        (by rw [hsplit, List.append_assoc]; rfl)
        (by rw [hstep]; exact hp)
        hinv'
        (by
          intro x hx
          rw [hstep]
          dsimp only
          rcases List.mem_append.mp hx with hxu | hxc
          · exact hu x hxu
          · have : x = c := by simpa using hxc
            subst this
            exact hcl)
      refine ⟨hrec.1, hrec.2.1, ?_, hrec.2.2.2.1, ?_⟩
      · obtain ⟨r, hr⟩ := hrec.2.2.1
        exact ⟨r, by rw [hr, hstep]⟩
      · intro x hx
        apply hrec.2.2.2.2 x
        rw [hstep]
        exact hx

/-- In any scan state, gc_obj_list and tmp_obj_list together are a
permutation of the population L. -/
theorem scanInv_perm (g : Graph) (L : List Nat) (s : GCState)
    (proc : List Nat) (D : Nat → Nat) (t : GCState)
    (hLnodup : L.Nodup) (hstmp : ∀ c ∈ s.tmp, c ∈ L)
    (h : ScanInv g L s proc D t) : (t.live ++ t.tmp).Perm L := by
  have hnd : (t.live ++ t.tmp).Nodup := by
    refine h.live_nodup.append h.tmp_nodup ?_
    intro a ha hat
    exact ((h.part a).mp ha).2 hat
  rw [List.perm_ext_iff_of_nodup hnd hLnodup]
  intro a
  constructor
  · intro ha
    rcases List.mem_append.mp ha with hl | ht
    · exact ((h.part a).mp hl).1
    · exact hstmp a (h.tmp_sub a ht)
  · intro ha
    by_cases ht : a ∈ t.tmp
    · exact List.mem_append_right _ ht
    · exact List.mem_append_left _ ((h.part a).mpr ⟨ha, ht⟩)

/-- The cursor of the rescue loop reaches the end of the growing
gc_obj_list within the fuel budget, and the invariant then covers every
cell of the final list. -/
theorem scan_pass1_loop (g : Graph) (L : List Nat) (s : GCState)
    (hLnodup : L.Nodup)
    (hclosed : ∀ p ∈ L, ∀ c ∈ g.children p, c ∈ L)
    (hstmp : ∀ c ∈ s.tmp, c ∈ L) :
    ∀ fuel i t,
      ScanInv g L s (t.live.take i)
        (fun c => indegFrom g (t.live.take i) c) t →
      L.length ≤ fuel + i →
      ScanInv g L s (gc_scan_pass1 g fuel i t).live
        (fun c => indegFrom g (gc_scan_pass1 g fuel i t).live c)
        (gc_scan_pass1 g fuel i t) := by
  intro fuel
  induction fuel with
  | zero =>
    intro i t hinv hfuel
    have hlen := (scanInv_perm g L s _ _ t hLnodup hstmp hinv).length_eq
    simp only [List.length_append] at hlen
    have hle : t.live.length ≤ i := by omega
    have htake : t.live.take i = t.live := List.take_of_length_le hle
    rw [htake] at hinv
    exact hinv
  | succ n ih =>
    intro i t hinv hfuel
    by_cases h : i < t.live.length
    · rw [show gc_scan_pass1 g (n + 1) i t =
          gc_scan_pass1 g n (i + 1)
            ((g.children (t.live.get ⟨i, h⟩)).foldl gc_scan_incref_child
              { t with mark := updF t.mark (t.live.get ⟨i, h⟩) 0 }) from by
        rw [gc_scan_pass1]
        rw [dif_pos h]]
      have hpmem : t.live.get ⟨i, h⟩ ∈ t.live := t.live.get_mem _ _
      set p := t.live.get ⟨i, h⟩ with hp
      have hpnt : p ∉ t.tmp := ((hinv.part p).mp hpmem).2
      -- the invariant survives the mark reset of the visited cell
      have hinv1 : ScanInv g L s (t.live.take i)
          (fun c => indegFrom g (t.live.take i) c + List.count c [])
          { t with mark := updF t.mark p 0 } := by
        refine ⟨hinv.live_ext, hinv.part, hinv.live_nodup, hinv.tmp_sub,
          hinv.tmp_nodup, ?_, hinv.live_pos, hinv.tmp_zero, hinv.reach,
          ?_, ?_, ?_, hinv.proc_closed, hinv.zero_eq, hinv.phase_eq,
          hinv.fm_eq, hinv.freed_eq⟩
        · intro c
          rw [hinv.rc_eq c]
          simp
        · intro c hc
          dsimp only
          by_cases hcp : c = p
          · subst hcp; rw [updF_same]
          · rw [updF_other _ _ _ _ hcp]
            exact hinv.proc_marks c hc
        · intro c hc
          dsimp only
          have hcp : c ≠ p := by
            intro he
            subst he
            exact hpnt hc
          rw [updF_other _ _ _ _ hcp]
          exact hinv.tmp_marks c hc
        · intro c hcl hct
          dsimp only at hcl hct ⊢
          have hcp : c ≠ p := by
            intro he
            subst he
            exact hcl hpmem
          rw [updF_other _ _ _ _ hcp]
          exact hinv.marks_out c hcl hct
      have hfold := scan_children_fold g L s hclosed (t.live.take i) p
        (g.children p) [] { t with mark := updF t.mark p 0 }
        (by simp) hpmem hinv1 (by simp)
      set t2 := (g.children p).foldl gc_scan_incref_child
        { t with mark := updF t.mark p 0 } with ht2
      obtain ⟨r, hr⟩ := hfold.2.2.1
      have hlive2 : t2.live = t.live ++ r := hr
      have htake2 : t2.live.take (i + 1) = t.live.take i ++ [p] := by
        rw [hlive2, List.take_append_of_le_length (by omega),
          ← List.take_concat_get t.live i h]
        simp [hp]
      have hinv2 : ScanInv g L s (t2.live.take (i + 1))
          (fun c => indegFrom g (t2.live.take (i + 1)) c) t2 := by
        rw [htake2]
        refine ⟨hfold.1.live_ext, hfold.1.part, hfold.1.live_nodup,
          hfold.1.tmp_sub, hfold.1.tmp_nodup, ?_, hfold.1.live_pos,
          hfold.1.tmp_zero, hfold.1.reach, ?_, hfold.1.tmp_marks,
          hfold.1.marks_out, ?_, hfold.1.zero_eq, hfold.1.phase_eq,
          hfold.1.fm_eq, hfold.1.freed_eq⟩
        · intro c
          rw [hfold.1.rc_eq c, indegFrom_append, indegFrom_single]
        · intro c hc
          rcases List.mem_append.mp hc with hcp | hcs
          · exact hfold.1.proc_marks c hcp
          · have hce : c = p := by simpa using hcs
            subst hce
            exact hfold.2.2.2.2 p (updF_same _ _ _)
        · intro q hq x hx
          rcases List.mem_append.mp hq with hqp | hqs
          · exact hfold.1.proc_closed q hqp x hx
          · have : q = p := by simpa using hqs
            subst this
            exact hfold.2.1 x hx
      exact ih (i + 1) t2 hinv2 (by omega)
    · rw [show gc_scan_pass1 g (n + 1) i t = t from by
        rw [gc_scan_pass1]
        rw [dif_neg h]]
      have htake : t.live.take i = t.live :=
        List.take_of_length_le (by omega)
      rw [htake] at hinv
      exact hinv

/-- gc_scan_incref_child2 folds only touch rc, adding one per
occurrence. -/
theorem incref2_rc (cs : List Nat) (t : GCState) :
    ∀ c, (cs.foldl gc_scan_incref_child2 t).rc c =
      t.rc c + (cs.count c : Int) := by
  induction cs generalizing t with
  | nil => intro c; simp
  | cons hd tl ih =>
    intro c
    simp only [List.foldl_cons]
    rw [ih (gc_scan_incref_child2 t hd) c]
    unfold gc_scan_incref_child2
    dsimp only
    by_cases hc : c = hd
    · subst hc
      rw [updF_same, List.count_cons_self]
      push_cast
      ring
    · rw [updF_other _ _ _ _ hc, List.count_cons_of_ne hc]

theorem incref2_rest (cs : List Nat) (t : GCState) :
    (cs.foldl gc_scan_incref_child2 t).mark = t.mark ∧
    (cs.foldl gc_scan_incref_child2 t).free_mark = t.free_mark ∧
    (cs.foldl gc_scan_incref_child2 t).live = t.live ∧
    (cs.foldl gc_scan_incref_child2 t).tmp = t.tmp ∧
    (cs.foldl gc_scan_incref_child2 t).zero = t.zero ∧
    (cs.foldl gc_scan_incref_child2 t).phase = t.phase ∧
    (cs.foldl gc_scan_incref_child2 t).freed = t.freed := by
  induction cs generalizing t with
  | nil => simp
  | cons hd tl ih =>
    simp only [List.foldl_cons]
    exact ih (gc_scan_incref_child2 t hd)

/-- The second gc_scan loop adds, per cell, its indegree from
tmp_obj_list, and changes nothing else. -/
theorem gc_scan_pass2_rc (g : Graph) (ps : List Nat) (t : GCState) :
    ∀ c, (ps.foldl
        (fun u p => (g.children p).foldl gc_scan_incref_child2 u) t).rc c =
      t.rc c + (indegFrom g ps c : Int) := by
  induction ps generalizing t with
  | nil => intro c; simp [indegFrom]
  | cons hd tl ih =>
    intro c
    simp only [List.foldl_cons]
    rw [ih _ c, incref2_rc _ _ c, indegFrom_cons]
    push_cast
    ring

theorem gc_scan_pass2_rest (g : Graph) (ps : List Nat) (t : GCState) :
    (ps.foldl
      (fun u p => (g.children p).foldl gc_scan_incref_child2 u) t).mark =
        t.mark ∧
    (ps.foldl
      (fun u p => (g.children p).foldl gc_scan_incref_child2 u) t).free_mark =
        t.free_mark ∧
    (ps.foldl
      (fun u p => (g.children p).foldl gc_scan_incref_child2 u) t).live =
        t.live ∧
    (ps.foldl
      (fun u p => (g.children p).foldl gc_scan_incref_child2 u) t).tmp =
        t.tmp ∧
    (ps.foldl
      (fun u p => (g.children p).foldl gc_scan_incref_child2 u) t).zero =
        t.zero ∧
    (ps.foldl
      (fun u p => (g.children p).foldl gc_scan_incref_child2 u) t).phase =
        t.phase ∧
    (ps.foldl
      (fun u p => (g.children p).foldl gc_scan_incref_child2 u) t).freed =
        t.freed := by
  induction ps generalizing t with
  | nil => simp
  | cons hd tl ih =>
    simp only [List.foldl_cons]
    have h1 := incref2_rest (g.children hd) t
    have h2 := ih ((g.children hd).foldl gc_scan_incref_child2 t)
    exact ⟨h2.1.trans h1.1, h2.2.1.trans h1.2.1, h2.2.2.1.trans h1.2.2.1,
      h2.2.2.2.1.trans h1.2.2.2.1, h2.2.2.2.2.1.trans h1.2.2.2.2.1,
      h2.2.2.2.2.2.1.trans h1.2.2.2.2.2.1,
      h2.2.2.2.2.2.2.trans h1.2.2.2.2.2.2⟩

theorem indegFrom_perm (g : Graph) {l l' : List Nat} (h : l.Perm l')
    (c : Nat) : indegFrom g l c = indegFrom g l' c :=
  (h.map (fun p => (g.children p).count c)).sum_eq

/-- Master characterization of gc_scan: the survivors are exactly the
cells reachable from the entry gc_obj_list, the counts of all cells are
restored by the re-increments of the two loops, the survivors' marks are
reset, and the condemned cells keep their marks. -/
theorem gc_scan_char (g : Graph) (L : List Nat) (s : GCState)
    (hLnodup : L.Nodup)
    (hclosed : ∀ p ∈ L, ∀ c ∈ g.children p, c ∈ L)
    (hpart : ∀ c, c ∈ s.live ↔ (c ∈ L ∧ c ∉ s.tmp))
    (hlnodup : s.live.Nodup) (htnodup : s.tmp.Nodup)
    (htmpL : ∀ c ∈ s.tmp, c ∈ L)
    (hlive_pos : ∀ c ∈ s.live, 0 < s.rc c)
    (htmp_zero : ∀ c ∈ s.tmp, s.rc c = 0) :
    ScanRes g L s (gc_scan g s) := by
  have hinv0 : ScanInv g L s (s.live.take 0)
      (fun c => indegFrom g (s.live.take 0) c) s := by
    refine ⟨⟨[], by simp⟩, hpart, hlnodup, fun c hc => hc, htnodup, ?_,
      hlive_pos, htmp_zero, ?_, ?_, fun c _ => rfl, fun c _ _ => rfl,
      ?_, rfl, rfl, rfl, rfl⟩
    · intro c
      simp [indegFrom]
    · intro c hc
      exact Reach.root c hc
    · intro c hc
      simp at hc
    · intro q hq
      simp at hq
  have hperm0 : (s.live ++ s.tmp).Perm L :=
    scanInv_perm g L s _ _ s hLnodup htmpL hinv0
  have hlen0 : s.live.length + s.tmp.length = L.length := by
    simpa using hperm0.length_eq
  have hfin := scan_pass1_loop g L s hLnodup hclosed htmpL
    (s.live.length + s.tmp.length) 0 s hinv0 (by omega)
  set t1 := gc_scan_pass1 g (s.live.length + s.tmp.length) 0 s with ht1
  have hgs : gc_scan g s = t1.tmp.foldl
      (fun u p => (g.children p).foldl gc_scan_incref_child2 u) t1 := rfl
  have hrest := gc_scan_pass2_rest g t1.tmp t1
  have hrc2 := gc_scan_pass2_rc g t1.tmp t1
  -- reachability completeness: every reachable cell is on the final live
  have hcompl : ∀ c, Reach g s.live c → c ∈ t1.live := by
    intro c hreach
    induction hreach with
    | root c hc =>
      obtain ⟨r, hr⟩ := hfin.live_ext
      rw [hr]
      exact List.mem_append_left _ hc
    | step p c _ hchild ihp =>
      exact hfin.proc_closed p ihp c hchild
  have hlive_iff : ∀ c, c ∈ t1.live ↔ Reach g s.live c := by
    intro c
    exact ⟨hfin.reach c, hcompl c⟩
  have htmp_iff : ∀ c, c ∈ t1.tmp ↔ (c ∈ L ∧ ¬Reach g s.live c) := by
    intro c
    constructor
    · intro hc
      refine ⟨htmpL c (hfin.tmp_sub c hc), ?_⟩
      intro hreach
      exact ((hfin.part c).mp (hcompl c hreach)).2 hc
    · intro ⟨hcL, hnr⟩
      by_contra hnt
      exact hnr ((hlive_iff c).mp ((hfin.part c).mpr ⟨hcL, hnt⟩))
  have hperm1 : (t1.live ++ t1.tmp).Perm L :=
    scanInv_perm g L s _ _ t1 hLnodup htmpL hfin
  refine ⟨?_, ?_, ?_, ?_, ?_, ?_, ?_, ?_, ?_, ?_, ?_, ?_, ?_, ?_, ?_⟩
  · intro c
    rw [hgs, hrest.2.2.1]
    exact hlive_iff c
  · intro c
    rw [hgs, hrest.2.2.2.1]
    exact htmp_iff c
  · intro c
    rw [hgs, hrc2 c, hfin.rc_eq c]
    have hsplit : indegFrom g L c =
        indegFrom g t1.live c + indegFrom g t1.tmp c := by
      rw [← indegFrom_append, indegFrom_perm g hperm1 c]
    rw [hsplit]
    push_cast
    ring
  · intro c hc
    rw [hgs, hrest.2.2.1] at hc
    rw [hgs, hrest.1]
    exact hfin.proc_marks c hc
  · intro c hc
    rw [hgs, hrest.2.2.2.1] at hc
    rw [hgs, hrest.1]
    exact hfin.tmp_marks c hc
  · intro c hcl hct
    rw [hgs, hrest.2.2.1] at hcl
    rw [hgs, hrest.2.2.2.1] at hct
    rw [hgs, hrest.1]
    exact hfin.marks_out c hcl hct
  · intro c hc
    rw [hgs, hrest.2.2.1] at hc
    rw [hgs, hrc2 c]
    have h1 := hfin.live_pos c hc
    have h2 : (0 : Int) ≤ (indegFrom g t1.tmp c : Int) := by positivity
    omega
  · rw [hgs, hrest.2.2.1]
    exact hfin.live_nodup
  · rw [hgs, hrest.2.2.2.1]
    exact hfin.tmp_nodup
  · rw [hgs, hrest.2.2.1, hrest.2.2.2.1]
    exact hperm1
  · rw [hgs, hrest.2.2.1]
    exact hfin.live_ext
  · rw [hgs, hrest.2.2.2.2.1]
    exact hfin.zero_eq
  · rw [hgs, hrest.2.2.2.2.2.1]
    exact hfin.phase_eq
  · rw [hgs, hrest.2.1]
    exact hfin.fm_eq
  · rw [hgs, hrest.2.2.2.2.2.2]
    exact hfin.freed_eq

/-! ## Free pass characterization (towards C1, C3, C4) -/

/-- In phase REMOVE_CYCLES a release is a pure decrement: the __JS_FreeValueRT
branch is skipped entirely. -/
theorem release_child_rm (t : GCState) (c : Nat)
    (hphase : t.phase = GCPhase.removeCycles) :
    release_child t c = { t with rc := updF t.rc c (t.rc c - 1) } := by
  unfold release_child
  dsimp only
  split
  · rw [if_neg (by simp [hphase])]
  · rfl

theorem release_children_rm (cs : List Nat) :
    ∀ t : GCState, t.phase = GCPhase.removeCycles →
      cs.foldl release_child t =
        { t with rc := fun c => t.rc c - (cs.count c : Int) } := by
  induction cs with
  | nil =>
    intro t _
    have : (fun c => t.rc c - ((List.count c ([] : List Nat) : Nat) : Int)) =
        t.rc := by
      funext c
      simp
    rw [List.foldl_nil, this]
  | cons hd tl ih =>
    intro t hphase
    rw [List.foldl_cons, release_child_rm t hd hphase]
    rw [ih { t with rc := updF t.rc hd (t.rc hd - 1) } hphase]
    congr 1
    funext c
    dsimp only
    by_cases hc : c = hd
    · subst hc
      rw [updF_same, List.count_cons_self]
      push_cast
      ring
    · rw [updF_other _ _ _ _ hc, List.count_cons_of_ne hc]

/-- Effect of free_object on the head of tmp_obj_list during the cycle
free pass. -/
theorem free_object_rm (g : Graph) (t : GCState) (p : Nat) (rest : List Nat)
    (tr : GCTrace)
    (hphase : t.phase = GCPhase.removeCycles)
    (hhead : t.tmp = p :: rest)
    (hnodup : t.tmp.Nodup)
    (hnl : p ∉ t.live) (hnz : p ∉ t.zero) :
    (free_object g t p tr).1 =
      if t.rc p - ((g.children p).count p : Int) ≠ 0 then
        { t with rc := fun c => t.rc c - ((g.children p).count c : Int),
                 free_mark := updF t.free_mark p true,
                 tmp := rest,
                 zero := t.zero ++ [p] }
      else
        { t with rc := fun c => t.rc c - ((g.children p).count c : Int),
                 free_mark := updF t.free_mark p true,
                 tmp := rest,
                 freed := t.freed ++ [p] } := by
  unfold free_object
  dsimp only
  rw [release_children_rm (g.children p)
    { t with free_mark := updF t.free_mark p true } (by simpa using hphase)]
  unfold listDel
  dsimp only
  have hle : t.live.erase p = t.live := List.erase_of_not_mem hnl
  have hze : t.zero.erase p = t.zero := List.erase_of_not_mem hnz
  have hte : t.tmp.erase p = rest := by
    rw [hhead, List.erase_cons_head]
  rw [hle, hze, hte]
  by_cases hrc : t.rc p - ((g.children p).count p : Int) ≠ 0
  · rw [if_pos ⟨by simpa using hphase, hrc⟩, if_pos hrc]
  · rw [if_neg (by simp [hrc]), if_neg hrc]

/-! ## The zero-refcount drain (free_zero_refcount, towards C1) -/

/-- The references held by one member of a population are part of the
indegree from that population. -/
theorem count_le_indegFrom (g : Graph) {p : Nat} {ps : List Nat}
    (c : Nat) (hp : p ∈ ps) :
    (g.children p).count c ≤ indegFrom g ps c := by
  obtain ⟨a, b, rfl⟩ := List.append_of_mem hp
  rw [indegFrom_append, indegFrom_cons]
  omega

/-- Splitting the indegree at one member of the population. -/
theorem indegFrom_erase (g : Graph) {p : Nat} {ps : List Nat} (c : Nat)
    (hp : p ∈ ps) :
    indegFrom g ps c =
      (g.children p).count c + indegFrom g (ps.erase p) c := by
  rw [indegFrom_perm g (List.perm_cons_erase hp) c, indegFrom_cons]

/-- For a nodup three-part pool, erasing an element from every part
erases it from the concatenation. -/
theorem erase_append3 (l1 l2 l3 : List Nat) (p : Nat)
    (hnd : (l1 ++ l2 ++ l3).Nodup) :
    l1.erase p ++ l2.erase p ++ l3.erase p =
      (l1 ++ l2 ++ l3).erase p := by
  have h12 : (l1 ++ l2).Nodup := (List.nodup_append.mp hnd).1
  have hd3 : (l1 ++ l2).Disjoint l3 := (List.nodup_append.mp hnd).2.2
  have hd12 : l1.Disjoint l2 := (List.nodup_append.mp h12).2.2
  by_cases h1 : p ∈ l1
  · have h2 : p ∉ l2 := fun h => hd12 h1 h
    have h3 : p ∉ l3 := fun h => hd3 (List.mem_append_left _ h1) h
    rw [List.erase_of_not_mem h2, List.erase_of_not_mem h3,
      List.erase_append_left _ (List.mem_append_left l2 h1),
      List.erase_append_left _ h1]
  · rw [List.erase_of_not_mem h1]
    by_cases h2 : p ∈ l2
    · have h3 : p ∉ l3 := fun h => hd3 (List.mem_append_right _ h2) h
      rw [List.erase_of_not_mem h3,
        List.erase_append_left _ (List.mem_append_right l1 h2),
        List.erase_append_right _ h1]
    · have h12' : p ∉ l1 ++ l2 := by
        intro h
        rcases List.mem_append.mp h with h | h
        · exact h1 h
        · exact h2 h
      rw [List.erase_of_not_mem h2, List.erase_append_right _ h12']

/-- Pulling an element of a nodup pool out of its list and consing it
onto the third list permutes the pool. -/
theorem move_head_perm (l1 l2 l3 : List Nat) (p : Nat)
    (hp : p ∈ l1 ++ l2 ++ l3) (hnd : (l1 ++ l2 ++ l3).Nodup) :
    (l1.erase p ++ l2.erase p ++ (p :: l3.erase p)).Perm
      (l1 ++ l2 ++ l3) := by
  have step1 : ((l1.erase p ++ l2.erase p) ++ (p :: l3.erase p)).Perm
      (p :: ((l1.erase p ++ l2.erase p) ++ l3.erase p)) := List.perm_middle
  have step3 : l1.erase p ++ l2.erase p ++ l3.erase p =
      (l1 ++ l2 ++ l3).erase p := erase_append3 l1 l2 l3 p hnd
  have step4 : (p :: (l1 ++ l2 ++ l3).erase p).Perm (l1 ++ l2 ++ l3) :=
    (List.perm_cons_erase hp).symm
  refine (step1.trans ?_).trans step4
  rw [step3]

/-- Releasing the children of the drained cell preserves the mid-fold
invariant: each child's count is at least the pending releases plus the
rest of its pool indegree, so a count can only reach zero at the moment
of its final release, and the child then moves inside the pool. -/
theorem drain_release_fold (g : Graph) (s0 : GCState) (p : Nat)
    (hnd0 : (s0.live ++ s0.tmp ++ s0.zero).Nodup)
    (hcounts0 : ∀ c,
      (indegFrom g (s0.live ++ s0.tmp ++ s0.zero) c : Int) ≤ s0.rc c)
    (hclosed0 : ∀ q ∈ s0.live ++ s0.tmp ++ s0.zero, ∀ c ∈ g.children q,
      c ∈ s0.live ++ s0.tmp ++ s0.zero)
    (hz0 : ∀ c ∈ s0.zero, s0.rc c = 0)
    (hph : s0.phase = GCPhase.decref)
    (hp0 : p ∈ s0.zero) :
    ∀ (v u : List Nat) (t : GCState), g.children p = u ++ v →
      DrainMid g s0 p u t →
      DrainMid g s0 p (g.children p) (v.foldl release_child t) := by
  have hppool0 : p ∈ s0.live ++ s0.tmp ++ s0.zero :=
    List.mem_append_right (s0.live ++ s0.tmp) hp0
  intro v
  induction v with
  | nil =>
    intro u t hsplit ht
    rw [List.foldl_nil, hsplit, List.append_nil]
    exact ht
  | cons c v' ih =>
    intro u t hsplit ht
    rw [List.foldl_cons]
    have hcount_c : (g.children p).count c =
        u.count c + (v'.count c + 1) := by
      rw [hsplit, List.count_append, List.count_cons_self]
    have hcle : ∀ x, (g.children p).count x ≤
        indegFrom g (s0.live ++ s0.tmp ++ s0.zero) x :=
      fun x => count_le_indegFrom g x hppool0
    have hrc_lb : 1 ≤ t.rc c := by
      have h1 := ht.rc_eq c
      have h2 := hcounts0 c
      have h3 := hcle c
      omega
    have hznotc : ∀ x ∈ s0.zero, x ≠ c := by
      intro x hx he
      subst he
      have h2 := hcounts0 x
      have h3 := hcle x
      have h4 := hz0 x hx
      omega
    have hcp_ne : c ≠ p := fun he => hznotc p hp0 (by rw [he])
    apply ih (u ++ [c]) _ (by rw [hsplit, List.append_assoc]; rfl)
    have hrc_eq' : ∀ x, updF t.rc c (t.rc c - 1) x =
        s0.rc x - ((u ++ [c]).count x : Int) := by
      intro x
      by_cases hx : x = c
      · subst hx
        rw [updF_same, ht.rc_eq x]
        have : (u ++ [x]).count x = u.count x + 1 := by
          rw [List.count_append]
          simp
        rw [this]
        push_cast
        ring
      · rw [updF_other _ _ _ _ hx, ht.rc_eq x]
        have : (u ++ [c]).count x = u.count x := by
          rw [List.count_append, List.count_cons_of_ne hx, List.count_nil]
          omega
        rw [this]
    by_cases hb : t.rc c - 1 ≤ 0
    · have hrc1 : t.rc c = 1 := by omega
      have hres : release_child t c =
          { t with rc := updF t.rc c (t.rc c - 1),
                   live := t.live.erase c,
                   tmp := t.tmp.erase c,
                   zero := c :: t.zero.erase c } := by
        unfold release_child listDel
        dsimp only
        rw [if_pos hb, if_pos (by rw [ht.phase_eq, hph]; decide)]
      rw [hres]
      have hcpool : c ∈ t.live ++ t.tmp ++ t.zero := by
        apply (ht.pperm.mem_iff).mpr
        apply hclosed0 p hppool0
        rw [hsplit]
        simp
      have hndt : (t.live ++ t.tmp ++ t.zero).Nodup :=
        (ht.pperm.nodup_iff).mpr hnd0
      have hzn : t.zero.Nodup := (List.nodup_append.mp hndt).2.1
      refine ⟨hrc_eq', ?_, ?_, ?_, ?_, ht.phase_eq, ht.freed_eq⟩
      · exact (move_head_perm t.live t.tmp t.zero c hcpool hndt).trans
          ht.pperm
      · intro x hx
        rcases List.mem_cons.mp hx with hxc | hxe
        · rw [hxc]
          show updF t.rc c (t.rc c - 1) c = 0
          rw [updF_same]
          omega
        · have hxz := List.mem_of_mem_erase hxe
          have hxne : x ≠ c := ((hzn.mem_erase_iff).mp hxe).1
          show updF t.rc c (t.rc c - 1) x = 0
          rw [updF_other _ _ _ _ hxne]
          exact ht.zeros x hxz
      · refine List.mem_cons_of_mem _ ?_
        exact (List.mem_erase_of_ne (Ne.symm hcp_ne)).mpr ht.pz
      · intro x hx
        refine List.mem_cons_of_mem _ ?_
        exact (List.mem_erase_of_ne (hznotc x hx)).mpr (ht.oldz x hx)
    · have hres : release_child t c =
          { t with rc := updF t.rc c (t.rc c - 1) } := by
        unfold release_child
        dsimp only
        rw [if_neg hb]
      rw [hres]
      refine ⟨hrc_eq', ht.pperm, ?_, ht.pz, ht.oldz, ht.phase_eq,
        ht.freed_eq⟩
      intro x hx
      have hxne : x ≠ c := by
        intro he
        subst he
        have := ht.zeros x hx
        omega
      dsimp only
      rw [updF_other _ _ _ _ hxne]
      exact ht.zeros x hx

/-- Effect of free_object on the cell at the head of the zero list
during the DECREF drain: the cell's references are each released once,
the cell leaves the pool and its memory is freed; the rest of the zero
list (cells unreferenced by anyone) survives untouched. -/
theorem drain_free_object (g : Graph) (s : GCState) (p : Nat)
    (rest : List Nat) (tr : GCTrace)
    (hnd : (s.live ++ s.tmp ++ s.zero).Nodup)
    (hcounts : ∀ c,
      (indegFrom g (s.live ++ s.tmp ++ s.zero) c : Int) ≤ s.rc c)
    (hclosed : ∀ q ∈ s.live ++ s.tmp ++ s.zero, ∀ c ∈ g.children q,
      c ∈ s.live ++ s.tmp ++ s.zero)
    (hzeros : ∀ c ∈ s.zero, s.rc c = 0)
    (hph : s.phase = GCPhase.decref)
    (hhead : s.zero = p :: rest) :
    ((free_gc_object g s p tr).1.live ++ (free_gc_object g s p tr).1.tmp
       ++ (free_gc_object g s p tr).1.zero).Perm
      ((s.live ++ s.tmp ++ s.zero).erase p) ∧
    (∀ c, (free_gc_object g s p tr).1.rc c =
      s.rc c - ((g.children p).count c : Int)) ∧
    (∀ c ∈ rest, c ∈ (free_gc_object g s p tr).1.zero) ∧
    (∀ c ∈ (free_gc_object g s p tr).1.zero,
      (free_gc_object g s p tr).1.rc c = 0) ∧
    ((free_gc_object g s p tr).1.phase = GCPhase.decref) ∧
    ((free_gc_object g s p tr).1.freed = s.freed ++ [p]) := by
  simp only [free_gc_object]
  have hp0 : p ∈ s.zero := by rw [hhead]; simp
  have hmid0 : DrainMid g s p []
      { s with free_mark := updF s.free_mark p true } := by
    refine ⟨?_, List.Perm.refl _, hzeros, hp0, fun c hc => hc, rfl, rfl⟩
    intro c
    simp
  have hmid := drain_release_fold g s p hnd hcounts hclosed hzeros hph hp0
    (g.children p) [] _ (by simp) hmid0
  set s2 := (g.children p).foldl release_child
    { s with free_mark := updF s.free_mark p true } with hs2
  have hphase2 : s2.phase = GCPhase.decref := by
    rw [hmid.phase_eq, hph]
  have hcond : ¬((listDel s2 p).phase = GCPhase.removeCycles ∧
      (listDel s2 p).rc p ≠ 0) := by
    intro h
    have h1 : s2.phase = GCPhase.removeCycles := h.1
    rw [hphase2] at h1
    exact absurd h1 (by decide)
  have hres : (free_object g s p tr).1 =
      { s2 with live := s2.live.erase p, tmp := s2.tmp.erase p,
                zero := s2.zero.erase p,
                freed := s2.freed ++ [p] } := by
    unfold free_object
    dsimp only
    rw [← hs2, if_neg hcond]
    rfl
  have hndt : (s2.live ++ s2.tmp ++ s2.zero).Nodup :=
    (hmid.pperm.nodup_iff).mpr hnd
  have hzn : s2.zero.Nodup := (List.nodup_append.mp hndt).2.1
  have hpnr : p ∉ rest := by
    have : s.zero.Nodup := (List.nodup_append.mp hnd).2.1
    rw [hhead] at this
    exact (List.nodup_cons.mp this).1
  rw [hres]
  refine ⟨?_, ?_, ?_, ?_, hphase2, ?_⟩
  · have he : s2.live.erase p ++ s2.tmp.erase p ++ s2.zero.erase p =
        (s2.live ++ s2.tmp ++ s2.zero).erase p :=
      erase_append3 _ _ _ p hndt
    dsimp only
    rw [he]
    exact hmid.pperm.erase p
  · intro c
    exact hmid.rc_eq c
  · intro c hc
    have hcz : c ∈ s.zero := by rw [hhead]; exact List.mem_cons_of_mem _ hc
    have hcs2 : c ∈ s2.zero := hmid.oldz c hcz
    have hcne : c ≠ p := fun he => hpnr (he ▸ hc)
    exact (List.mem_erase_of_ne hcne).mpr hcs2
  · intro c hc
    exact hmid.zeros c (List.mem_of_mem_erase hc)
  · rw [hmid.freed_eq]

/-- The drain loop empties gc_zero_ref_count_list: each iteration frees
the head cell and strictly shrinks the pool, so the pool size bounds the
iterations; every cell initially on the zero list gets freed. -/
theorem drain_loop (g : Graph) : ∀ (n : Nat) (s : GCState) (tr : GCTrace),
    (s.live ++ s.tmp ++ s.zero).length ≤ n → DrainInv g s →
    ((free_zero_refcount_loop g n s tr).1.zero = []) ∧
    ((free_zero_refcount_loop g n s tr).1.phase = GCPhase.decref) ∧
    (∃ D, (free_zero_refcount_loop g n s tr).1.freed = s.freed ++ D ∧
      ∀ c ∈ s.zero, c ∈ D) := by
  intro n
  induction n with
  | zero =>
    intro s tr hlen hinv
    have hz : s.zero = [] := by
      rw [List.length_append, List.length_append] at hlen
      exact List.length_eq_zero.mp (by omega)
    have heq : free_zero_refcount_loop g 0 s tr = (s, tr) := rfl
    rw [heq]
    refine ⟨hz, hinv.phase_eq, [], by simp, ?_⟩
    intro c hc
    rw [hz] at hc
    simp at hc
  | succ n ih =>
    intro s tr hlen hinv
    cases hz : s.zero with
    | nil =>
      have heq : free_zero_refcount_loop g (n + 1) s tr = (s, tr) := by
        rw [free_zero_refcount_loop, hz]
      rw [heq]
      refine ⟨hz, hinv.phase_eq, [], by simp, ?_⟩
      intro c hc
      simp at hc
    | cons p rest =>
      have hstep := drain_free_object g s p rest tr hinv.nodup
        hinv.counts hinv.closed hinv.zeros hinv.phase_eq hz
      obtain ⟨hperm, hrc, hrest, hzs, hph, hfr⟩ := hstep
      have heq : free_zero_refcount_loop g (n + 1) s tr =
          free_zero_refcount_loop g n (free_gc_object g s p tr).1
            (free_gc_object g s p tr).2 := by
        rw [free_zero_refcount_loop, hz]
      have hppool : p ∈ s.live ++ s.tmp ++ s.zero :=
        List.mem_append_right (s.live ++ s.tmp) (by rw [hz]; simp)
      have hrcp : s.rc p = 0 := hinv.zeros p (by rw [hz]; simp)
      have hinv' : DrainInv g (free_gc_object g s p tr).1 := by
        refine ⟨?_, ?_, ?_, hzs, hph⟩
        · exact (hperm.nodup_iff).mpr (hinv.nodup.erase p)
        · intro c
          rw [indegFrom_perm g hperm c, hrc c]
          have h1 := indegFrom_erase g c hppool
          have h2 := hinv.counts c
          omega
        · intro q hq c hc
          have hq0 : q ∈ s.live ++ s.tmp ++ s.zero :=
            List.mem_of_mem_erase ((hperm.mem_iff).mp hq)
          have hc0 := hinv.closed q hq0 c hc
          have hcne : c ≠ p := by
            intro he
            subst he
            have h1 : 1 ≤ (g.children q).count c :=
              List.count_pos_iff.mpr hc
            have h2 := count_le_indegFrom g c hq0
            have h3 := hinv.counts c
            omega
          exact (hperm.mem_iff).mpr
            ((hinv.nodup.mem_erase_iff).mpr ⟨hcne, hc0⟩)
      have hlen' : ((free_gc_object g s p tr).1.live ++
          (free_gc_object g s p tr).1.tmp ++
          (free_gc_object g s p tr).1.zero).length ≤ n := by
        rw [hperm.length_eq, List.length_erase_of_mem hppool]
        omega
      have hrec := ih (free_gc_object g s p tr).1
        (free_gc_object g s p tr).2 hlen' hinv'
      rw [heq]
      obtain ⟨hD, hDf, hDm⟩ := hrec.2.2
      refine ⟨hrec.1, hrec.2.1, p :: hD, ?_, ?_⟩
      · rw [hDf, hfr, List.append_assoc]
        rfl
      · intro c hc
        rcases List.mem_cons.mp hc with hcp | hcr
        · rw [hcp]
          simp
        · exact List.mem_cons_of_mem _ (hDm c (hrest c hcr))

/-- C1 (amended): when a GC cell p's ref_count reaches zero,
__JS_FreeValueRT consults the phase.  In phase NONE, p moves from
gc_obj_list to gc_zero_ref_count_list and the list is immediately
drained (each free may enqueue more cells), ending with the list empty,
the phase back at NONE and p's memory freed.  In phase DECREF, p is only
enqueued at the head of gc_zero_ref_count_list for the already-running
drain: nothing is freed and no count changes.  In phase REMOVE_CYCLES —
contrary to the claim's last clause — the code does nothing at all: p is
NOT moved to gc_zero_ref_count_list and the state is untouched. -/
theorem free_value_rt_spec (g : Graph) (s : GCState) (p : Nat)
    (tr : GCTrace)
    (hp : p ∈ s.live)
    (hrcp : s.rc p = 0)
    (hnd : (s.live ++ s.tmp ++ s.zero).Nodup)
    (hcounts : ∀ c,
      (indegFrom g (s.live ++ s.tmp ++ s.zero) c : Int) ≤ s.rc c)
    (hclosed : ∀ q ∈ s.live ++ s.tmp ++ s.zero, ∀ c ∈ g.children q,
      c ∈ s.live ++ s.tmp ++ s.zero)
    (hzeros : ∀ c ∈ s.zero, s.rc c = 0) :
    (s.phase = GCPhase.none →
      (gc_free_value_rt g s p tr).1.phase = GCPhase.none ∧
      (gc_free_value_rt g s p tr).1.zero = [] ∧
      (∃ D, (gc_free_value_rt g s p tr).1.freed = s.freed ++ D ∧
        p ∈ D)) ∧
    (s.phase = GCPhase.decref →
      (gc_free_value_rt g s p tr).1.zero = p :: s.zero ∧
      (gc_free_value_rt g s p tr).1.live = s.live.erase p ∧
      (gc_free_value_rt g s p tr).1.freed = s.freed ∧
      (gc_free_value_rt g s p tr).1.rc = s.rc) ∧
    (s.phase = GCPhase.removeCycles →
      gc_free_value_rt g s p tr = (s, tr)) := by
  have h12 : (s.live ++ s.tmp).Nodup := (List.nodup_append.mp hnd).1
  have hd3 : (s.live ++ s.tmp).Disjoint s.zero :=
    (List.nodup_append.mp hnd).2.2
  have hd12 : s.live.Disjoint s.tmp := (List.nodup_append.mp h12).2.2
  have hpt : p ∉ s.tmp := fun h => hd12 hp h
  have hpz : p ∉ s.zero := fun h => hd3 (List.mem_append_left _ hp) h
  have hppool : p ∈ s.live ++ s.tmp ++ s.zero :=
    List.mem_append_left _ (List.mem_append_left _ hp)
  have hperm1 : (s.live.erase p ++ s.tmp.erase p ++
      (p :: s.zero.erase p)).Perm (s.live ++ s.tmp ++ s.zero) :=
    move_head_perm s.live s.tmp s.zero p hppool hnd
  refine ⟨?_, ?_, ?_⟩
  · -- phase NONE: enqueue, then drain to empty
    intro hph
    have hval : gc_free_value_rt g s p tr = free_zero_refcount g
        { s with live := s.live.erase p, tmp := s.tmp.erase p,
                 zero := p :: s.zero.erase p } tr := by
      unfold gc_free_value_rt listDel
      dsimp only
      rw [if_pos (by rw [hph]; decide), if_pos (by rw [hph])]
    set sA : GCState :=
      { s with live := s.live.erase p, tmp := s.tmp.erase p,
               zero := p :: s.zero.erase p } with hsA
    set s1 : GCState := { sA with phase := GCPhase.decref } with hs1
    have hinv : DrainInv g s1 := by
      refine ⟨?_, ?_, ?_, ?_, rfl⟩
      · exact (hperm1.nodup_iff).mpr hnd
      · intro c
        rw [indegFrom_perm g hperm1 c]
        exact hcounts c
      · intro q hq c hc
        exact (hperm1.mem_iff).mpr
          (hclosed q ((hperm1.mem_iff).mp hq) c hc)
      · intro c hc
        rcases List.mem_cons.mp hc with hcp | hce
        · rw [hcp]; exact hrcp
        · exact hzeros c (List.mem_of_mem_erase hce)
    have hlen : (s1.live ++ s1.tmp ++ s1.zero).length ≤
        s1.live.length + s1.tmp.length + s1.zero.length := by
      rw [List.length_append, List.length_append]
    have hdrain := drain_loop g
      (s1.live.length + s1.tmp.length + s1.zero.length) s1 tr hlen hinv
    have hfz : free_zero_refcount g sA tr =
        ({ (free_zero_refcount_loop g
             (s1.live.length + s1.tmp.length + s1.zero.length) s1 tr).1
           with phase := GCPhase.none },
         (free_zero_refcount_loop g
           (s1.live.length + s1.tmp.length + s1.zero.length) s1 tr).2) :=
      rfl
    rw [hval, hfz]
    refine ⟨rfl, hdrain.1, ?_⟩
    obtain ⟨D, hDf, hDm⟩ := hdrain.2.2
    exact ⟨D, hDf, hDm p (by simp)⟩
  · -- phase DECREF: enqueue only
    intro hph
    have hval : gc_free_value_rt g s p tr =
        ({ s with live := s.live.erase p, tmp := s.tmp.erase p,
                  zero := p :: s.zero.erase p }, tr) := by
      unfold gc_free_value_rt listDel
      dsimp only
      rw [if_pos (by rw [hph]; decide), if_neg (by rw [hph]; decide)]
    rw [hval]
    refine ⟨?_, rfl, rfl, rfl⟩
    show p :: s.zero.erase p = p :: s.zero
    rw [List.erase_of_not_mem hpz]
  · -- phase REMOVE_CYCLES: nothing happens
    intro hph
    unfold gc_free_value_rt
    rw [if_neg (by rw [hph]; decide)]

/-- C1 counterexample: a cell whose count reaches zero while the cycle
collector is in phase REMOVE_CYCLES is not moved to
gc_zero_ref_count_list (nor anywhere else): __JS_FreeValueRT returns
with the runtime state bit-for-bit unchanged. -/
theorem free_value_rt_remove_cycles_cex :
    freeRtCexState.phase = GCPhase.removeCycles ∧
    gc_free_value_rt freeRtWitnessGraph freeRtCexState 0 [] =
      (freeRtCexState, []) ∧
    (gc_free_value_rt freeRtWitnessGraph freeRtCexState 0 []).1.zero =
      [] :=
  ⟨rfl, rfl, rfl⟩

/-- Witness for free_value_rt_spec: dropping the last reference to cell
0 outside any GC drains both 0 and the cell it referenced. -/
theorem free_value_rt_spec_witness :
    (gc_free_value_rt freeRtWitnessGraph freeRtWitnessState 0
      []).1.phase = GCPhase.none ∧
    (gc_free_value_rt freeRtWitnessGraph freeRtWitnessState 0
      []).1.zero = [] ∧
    (∃ D, (gc_free_value_rt freeRtWitnessGraph freeRtWitnessState 0
      []).1.freed = freeRtWitnessState.freed ++ D ∧ 0 ∈ D) :=
  (free_value_rt_spec freeRtWitnessGraph freeRtWitnessState 0 []
    (by decide) (by decide) (by decide)
    (by
      intro c
      match c with
      | 0 => decide
      | 1 => decide
      | c + 2 =>
        show (0 : Int) ≤ 0
        decide)
    (by decide) (by decide)).1 rfl

/-- Characterization of the gc_free_cycles loop: it empties
tmp_obj_list, releases every condemned cell's references once, marks each
condemned cell's free_mark, and routes every condemned cell either to the
freed memory or to the deferred gc_zero_ref_count_list. -/
theorem free_cycles_loop_char (g : Graph) : ∀ (n : Nat) (t : GCState)
    (tr : GCTrace),
    t.tmp.length = n → t.phase = GCPhase.removeCycles → t.tmp.Nodup →
    (∀ c ∈ t.tmp, c ∉ t.live) → (∀ c ∈ t.tmp, c ∉ t.zero) →
    ((gc_free_cycles_loop g n t tr).1.tmp = []) ∧
    ((gc_free_cycles_loop g n t tr).1.live = t.live) ∧
    (∀ c, (gc_free_cycles_loop g n t tr).1.rc c =
      t.rc c - (indegFrom g t.tmp c : Int)) ∧
    ((gc_free_cycles_loop g n t tr).1.mark = t.mark) ∧
    (∀ c ∈ t.tmp, (gc_free_cycles_loop g n t tr).1.free_mark c = true) ∧
    (∀ c, c ∉ t.tmp →
      (gc_free_cycles_loop g n t tr).1.free_mark c = t.free_mark c) ∧
    ((gc_free_cycles_loop g n t tr).1.phase = GCPhase.removeCycles) ∧
    (∃ Df Dz, (gc_free_cycles_loop g n t tr).1.freed = t.freed ++ Df ∧
      (gc_free_cycles_loop g n t tr).1.zero = t.zero ++ Dz ∧
      (∀ c, c ∈ Df ++ Dz ↔ c ∈ t.tmp)) := by
  intro n
  induction n with
  | zero =>
    intro t tr hlen hphase _ _ _
    have htmp : t.tmp = [] := List.length_eq_zero.mp hlen
    have hzeq : gc_free_cycles_loop g 0 t tr = (t, tr) := rfl
    rw [hzeq]
    refine ⟨htmp, rfl, ?_, rfl, ?_, fun c _ => rfl, hphase,
      [], [], by simp, by simp, ?_⟩
    · intro c
      rw [htmp]
      simp [indegFrom]
    · intro c hc
      rw [htmp] at hc
      simp at hc
    · intro c
      rw [htmp]
      simp
  | succ n ih =>
    intro t tr hlen hphase hnodup hnl hnz
    obtain ⟨p, rest, hhead⟩ : ∃ p rest, t.tmp = p :: rest := by
      cases htmp : t.tmp with
      | nil => rw [htmp] at hlen; simp at hlen
      | cons p rest => exact ⟨p, rest, rfl⟩
    have hstep := free_object_rm g t p rest tr hphase hhead hnodup
      (hnl p (by rw [hhead]; simp)) (hnz p (by rw [hhead]; simp))
    have hloop : gc_free_cycles_loop g (n + 1) t tr =
        gc_free_cycles_loop g n (free_gc_object g t p tr).1
          (free_gc_object g t p tr).2 := by
      rw [gc_free_cycles_loop]
      rw [hhead]
    have hpnr : p ∉ rest := by
      rw [hhead] at hnodup
      exact (List.nodup_cons.mp hnodup).1
    have hrestnd : rest.Nodup := by
      rw [hhead] at hnodup
      exact (List.nodup_cons.mp hnodup).2
    -- the branch-independent fields of the freed cell's state
    have htmp' : (free_gc_object g t p tr).1.tmp = rest := by
      rw [show (free_gc_object g t p tr).1 = _ from hstep]
      split <;> rfl
    have hlive' : (free_gc_object g t p tr).1.live = t.live := by
      rw [show (free_gc_object g t p tr).1 = _ from hstep]
      split <;> rfl
    have hphase' : (free_gc_object g t p tr).1.phase =
        GCPhase.removeCycles := by
      rw [show (free_gc_object g t p tr).1 = _ from hstep]
      split <;> exact hphase
    have hrc' : ∀ c, (free_gc_object g t p tr).1.rc c =
        t.rc c - ((g.children p).count c : Int) := by
      intro c
      rw [show (free_gc_object g t p tr).1 = _ from hstep]
      split <;> rfl
    have hmark' : (free_gc_object g t p tr).1.mark = t.mark := by
      rw [show (free_gc_object g t p tr).1 = _ from hstep]
      split <;> rfl
    have hfm' : (free_gc_object g t p tr).1.free_mark =
        updF t.free_mark p true := by
      rw [show (free_gc_object g t p tr).1 = _ from hstep]
      split <;> rfl
    have hbr : ((free_gc_object g t p tr).1.freed = t.freed ++ [p] ∧
          (free_gc_object g t p tr).1.zero = t.zero) ∨
        ((free_gc_object g t p tr).1.freed = t.freed ∧
          (free_gc_object g t p tr).1.zero = t.zero ++ [p]) := by
      rw [show (free_gc_object g t p tr).1 = _ from hstep]
      split
      · right; exact ⟨rfl, rfl⟩
      · left; exact ⟨rfl, rfl⟩
    have hrec := ih (free_gc_object g t p tr).1 (free_gc_object g t p tr).2
      (by
        rw [htmp']
        rw [hhead] at hlen
        simpa using hlen)
      hphase'
      (by rw [htmp']; exact hrestnd)
      (by
        rw [htmp', hlive']
        intro c hc
        exact hnl c (by rw [hhead]; exact List.mem_cons_of_mem p hc))
      (by
        rw [htmp']
        intro c hc
        rcases hbr with ⟨_, hz⟩ | ⟨_, hz⟩ <;> rw [hz]
        · exact hnz c (by rw [hhead]; exact List.mem_cons_of_mem p hc)
        · intro hmem
          rcases List.mem_append.mp hmem with hmem1 | hmem2
          · refine hnz c ?_ hmem1
            rw [hhead]
            exact List.mem_cons_of_mem p hc
          · have hcp : c = p := by simpa using hmem2
            subst hcp
            exact hpnr hc)
    rw [hloop]
    obtain ⟨h1, h2, h3, h4, h5, h6, h7, Df, Dz, h8, h9, h10⟩ := hrec
    refine ⟨h1, h2.trans hlive', ?_, h4.trans hmark', ?_, ?_, h7, ?_⟩
    · intro c
      rw [h3 c, hrc' c, htmp', hhead, indegFrom_cons]
      push_cast
      ring
    · intro c hc
      rw [hhead] at hc
      rcases List.mem_cons.mp hc with hceq | hcr
      · subst hceq
        rw [htmp'] at h6
        rw [h6 c hpnr, hfm', updF_same]
      · rw [htmp'] at h5
        exact h5 c hcr
    · intro c hc
      rw [hhead] at hc
      have hcp : c ≠ p := by
        intro he
        subst he
        exact hc (by simp)
      have hcr : c ∉ rest := by
        intro hmem
        exact hc (by simp [hmem])
      rw [htmp'] at h6
      rw [h6 c hcr, hfm', updF_other _ _ _ _ hcp]
    · rcases hbr with ⟨hf, hz⟩ | ⟨hf, hz⟩
      · refine ⟨[p] ++ Df, Dz, ?_, ?_, ?_⟩
        · rw [h8, hf]
          simp
        · rw [h9, hz]
        · intro c
          have := h10 c
          rw [htmp'] at this
          rw [hhead]
          simp only [List.mem_append, List.mem_cons,
            List.not_mem_nil, or_false] at this ⊢
          tauto
      · refine ⟨Df, [p] ++ Dz, ?_, ?_, ?_⟩
        · rw [h8, hf]
        · rw [h9, hz]
          simp
        · intro c
          have := h10 c
          rw [htmp'] at this
          rw [hhead]
          simp only [List.mem_append, List.mem_cons,
            List.not_mem_nil, or_false] at this ⊢
          tauto

/-- Characterization of gc_free_cycles. -/
theorem gc_free_cycles_char (g : Graph) (s : GCState) (tr : GCTrace)
    (hnodup : s.tmp.Nodup)
    (hnl : ∀ c ∈ s.tmp, c ∉ s.live)
    (hnz : ∀ c ∈ s.tmp, c ∉ s.zero) :
    ((gc_free_cycles g s tr).1.tmp = []) ∧
    ((gc_free_cycles g s tr).1.live = s.live) ∧
    (∀ c, (gc_free_cycles g s tr).1.rc c =
      s.rc c - (indegFrom g s.tmp c : Int)) ∧
    ((gc_free_cycles g s tr).1.mark = s.mark) ∧
    (∀ c ∈ s.tmp, (gc_free_cycles g s tr).1.free_mark c = true) ∧
    (∀ c, c ∉ s.tmp →
      (gc_free_cycles g s tr).1.free_mark c = s.free_mark c) ∧
    ((gc_free_cycles g s tr).1.phase = GCPhase.none) ∧
    ((gc_free_cycles g s tr).1.zero = []) ∧
    (∃ D, (gc_free_cycles g s tr).1.freed = s.freed ++ D ∧
      (∀ c, c ∈ D ↔ (c ∈ s.zero ∨ c ∈ s.tmp))) := by
  have hloop := free_cycles_loop_char g
    ({ s with phase := GCPhase.removeCycles }).tmp.length
    { s with phase := GCPhase.removeCycles } tr rfl rfl hnodup hnl hnz
  obtain ⟨h1, h2, h3, h4, h5, h6, h7, Df, Dz, h8, h9, h10⟩ := hloop
  set t2 := (gc_free_cycles_loop g
    ({ s with phase := GCPhase.removeCycles }).tmp.length
    { s with phase := GCPhase.removeCycles } tr).1 with ht2
  have hval : (gc_free_cycles g s tr).1 =
      { t2 with phase := GCPhase.none,
                freed := t2.freed ++ t2.zero, zero := [] } := rfl
  rw [hval]
  refine ⟨h1, h2, h3, h4, h5, h6, rfl, rfl, ?_⟩
  refine ⟨Df ++ (s.zero ++ Dz), ?_, ?_⟩
  · rw [h8, h9]
    simp
  · intro c
    have := h10 c
    simp only [List.mem_append] at this ⊢
    tauto

/-- Master characterization of JS_RunGC. -/
theorem JS_RunGC_char (g : Graph) (s0 : GCState) (tr : GCTrace)
    (hwf : WFState g s0) : RunRes g s0 (JS_RunGC g s0 tr).1 := by
  obtain ⟨hnodup, htmp0, hzero0, hphase0, hmarks, hclosed, hcounts⟩ := hwf
  have hdec := gc_decref_char g s0 hnodup hmarks hclosed hcounts
  set s1 := gc_decref g s0 with hs1
  -- the scan hypotheses over population L = s0.live
  have hpart1 : ∀ c, c ∈ s1.live ↔ (c ∈ s0.live ∧ c ∉ s1.tmp) :=
    hdec.live_iff
  have htmpL1 : ∀ c ∈ s1.tmp, c ∈ s0.live := by
    intro c hc
    exact ((hdec.tmp_iff c).mp hc).1
  have htzero1 : ∀ c ∈ s1.tmp, s1.rc c = 0 := by
    intro c hc
    exact ((hdec.tmp_iff c).mp hc).2
  have hpos1 : ∀ c ∈ s1.live, 0 < s1.rc c := by
    intro c hc
    have hcl := (hpart1 c).mp hc
    have h1 := hdec.rc_eq c
    have h2 := hcounts c hcl.1
    have h3 : ¬(c ∈ s0.live ∧ s1.rc c = 0) := by
      intro hand
      exact hcl.2 ((hdec.tmp_iff c).mpr hand)
    have h4 : s1.rc c ≠ 0 := by
      intro he
      exact h3 ⟨hcl.1, he⟩
    omega
  have hscan := gc_scan_char g s0.live s1 hnodup hclosed hpart1
    hdec.live_nodup hdec.tmp_nodup htmpL1 hpos1 htzero1
  set s2 := gc_scan g s1 with hs2
  -- the free pass hypotheses
  have hd1 : ∀ c ∈ s2.tmp, c ∉ s2.live := by
    intro c hc hcl
    exact ((hscan.tmp_char c).mp hc).2 ((hscan.live_reach c).mp hcl)
  have hd2 : ∀ c ∈ s2.tmp, c ∉ s2.zero := by
    intro c hc
    rw [hscan.zero_eq, hdec.zero_eq, hzero0]
    simp
  have hfree := gc_free_cycles_char g s2 tr hscan.tmp_nodup hd1 hd2
  obtain ⟨f1, f2, f3, f4, f5, f6, f7, f8, D, f9, f10⟩ := hfree
  have hrun : (JS_RunGC g s0 tr).1 = (gc_free_cycles g s2 tr).1 := rfl
  -- rc after the whole run
  have hrc3 : ∀ c, (JS_RunGC g s0 tr).1.rc c =
      s0.rc c - (indegFrom g s2.tmp c : Int) := by
    intro c
    rw [hrun, f3 c, hscan.rc_eq c, hdec.rc_eq c]
    push_cast
    ring
  -- the indegree split over the scan partition
  have hsplit : ∀ c, indegFrom g s0.live c =
      indegFrom g s2.live c + indegFrom g s2.tmp c := by
    intro c
    rw [← indegFrom_append, indegFrom_perm g hscan.perm c]
  have hrootsL : ∀ x ∈ s1.live, x ∈ s0.live := by
    intro x hx
    exact ((hpart1 x).mp hx).1
  have hliveL : ∀ c ∈ s2.live, c ∈ s0.live := by
    intro c hc
    exact Reach.mem_of_closed hrootsL hclosed ((hscan.live_reach c).mp hc)
  refine ⟨?_, ?_, ?_, ?_, ?_, ?_, ?_, ?_, ?_, ?_, ?_, ?_, ?_, ?_, ?_,
    ?_, ?_⟩
  · intro c
    rw [← hs1]
    constructor
    · intro hc
      have := (hdec.live_iff c).mp hc
      refine ⟨this.1, ?_⟩
      intro he
      have h4 := hdec.rc_eq c
      exact absurd ((hdec.tmp_iff c).mpr ⟨this.1, by omega⟩) this.2
    · intro ⟨hcl, hne⟩
      refine (hdec.live_iff c).mpr ⟨hcl, ?_⟩
      intro ht
      have := (hdec.tmp_iff c).mp ht
      have h4 := hdec.rc_eq c
      omega
  · intro c
    rw [← hs1, ← hs2]
    exact hscan.tmp_char c
  · intro c
    rw [hrun, f2, ← hs1]
    exact hscan.live_reach c
  · rw [hrun, f2]
    exact hscan.live_nodup
  · intro c hc
    rw [hrun, f2] at hc
    exact hliveL c hc
  · rw [hrun]
    exact f1
  · rw [hrun]
    exact f8
  · rw [hrun]
    exact f7
  · intro c
    rw [← hs1, ← hs2]
    exact hrc3 c
  · intro c
    have h1 := hrc3 c
    have h2 := hsplit c
    rw [hrun] at h1 ⊢
    rw [f2, h1]
    push_cast
    omega
  · intro c hc
    rw [hrun, f2] at hc
    rw [hrun, f4]
    exact hscan.live_marks c hc
  · intro c hc
    rw [hrun, f4]
    have hc2 : c ∉ s2.live := by
      intro hmem
      exact hc (hliveL c hmem)
    have hc3 : c ∉ s2.tmp := by
      intro hmem
      exact hc (((hscan.tmp_char c).mp hmem).1)
    rw [hscan.marks_out c hc2 hc3, hdec.mark_eq c, if_neg hc]
  · intro c hc
    rw [hrun]
    rw [← hs1, ← hs2] at hc
    exact f5 c hc
  · intro c hc
    rw [hrun, f6 c (by rw [← hs1, ← hs2] at hc; exact hc)]
    rw [hscan.fm_eq, hdec.fm_eq]
  · refine ⟨D, ?_, ?_⟩
    · rw [hrun, f9, hscan.freed_eq, hdec.freed_eq]
    · intro c
      rw [← hs1, ← hs2]
      have := f10 c
      rw [hscan.zero_eq, hdec.zero_eq, hzero0] at this
      simpa using this
  · intro p hp c hc
    rw [hrun, f2] at hp ⊢
    exact (hscan.live_reach c).mpr
      (Reach.step p c ((hscan.live_reach p).mp hp) hc)
  · intro c hc
    rw [hrun, f2] at hc
    rw [hrc3 c]
    have h1 := hsplit c
    have h2 := hcounts c (hliveL c hc)
    rw [hrun, f2]
    push_cast
    omega

/-- C3 (amended): after a full cycle collection over a well-formed heap
that reclaims the set S of cells condemned by the scan pass, every
cell's ref_count equals its pre-collection value minus the number of
references to it held by the cells of S; in particular every cell with
no referrer inside S keeps its ref_count exactly, but a survivor that a
reclaimed cell referenced has its count lowered by those dropped
references, so the claim's blanket "every cell not in S keeps its
ref_count" does not hold. -/
theorem run_gc_refcount_frame (g : Graph) (s0 : GCState) (tr : GCTrace)
    (hwf : WFState g s0) (c : Nat) :
    (JS_RunGC g s0 tr).1.rc c =
      s0.rc c -
        (indegFrom g (gc_scan g (gc_decref g s0)).tmp c : Int) :=
  (JS_RunGC_char g s0 tr hwf).rc_eq c

/-- Witness for run_gc_refcount_frame at the concrete frame heap and
cell 2. -/
theorem run_gc_refcount_frame_witness :
    (JS_RunGC frameWitnessGraph frameWitnessState []).1.rc 2 =
      frameWitnessState.rc 2 -
        (indegFrom frameWitnessGraph
          (gc_scan frameWitnessGraph
            (gc_decref frameWitnessGraph frameWitnessState)).tmp
          2 : Int) :=
  run_gc_refcount_frame frameWitnessGraph frameWitnessState []
    ⟨by decide, rfl, rfl, rfl, by decide, by decide, by decide⟩ 2

/-- C3 counterexample: on the heap where cells 0 and 1 form a garbage
cycle and 0 also references the externally held cell 2, the collection
reclaims S with 2 outside S, yet cell 2's ref_count drops from 2 to 1:
freeing the cycle releases its reference into the survivor. -/
theorem run_gc_refcount_frame_cex :
    (2 ∉ (gc_scan frameWitnessGraph
      (gc_decref frameWitnessGraph frameWitnessState)).tmp) ∧
    frameWitnessState.rc 2 = 2 ∧
    (JS_RunGC frameWitnessGraph frameWitnessState []).1.rc 2 = 1 :=
  ⟨by decide, by decide, by decide⟩

/-- C4: over a well-formed heap, running the cycle collector twice in a
row with no mutator activity in between is idempotent: the second run's
scan pass ends with an empty tmp_obj_list (so its free pass reclaims
nothing and frees no memory), and the second run leaves every cell's
ref_count and mark unchanged. -/
theorem run_gc_idempotent (g : Graph) (s0 : GCState) (tr tr2 : GCTrace)
    (hwf : WFState g s0) :
    (gc_scan g (gc_decref g (JS_RunGC g s0 tr).1)).tmp = [] ∧
    (JS_RunGC g (JS_RunGC g s0 tr).1 tr2).1.freed =
      (JS_RunGC g s0 tr).1.freed ∧
    (∀ c, (JS_RunGC g (JS_RunGC g s0 tr).1 tr2).1.rc c =
      (JS_RunGC g s0 tr).1.rc c) ∧
    (∀ c, (JS_RunGC g (JS_RunGC g s0 tr).1 tr2).1.mark c =
      (JS_RunGC g s0 tr).1.mark c) := by
  have r1 := JS_RunGC_char g s0 tr hwf
  set s3 := (JS_RunGC g s0 tr).1 with hs3
  have hwf3 : WFState g s3 :=
    ⟨r1.live_nodup, r1.tmp_nil, r1.zero_nil, r1.phase_none,
     r1.live_marks, r1.closed_live, r1.counts_live⟩
  have r2 := JS_RunGC_char g s3 tr2 hwf3
  have hsub : ∀ x ∈ (gc_decref g s0).live, x ∈ (gc_decref g s3).live := by
    intro x hx
    have hx0 := (r1.roots_char x).mp hx
    have hxl : x ∈ s3.live := (r1.live_char x).mpr (Reach.root x hx)
    refine (r2.roots_char x).mpr ⟨hxl, ?_⟩
    have he := r1.ext_eq x
    have hne := hx0.2
    intro heq
    omega
  have hall : ∀ c ∈ s3.live, Reach g (gc_decref g s3).live c := by
    intro c hc
    exact Reach.mono hsub ((r1.live_char c).mp hc)
  have hS2 : (gc_scan g (gc_decref g s3)).tmp = [] := by
    rw [List.eq_nil_iff_forall_not_mem]
    intro c hc
    have hcc := (r2.cond_char c).mp hc
    exact hcc.2 (hall c hcc.1)
  refine ⟨hS2, ?_, ?_, ?_⟩
  · obtain ⟨D, hD, hDm⟩ := r2.freed_eq
    have hDnil : D = [] := by
      rw [List.eq_nil_iff_forall_not_mem]
      intro c hc
      have := (hDm c).mp hc
      rw [hS2] at this
      simp at this
    rw [hD, hDnil]
    simp
  · intro c
    have h := r2.rc_eq c
    rw [hS2] at h
    simpa [indegFrom] using h
  · intro c
    by_cases hc : c ∈ s3.live
    · have h4 : (JS_RunGC g s3 tr2).1.mark c = 0 :=
        r2.live_marks c ((r2.live_char c).mpr (hall c hc))
      rw [h4, r1.live_marks c hc]
    · exact r2.marks_out c hc

/-- Witness for run_gc_idempotent on the concrete cycle-plus-leaf
heap. -/
theorem run_gc_idempotent_witness :
    (gc_scan idemWitnessGraph (gc_decref idemWitnessGraph
      (JS_RunGC idemWitnessGraph idemWitnessState []).1)).tmp = [] ∧
    (JS_RunGC idemWitnessGraph
        (JS_RunGC idemWitnessGraph idemWitnessState []).1 []).1.rc 2 =
      (JS_RunGC idemWitnessGraph idemWitnessState []).1.rc 2 := by
  have h := run_gc_idempotent idemWitnessGraph idemWitnessState [] []
    ⟨by decide, rfl, rfl, rfl, by decide, by decide, by decide⟩
  exact ⟨h.1, h.2.2.1 2⟩

/-! ## Snapshot well-formedness (towards C8) -/

theorem SaneFrom.trans {a b c : DumpCtx} (h1 : SaneFrom a b)
    (h2 : SaneFrom b c) : SaneFrom a c :=
  ⟨h2.1, le_trans h1.2.1 h2.2.1, le_trans h1.2.2 h2.2.2⟩

theorem SaneFrom.rfl {a : DumpCtx} (h : Sane a) : SaneFrom a a :=
  ⟨h, le_refl _, le_refl _⟩

/-- A successful kid_hashmap_get yields a stored entry. -/
theorem alookup_some {α β : Type} [DecidableEq α] {l : List (α × β)}
    {k : α} {v : β} (hl : alookup l k = some v) : ∃ pr ∈ l, pr.2 = v := by
  unfold alookup at hl
  cases hf : l.find? (fun e => e.1 = k) with
  | none => rw [hf] at hl; simp at hl
  | some pr =>
    rw [hf] at hl
    simp at hl
    exact ⟨pr, List.mem_of_find?_eq_some hf, hl⟩

/-- Replacing one entry of a Nat list shifts its sum by the
difference. -/
theorem sum_set_nat : ∀ (l : List Nat) (i : Nat) (x y : Nat),
    l.get? i = some y → (l.set i x).sum + y = l.sum + x := by
  intro l
  induction l with
  | nil => intro i x y hg; simp at hg
  | cons a t ih =>
    intro i x y hg
    cases i with
    | zero =>
      simp at hg
      subst hg
      simp [List.set]
      omega
    | succ n =>
      rw [List.get?_cons_succ] at hg
      have := ih n x y hg
      simp [List.set]
      omega

/-- js_gcdump_node_from_gp preserves well-formedness and returns an
in-range node index; the strings array and edge counter are untouched. -/
theorem nodeFromGp_sane (dc : DumpCtx) (gp : Nat) (hs : Sane dc) :
    SaneFrom dc (js_gcdump_node_from_gp dc gp).1 ∧
    (js_gcdump_node_from_gp dc gp).2 <
      (js_gcdump_node_from_gp dc gp).1.nodes.length ∧
    (js_gcdump_node_from_gp dc gp).1.strs = dc.strs ∧
    (js_gcdump_node_from_gp dc gp).1.edges_len = dc.edges_len := by
  unfold js_gcdump_node_from_gp
  cases ha : alookup dc.obj2node gp with
  | some i =>
    dsimp only
    obtain ⟨pr, hpr, hv⟩ := alookup_some ha
    exact ⟨SaneFrom.rfl hs, hv ▸ hs.obj2node_ok pr hpr, rfl, rfl⟩
  | none =>
    dsimp only
    refine ⟨⟨⟨?_, ?_, ?_, ?_, hs.str2id_ok, ?_⟩, ?_, le_refl _⟩,
      ?_, rfl, rfl⟩
    · rw [List.map_append, List.sum_append]
      simp [hs.len_eq]
    · intro m hm e he
      rcases List.mem_append.mp hm with hm' | hm'
      · obtain ⟨j, hj, hej⟩ := hs.edge_to m hm' e he
        exact ⟨j, by rw [List.length_append]; omega, hej⟩
      · simp at hm'
        rw [hm'] at he
        simp at he
    · intro m hm e he hp
      rcases List.mem_append.mp hm with hm' | hm'
      · exact hs.edge_name m hm' e he hp
      · simp at hm'
        rw [hm'] at he
        simp at he
    · intro m hm
      rcases List.mem_append.mp hm with hm' | hm'
      · exact hs.name_ok m hm'
      · simp at hm'
        rw [hm']
        left
        rfl
    · intro pr hpr
      rcases List.mem_append.mp hpr with h' | h'
      · have := hs.obj2node_ok pr h'
        rw [List.length_append]
        omega
      · simp at h'
        rw [h', List.length_append]
        simp
    · rw [List.length_append]
      simp
    · rw [List.length_append]
      simp

/-- js_gcdump_add_cstr preserves well-formedness and returns an in-range
strings index; the nodes and edge counter are untouched. -/
theorem addCstr_sane (dc : DumpCtx) (s : String) (hs : Sane dc) :
    SaneFrom dc (js_gcdump_add_cstr dc s).1 ∧
    (js_gcdump_add_cstr dc s).2 <
      (js_gcdump_add_cstr dc s).1.strs.length ∧
    (js_gcdump_add_cstr dc s).1.nodes = dc.nodes ∧
    (js_gcdump_add_cstr dc s).1.edges_len = dc.edges_len := by
  unfold js_gcdump_add_cstr
  cases ha : alookup dc.str2id s with
  | some i =>
    dsimp only
    obtain ⟨pr, hpr, hv⟩ := alookup_some ha
    exact ⟨SaneFrom.rfl hs, hv ▸ hs.str2id_ok pr hpr, rfl, rfl⟩
  | none =>
    dsimp only
    have hle : dc.strs.length ≤ (dc.strs ++ [s]).length := by
      rw [List.length_append]
      simp
    refine ⟨⟨⟨hs.len_eq, hs.edge_to, ?_, ?_, ?_, hs.obj2node_ok⟩,
      le_refl _, hle⟩, ?_, rfl, rfl⟩
    · intro m hm e he hp
      obtain ⟨k, hk, hek⟩ := hs.edge_name m hm e he hp
      exact ⟨k, lt_of_lt_of_le hk hle, hek⟩
    · intro m hm
      rcases hs.name_ok m hm with h' | ⟨k, hk, hnk⟩
      · exact Or.inl h'
      · exact Or.inr ⟨k, lt_of_lt_of_le hk hle, hnk⟩
    · intro pr hpr
      rcases List.mem_append.mp hpr with h' | h'
      · exact lt_of_lt_of_le (hs.str2id_ok pr h') hle
      · simp at h'
        rw [h', List.length_append]
        simp
    · rw [List.length_append]
      simp

/-- js_gcdump_add_atom: same contract as js_gcdump_add_cstr. -/
theorem addAtom_sane (dc : DumpCtx) (a : DAtom) (hs : Sane dc) :
    SaneFrom dc (js_gcdump_add_atom dc a).1 ∧
    (js_gcdump_add_atom dc a).2 <
      (js_gcdump_add_atom dc a).1.strs.length ∧
    (js_gcdump_add_atom dc a).1.nodes = dc.nodes ∧
    (js_gcdump_add_atom dc a).1.edges_len = dc.edges_len := by
  cases a with
  | taggedInt i =>
    simp only [js_gcdump_add_atom]
    exact addCstr_sane dc (toString i) hs
  | named s =>
    simp only [js_gcdump_add_atom]
    exact addCstr_sane dc s hs

/-- js_gcdump_add_str: same contract as js_gcdump_add_cstr. -/
theorem addStr_sane (h : DHeap) (dc : DumpCtx) (p : Nat) (hs : Sane dc) :
    SaneFrom dc (js_gcdump_add_str h dc p).1 ∧
    (js_gcdump_add_str h dc p).2 <
      (js_gcdump_add_str h dc p).1.strs.length ∧
    (js_gcdump_add_str h dc p).1.nodes = dc.nodes ∧
    (js_gcdump_add_str h dc p).1.edges_len = dc.edges_len := by
  simp only [js_gcdump_add_str]
  exact addCstr_sane dc (strContent h p) hs

/-- A node update that keeps the edge array and writes only a valid (or
absent) name preserves well-formedness; nothing else moves. -/
theorem modifyNode_sane (dc : DumpCtx) (i : Nat) (f : DNode → DNode)
    (hs : Sane dc)
    (hedges : ∀ n, (f n).edges = n.edges)
    (hname : ∀ n, (f n).name = n.name ∨ (f n).name = -2 ∨
      ∃ k, k < dc.strs.length ∧ (f n).name = (k : Int)) :
    SaneFrom dc (modifyNode dc i f) ∧
    (modifyNode dc i f).nodes.length = dc.nodes.length ∧
    (modifyNode dc i f).strs = dc.strs ∧
    (modifyNode dc i f).edges_len = dc.edges_len := by
  unfold modifyNode
  cases hg : dc.nodes.get? i with
  | none => exact ⟨SaneFrom.rfl hs, rfl, rfl, rfl⟩
  | some n =>
    dsimp only
    have hmem : n ∈ dc.nodes := List.get?_mem hg
    have hlenset : (dc.nodes.set i (f n)).length = dc.nodes.length :=
      List.length_set ..
    refine ⟨⟨⟨?_, ?_, ?_, ?_, hs.str2id_ok, ?_⟩,
      by rw [hlenset], le_refl _⟩, by rw [hlenset], rfl, rfl⟩
    · rw [List.map_set]
      have hy : (dc.nodes.map (fun n => n.edges.length)).get? i =
          some n.edges.length := by
        rw [List.get?_map, hg]
        rfl
      have hsum := sum_set_nat _ i ((f n).edges.length) _ hy
      have h2 := hs.len_eq
      dsimp only
      rw [hedges n] at hsum ⊢
      omega
    · intro m hm e he
      rcases List.mem_or_eq_of_mem_set hm with hm' | hm'
      · obtain ⟨j, hj, hej⟩ := hs.edge_to m hm' e he
        exact ⟨j, by rw [hlenset]; exact hj, hej⟩
      · rw [hm', hedges n] at he
        obtain ⟨j, hj, hej⟩ := hs.edge_to n hmem e he
        exact ⟨j, by rw [hlenset]; exact hj, hej⟩
    · intro m hm e he hp
      rcases List.mem_or_eq_of_mem_set hm with hm' | hm'
      · exact hs.edge_name m hm' e he hp
      · rw [hm', hedges n] at he
        exact hs.edge_name n hmem e he hp
    · intro m hm
      rcases List.mem_or_eq_of_mem_set hm with hm' | hm'
      · exact hs.name_ok m hm'
      · rw [hm']
        rcases hname n with h' | h' | h'
        · rw [h']
          exact hs.name_ok n hmem
        · exact Or.inl h'
        · exact Or.inr h'
    · intro pr hpr
      have := hs.obj2node_ok pr hpr
      rw [hlenset]
      exact this

/-- Pushing an edge with a valid target (and, for property edges, a
valid name) onto an existing node preserves well-formedness: the counter
increment is matched by the row appended to the node. -/
theorem pushEdgeAt_sane (dc : DumpCtx) (i : Nat) (e : DEdge)
    (hs : Sane dc) (hi : i < dc.nodes.length)
    (hto : ∃ j, j < dc.nodes.length ∧ e.to_node = j * NODE_FIELD_COUNT)
    (hnm : e.type = DEdgeType.property →
      ∃ k, k < dc.strs.length ∧ e.name_or_idx = (k : Int)) :
    SaneFrom dc (pushEdgeAt dc i e) ∧
    (pushEdgeAt dc i e).nodes.length = dc.nodes.length ∧
    (pushEdgeAt dc i e).strs = dc.strs := by
  obtain ⟨n, hg⟩ : ∃ n, dc.nodes.get? i = some n :=
    ⟨dc.nodes.get ⟨i, hi⟩, List.get?_eq_get hi⟩
  have hmem : n ∈ dc.nodes := List.get?_mem hg
  have hval : pushEdgeAt dc i e =
      { dc with nodes := dc.nodes.set i { n with edges := n.edges ++ [e] },
                edges_len := dc.edges_len + 1 } := by
    unfold pushEdgeAt modifyNode
    rw [hg]
  rw [hval]
  have hlenset :
      (dc.nodes.set i { n with edges := n.edges ++ [e] }).length =
        dc.nodes.length := List.length_set ..
  refine ⟨⟨⟨?_, ?_, ?_, ?_, hs.str2id_ok, ?_⟩,
    by rw [hlenset], le_refl _⟩, by rw [hlenset], rfl⟩
  · rw [List.map_set]
    have hy : (dc.nodes.map (fun n => n.edges.length)).get? i =
        some n.edges.length := by
      rw [List.get?_map, hg]
      rfl
    have hsum := sum_set_nat _ i (n.edges ++ [e]).length _ hy
    have hlen2 : (n.edges ++ [e]).length = n.edges.length + 1 := by
      simp
    have h2 := hs.len_eq
    dsimp only
    omega
  · intro m hm e' he'
    rcases List.mem_or_eq_of_mem_set hm with hm' | hm'
    · obtain ⟨j, hj, hej⟩ := hs.edge_to m hm' e' he'
      exact ⟨j, by rw [hlenset]; exact hj, hej⟩
    · rw [hm'] at he'
      dsimp only at he'
      rcases List.mem_append.mp he' with he'' | he''
      · obtain ⟨j, hj, hej⟩ := hs.edge_to n hmem e' he''
        exact ⟨j, by rw [hlenset]; exact hj, hej⟩
      · simp at he''
        rw [he'']
        obtain ⟨j, hj, hej⟩ := hto
        exact ⟨j, by rw [hlenset]; exact hj, hej⟩
  · intro m hm e' he' hp
    rcases List.mem_or_eq_of_mem_set hm with hm' | hm'
    · exact hs.edge_name m hm' e' he' hp
    · rw [hm'] at he'
      dsimp only at he'
      rcases List.mem_append.mp he' with he'' | he''
      · exact hs.edge_name n hmem e' he'' hp
      · simp at he''
        rw [he''] at hp ⊢
        exact hnm hp
  · intro m hm
    rcases List.mem_or_eq_of_mem_set hm with hm' | hm'
    · exact hs.name_ok m hm'
    · rw [hm']
      exact hs.name_ok n hmem
  · intro pr hpr
    have := hs.obj2node_ok pr hpr
    rw [hlenset]
    exact this

/-- Folding a well-formedness-preserving step over a list preserves
well-formedness, threading any monotone side condition P. -/
theorem foldl_sane_pred {α : Type} (f : DumpCtx → α → DumpCtx)
    (P : DumpCtx → Prop)
    (hP : ∀ dcx dcy, P dcx → dcx.nodes.length ≤ dcy.nodes.length → P dcy)
    (hf : ∀ dcx a, Sane dcx → P dcx → SaneFrom dcx (f dcx a)) :
    ∀ (l : List α) (dcx : DumpCtx), Sane dcx → P dcx →
      SaneFrom dcx (l.foldl f dcx) := by
  intro l
  induction l with
  | nil =>
    intro dcx hsx _
    exact SaneFrom.rfl hsx
  | cons a t ih =>
    intro dcx hsx hPx
    rw [List.foldl_cons]
    have h1 := hf dcx a hsx hPx
    have h2 := ih (f dcx a) h1.1 (hP dcx (f dcx a) hPx h1.2.1)
    exact h1.trans h2

/-- The parent-edge block at the end of js_gcdump_process_obj preserves
well-formedness: the edge produced for any label targets the interned
node and, for property-labelled edges, carries a freshly interned
name. -/
theorem parent_edge_sane (dc0 dcM : DumpCtx) (parent : Int) (node_i : Nat)
    (label : DumpLabel) (hM : SaneFrom dc0 dcM)
    (hpar0 : parent ≥ 0 → parent.toNat < dc0.nodes.length)
    (hni0 : node_i < dc0.nodes.length) :
    SaneFrom dc0
      (if parent ≥ 0 ∧ node_i ≠ 0 ∧ label ≠ DumpLabel.noLbl then
        match label with
        | DumpLabel.nameLbl s =>
          let tn := js_gcdump_add_cstr dcM s
          pushEdgeAt tn.1 parent.toNat
            { type := DEdgeType.property, name_or_idx := tn.2,
              to_node := node_i * NODE_FIELD_COUNT }
        | DumpLabel.idxLbl i =>
          pushEdgeAt dcM parent.toNat
            { type := DEdgeType.element, name_or_idx := i,
              to_node := node_i * NODE_FIELD_COUNT }
        | DumpLabel.propLbl (DAtom.taggedInt k) _ =>
          pushEdgeAt dcM parent.toNat
            { type := DEdgeType.element, name_or_idx := k,
              to_node := node_i * NODE_FIELD_COUNT }
        | DumpLabel.propLbl (DAtom.named s) _ =>
          let tn := js_gcdump_add_atom dcM (DAtom.named s)
          pushEdgeAt tn.1 parent.toNat
            { type := DEdgeType.property, name_or_idx := tn.2,
              to_node := node_i * NODE_FIELD_COUNT }
        | DumpLabel.noLbl => dcM
      else dcM) := by
  have hsM : Sane dcM := hM.1
  have hpar : parent ≥ 0 → parent.toNat < dcM.nodes.length :=
    fun hp => lt_of_lt_of_le (hpar0 hp) hM.2.1
  have hni : node_i < dcM.nodes.length := lt_of_lt_of_le hni0 hM.2.1
  refine SaneFrom.trans hM ?_
  split
  case isTrue hcond =>
    have hptn := hpar hcond.1
    cases label with
    | noLbl => exact SaneFrom.rfl hsM
    | nameLbl s =>
      dsimp only
      obtain ⟨hF1, hk1, hnd1, _⟩ := addCstr_sane dcM s hsM
      have hp1 : parent.toNat < (js_gcdump_add_cstr dcM s).1.nodes.length := by
        rw [hnd1]
        exact hptn
      have hni1 : node_i < (js_gcdump_add_cstr dcM s).1.nodes.length := by
        rw [hnd1]
        exact hni
      obtain ⟨hF2, _, _⟩ := pushEdgeAt_sane (js_gcdump_add_cstr dcM s).1
        parent.toNat
        { type := DEdgeType.property,
          name_or_idx := (js_gcdump_add_cstr dcM s).2,
          to_node := node_i * NODE_FIELD_COUNT } hF1.1 hp1
        ⟨node_i, hni1, rfl⟩
        (fun _ => ⟨(js_gcdump_add_cstr dcM s).2, hk1, rfl⟩)
      exact hF1.trans hF2
    | idxLbl i =>
      obtain ⟨hF2, _, _⟩ := pushEdgeAt_sane dcM parent.toNat
        { type := DEdgeType.element, name_or_idx := i,
          to_node := node_i * NODE_FIELD_COUNT } hsM hptn
        ⟨node_i, hni, rfl⟩ (fun hpe => DEdgeType.noConfusion hpe)
      exact hF2
    | propLbl atom pv =>
      cases atom with
      | taggedInt k =>
        obtain ⟨hF2, _, _⟩ := pushEdgeAt_sane dcM parent.toNat
          { type := DEdgeType.element, name_or_idx := k,
            to_node := node_i * NODE_FIELD_COUNT } hsM hptn
          ⟨node_i, hni, rfl⟩ (fun hpe => DEdgeType.noConfusion hpe)
        exact hF2
      | named s =>
        dsimp only
        obtain ⟨hF1, hk1, hnd1, _⟩ := addAtom_sane dcM (DAtom.named s) hsM
        have hp1 : parent.toNat <
            (js_gcdump_add_atom dcM (DAtom.named s)).1.nodes.length := by
          rw [hnd1]
          exact hptn
        have hni1 : node_i <
            (js_gcdump_add_atom dcM (DAtom.named s)).1.nodes.length := by
          rw [hnd1]
          exact hni
        obtain ⟨hF2, _, _⟩ := pushEdgeAt_sane
          (js_gcdump_add_atom dcM (DAtom.named s)).1 parent.toNat
          { type := DEdgeType.property,
            name_or_idx := (js_gcdump_add_atom dcM (DAtom.named s)).2,
            to_node := node_i * NODE_FIELD_COUNT } hF1.1 hp1
          ⟨node_i, hni1, rfl⟩
          (fun _ => ⟨(js_gcdump_add_atom dcM (DAtom.named s)).2, hk1, rfl⟩)
        exact hF1.trans hF2
  case isFalse =>
    exact SaneFrom.rfl hsM

/-- The typed-array-container step of the first-visit object branch
preserves well-formedness (the edge keeps the INTERNAL type left over
from the shape edge). -/
theorem tab_step_sane (tab : Option Nat) (dc1 dcp : DumpCtx) (ni : Nat)
    (hM : SaneFrom dc1 dcp) (hni : ni < dc1.nodes.length) :
    SaneFrom dc1
      (match tab with
       | some buf =>
         let tb := js_gcdump_node_from_gp dcp buf
         let tbn := js_gcdump_add_cstr tb.1 "typed_array"
         pushEdgeAt tbn.1 ni
           { type := DEdgeType.internal, name_or_idx := tbn.2,
             to_node := tb.2 * NODE_FIELD_COUNT }
       | none => dcp) := by
  cases tab with
  | none => exact hM
  | some buf =>
    dsimp only
    obtain ⟨hF1, hi1, hst1, _⟩ := nodeFromGp_sane dcp buf hM.1
    obtain ⟨hF2, hk2, hnd2, _⟩ := addCstr_sane
      (js_gcdump_node_from_gp dcp buf).1 "typed_array" hF1.1
    have hni2 : ni <
        (js_gcdump_add_cstr (js_gcdump_node_from_gp dcp buf).1
          "typed_array").1.nodes.length := by
      rw [hnd2]
      exact lt_of_lt_of_le hni (le_trans hM.2.1 hF1.2.1)
    have hto2 : (js_gcdump_node_from_gp dcp buf).2 <
        (js_gcdump_add_cstr (js_gcdump_node_from_gp dcp buf).1
          "typed_array").1.nodes.length := by
      rw [hnd2]
      exact hi1
    obtain ⟨hF3, _, _⟩ := pushEdgeAt_sane _ ni
      { type := DEdgeType.internal,
        name_or_idx := (js_gcdump_add_cstr
          (js_gcdump_node_from_gp dcp buf).1 "typed_array").2,
        to_node := (js_gcdump_node_from_gp dcp buf).2 *
          NODE_FIELD_COUNT } hF2.1 hni2
      ⟨(js_gcdump_node_from_gp dcp buf).2, hto2, rfl⟩
      (fun hpe => DEdgeType.noConfusion hpe)
    exact ((hM.trans hF1).trans hF2).trans hF3

/-- The function-code step of the first-visit object branch preserves
well-formedness: the cfunc arm interns a native node (valid name), the
bytecode arm interns a plain node, and the code edge targets it. -/
theorem fn_step_sane (o : DObj) (dc1 dcp : DumpCtx) (ni : Nat)
    (hM : SaneFrom dc1 dcp) (hni : ni < dc1.nodes.length) :
    SaneFrom dc1
      (if o.isFunction then
        let tb :=
          if o.isCFunc then
            let tc := js_gcdump_node_from_gp dcp o.cfuncPtr
            let tcn := js_gcdump_add_atom tc.1 (DAtom.named "cfunc")
            (modifyNode tcn.1 tc.2 (fun n =>
              { n with name := tcn.2, type := DNodeType.native,
                       self_size := sizeof_fnptr }), tc.2)
          else
            js_gcdump_node_from_gp dcp o.funcBytecode
        let tbn := js_gcdump_add_atom tb.1 (DAtom.named "code")
        pushEdgeAt tbn.1 ni
          { type := DEdgeType.internal, name_or_idx := tbn.2,
            to_node := tb.2 * NODE_FIELD_COUNT }
      else dcp) := by
  split
  case isFalse => exact hM
  case isTrue =>
    have hbase : ∀ tb : DumpCtx × Nat, SaneFrom dc1 tb.1 →
        tb.2 < tb.1.nodes.length →
        SaneFrom dc1
          (let tbn := js_gcdump_add_atom tb.1 (DAtom.named "code")
           pushEdgeAt tbn.1 ni
             { type := DEdgeType.internal, name_or_idx := tbn.2,
               to_node := tb.2 * NODE_FIELD_COUNT }) := by
      intro tb hMb hib
      dsimp only
      obtain ⟨hF2, hk2, hnd2, _⟩ := addAtom_sane tb.1 (DAtom.named "code")
        hMb.1
      have hni2 : ni < (js_gcdump_add_atom tb.1
          (DAtom.named "code")).1.nodes.length := by
        rw [hnd2]
        exact lt_of_lt_of_le hni hMb.2.1
      have hto2 : tb.2 < (js_gcdump_add_atom tb.1
          (DAtom.named "code")).1.nodes.length := by
        rw [hnd2]
        exact hib
      obtain ⟨hF3, _, _⟩ := pushEdgeAt_sane _ ni
        { type := DEdgeType.internal,
          name_or_idx := (js_gcdump_add_atom tb.1 (DAtom.named "code")).2,
          to_node := tb.2 * NODE_FIELD_COUNT } hF2.1 hni2
        ⟨tb.2, hto2, rfl⟩ (fun hpe => DEdgeType.noConfusion hpe)
      exact (hMb.trans hF2).trans hF3
    split
    case isTrue =>
      obtain ⟨hF1, hi1, _, _⟩ := nodeFromGp_sane dcp o.cfuncPtr hM.1
      obtain ⟨hF2, hk2, hnd2, _⟩ := addAtom_sane
        (js_gcdump_node_from_gp dcp o.cfuncPtr).1
        (DAtom.named "cfunc") hF1.1
      obtain ⟨hF3, hlen3, _, _⟩ := modifyNode_sane
        (js_gcdump_add_atom (js_gcdump_node_from_gp dcp o.cfuncPtr).1
          (DAtom.named "cfunc")).1
        (js_gcdump_node_from_gp dcp o.cfuncPtr).2
        (fun n => { n with
          name := (js_gcdump_add_atom
            (js_gcdump_node_from_gp dcp o.cfuncPtr).1
            (DAtom.named "cfunc")).2,
          type := DNodeType.native, self_size := sizeof_fnptr })
        hF2.1 (fun n => rfl)
        (fun n => Or.inr (Or.inr ⟨_, hk2, rfl⟩))
      refine hbase
        (modifyNode
          (js_gcdump_add_atom (js_gcdump_node_from_gp dcp o.cfuncPtr).1
            (DAtom.named "cfunc")).1
          (js_gcdump_node_from_gp dcp o.cfuncPtr).2
          (fun n => { n with
            name := (js_gcdump_add_atom
              (js_gcdump_node_from_gp dcp o.cfuncPtr).1
              (DAtom.named "cfunc")).2,
            type := DNodeType.native, self_size := sizeof_fnptr }),
         (js_gcdump_node_from_gp dcp o.cfuncPtr).2) ?_ ?_
      · exact ((hM.trans hF1).trans hF2).trans hF3
      · show (js_gcdump_node_from_gp dcp o.cfuncPtr).2 < _
        rw [hlen3, hnd2]
        exact hi1
    case isFalse =>
      refine hbase (js_gcdump_node_from_gp dcp o.funcBytecode) ?_ ?_
      · exact hM.trans (nodeFromGp_sane dcp o.funcBytecode hM.1).1
      · exact (nodeFromGp_sane dcp o.funcBytecode hM.1).2.1

/-- The element-edge walk of array-typed nodes preserves
well-formedness. -/
theorem arr_tail_sane (o : DObj) (dc1 X : DumpCtx) (ni : Nat)
    (hX : SaneFrom dc1 X) (hni : ni < dc1.nodes.length) :
    SaneFrom dc1
      (if (getNode X ni).type = DNodeType.array then
        o.arrayElems.enum.foldl (fun dc iv =>
          let te := js_gcdump_node_from_gp dc (valuePtr iv.2)
          pushEdgeAt te.1 ni
            { type := DEdgeType.element, name_or_idx := iv.1,
              to_node := te.2 * NODE_FIELD_COUNT }) X
      else X) := by
  split
  case isFalse => exact hX
  case isTrue =>
    refine hX.trans (foldl_sane_pred _
      (fun dcx => ni < dcx.nodes.length)
      (fun dcx dcy hx hle => lt_of_lt_of_le hx hle) ?_
      o.arrayElems.enum X hX.1 (lt_of_lt_of_le hni hX.2.1))
    intro dcx iv hsx hnix
    dsimp only
    obtain ⟨hF1, hi1, _, _⟩ := nodeFromGp_sane dcx (valuePtr iv.2) hsx
    obtain ⟨hF2, _, _⟩ := pushEdgeAt_sane _ ni
      { type := DEdgeType.element, name_or_idx := (iv.1 : Int),
        to_node := (js_gcdump_node_from_gp dcx (valuePtr iv.2)).2 *
          NODE_FIELD_COUNT } hF1.1
      (lt_of_lt_of_le hnix hF1.2.1)
      ⟨(js_gcdump_node_from_gp dcx (valuePtr iv.2)).2, hi1, rfl⟩
      (fun hpe => DEdgeType.noConfusion hpe)
    exact hF1.trans hF2

/-- The naming and element-edge tail of the first-visit object branch
preserves well-formedness. -/
theorem obj_tail_sane (o : DObj) (dc1 dc9 : DumpCtx) (ni : Nat)
    (hM : SaneFrom dc1 dc9) (hni : ni < dc1.nodes.length) :
    SaneFrom dc1
      (let dc :=
        if (getNode dc9 ni).name = -2 then
          if o.isGlobal then
            let tg := js_gcdump_add_atom dc9 (DAtom.named "global")
            modifyNode tg.1 ni (fun n => { n with name := tg.2 })
          else
            let tg := js_gcdump_add_cstr dc9 o.nodeName
            modifyNode tg.1 ni (fun n => { n with name := tg.2 })
        else dc9
       if (getNode dc ni).type = DNodeType.array then
         o.arrayElems.enum.foldl (fun dc iv =>
           let te := js_gcdump_node_from_gp dc (valuePtr iv.2)
           pushEdgeAt te.1 ni
             { type := DEdgeType.element, name_or_idx := iv.1,
               to_node := te.2 * NODE_FIELD_COUNT }) dc
       else dc) := by
  dsimp only
  split
  case isTrue =>
    split
    case isTrue =>
      obtain ⟨hF1, hk1, hnd1, _⟩ := addAtom_sane dc9
        (DAtom.named "global") hM.1
      obtain ⟨hF2, _, _, _⟩ := modifyNode_sane
        (js_gcdump_add_atom dc9 (DAtom.named "global")).1 ni
        (fun n => { n with name :=
          (js_gcdump_add_atom dc9 (DAtom.named "global")).2 })
        hF1.1 (fun n => rfl) (fun n => Or.inr (Or.inr ⟨_, hk1, rfl⟩))
      exact arr_tail_sane o dc1 _ ni ((hM.trans hF1).trans hF2) hni
    case isFalse =>
      obtain ⟨hF1, hk1, hnd1, _⟩ := addCstr_sane dc9 o.nodeName hM.1
      obtain ⟨hF2, _, _, _⟩ := modifyNode_sane
        (js_gcdump_add_cstr dc9 o.nodeName).1 ni
        (fun n => { n with name :=
          (js_gcdump_add_cstr dc9 o.nodeName).2 })
        hF1.1 (fun n => rfl) (fun n => Or.inr (Or.inr ⟨_, hk1, rfl⟩))
      exact arr_tail_sane o dc1 _ ni ((hM.trans hF1).trans hF2) hni
  case isFalse =>
    exact arr_tail_sane o dc1 dc9 ni hM hni

/-- The first-visit object branch of js_gcdump_process_obj preserves
well-formedness. -/
theorem obj_branch_sane (h : DHeap) (o : DObj) (dc1 : DumpCtx) (ni : Nat)
    (hs1 : Sane dc1) (hni : ni < dc1.nodes.length) :
    SaneFrom dc1
      (if (getNode dc1 ni).self_size = 0 then
        let ntype :=
          if o.isArray then DNodeType.array
          else if o.isFunction then DNodeType.closure
          else DNodeType.object
        let dc := modifyNode dc1 ni (fun n =>
          { n with type := ntype, self_size := o.objSize })
        let tp := js_gcdump_node_from_gp dc (shapeOf h o.shape).proto
        let dc := tp.1
        let tn := js_gcdump_add_atom dc (DAtom.named "__proto__")
        let dc := pushEdgeAt tn.1 ni
          { type := DEdgeType.property, name_or_idx := tn.2,
            to_node := tp.2 * NODE_FIELD_COUNT }
        let ts := js_gcdump_node_from_gp dc o.shape
        let dc := ts.1
        let tsn := js_gcdump_add_atom dc (DAtom.named "shape")
        let dc := pushEdgeAt tsn.1 ni
          { type := DEdgeType.internal, name_or_idx := tsn.2,
            to_node := ts.2 * NODE_FIELD_COUNT }
        let dc :=
          match o.typedArrayBuf with
          | some buf =>
            let tb := js_gcdump_node_from_gp dc buf
            let tbn := js_gcdump_add_cstr tb.1 "typed_array"
            pushEdgeAt tbn.1 ni
              { type := DEdgeType.internal, name_or_idx := tbn.2,
                to_node := tb.2 * NODE_FIELD_COUNT }
          | none => dc
        let dc :=
          if o.isFunction then
            let tb :=
              if o.isCFunc then
                let tc := js_gcdump_node_from_gp dc o.cfuncPtr
                let tcn := js_gcdump_add_atom tc.1 (DAtom.named "cfunc")
                (modifyNode tcn.1 tc.2 (fun n =>
                  { n with name := tcn.2, type := DNodeType.native,
                           self_size := sizeof_fnptr }), tc.2)
              else
                js_gcdump_node_from_gp dc o.funcBytecode
            let tbn := js_gcdump_add_atom tb.1 (DAtom.named "code")
            pushEdgeAt tbn.1 ni
              { type := DEdgeType.internal, name_or_idx := tbn.2,
                to_node := tb.2 * NODE_FIELD_COUNT }
          else dc
        let dc :=
          if (getNode dc ni).name = -2 then
            if o.isGlobal then
              let tg := js_gcdump_add_atom dc (DAtom.named "global")
              modifyNode tg.1 ni (fun n => { n with name := tg.2 })
            else
              let tg := js_gcdump_add_cstr dc o.nodeName
              modifyNode tg.1 ni (fun n => { n with name := tg.2 })
          else dc
        if (getNode dc ni).type = DNodeType.array then
          o.arrayElems.enum.foldl (fun dc iv =>
            let te := js_gcdump_node_from_gp dc (valuePtr iv.2)
            pushEdgeAt te.1 ni
              { type := DEdgeType.element, name_or_idx := iv.1,
                to_node := te.2 * NODE_FIELD_COUNT }) dc
        else dc
      else dc1) := by
  split
  case isFalse => exact SaneFrom.rfl hs1
  case isTrue =>
    dsimp only
    obtain ⟨hF1, hlen1, hstr1, _⟩ := modifyNode_sane dc1 ni
      (fun n => { n with
        type := if o.isArray then DNodeType.array
                else if o.isFunction then DNodeType.closure
                else DNodeType.object,
        self_size := o.objSize }) hs1 (fun n => rfl) (fun n => Or.inl rfl)
    set A1 := modifyNode dc1 ni (fun n =>
      { n with
        type := if o.isArray then DNodeType.array
                else if o.isFunction then DNodeType.closure
                else DNodeType.object,
        self_size := o.objSize }) with hA1def
    obtain ⟨hF2, hi2, hstr2, _⟩ := nodeFromGp_sane A1
      (shapeOf h o.shape).proto hF1.1
    set T2 := js_gcdump_node_from_gp A1 (shapeOf h o.shape).proto
      with hT2def
    obtain ⟨hF3, hk3, hnd3, _⟩ := addAtom_sane T2.1
      (DAtom.named "__proto__") hF2.1
    set T3 := js_gcdump_add_atom T2.1 (DAtom.named "__proto__")
      with hT3def
    have hniA1 : ni < A1.nodes.length := by
      rw [hlen1]
      exact hni
    have hni3 : ni < T3.1.nodes.length := by
      rw [hnd3]
      exact lt_of_lt_of_le hniA1 hF2.2.1
    have hto3 : T2.2 < T3.1.nodes.length := by
      rw [hnd3]
      exact hi2
    obtain ⟨hF4, hlen4, hstr4⟩ := pushEdgeAt_sane T3.1 ni
      { type := DEdgeType.property, name_or_idx := T3.2,
        to_node := T2.2 * NODE_FIELD_COUNT } hF3.1 hni3
      ⟨T2.2, hto3, rfl⟩ (fun _ => ⟨T3.2, hk3, rfl⟩)
    set A4 := pushEdgeAt T3.1 ni
      { type := DEdgeType.property, name_or_idx := T3.2,
        to_node := T2.2 * NODE_FIELD_COUNT } with hA4def
    obtain ⟨hF5, hi5, hstr5, _⟩ := nodeFromGp_sane A4 o.shape hF4.1
    set T5 := js_gcdump_node_from_gp A4 o.shape with hT5def
    obtain ⟨hF6, hk6, hnd6, _⟩ := addAtom_sane T5.1
      (DAtom.named "shape") hF5.1
    set T6 := js_gcdump_add_atom T5.1 (DAtom.named "shape") with hT6def
    have hni4 : ni < A4.nodes.length := by
      rw [hlen4]
      exact hni3
    have hni6 : ni < T6.1.nodes.length := by
      rw [hnd6]
      exact lt_of_lt_of_le hni4 hF5.2.1
    have hto6 : T5.2 < T6.1.nodes.length := by
      rw [hnd6]
      exact hi5
    obtain ⟨hF7, hlen7, hstr7⟩ := pushEdgeAt_sane T6.1 ni
      { type := DEdgeType.internal, name_or_idx := T6.2,
        to_node := T5.2 * NODE_FIELD_COUNT } hF6.1 hni6
      ⟨T5.2, hto6, rfl⟩ (fun hpe => DEdgeType.noConfusion hpe)
    set A7 := pushEdgeAt T6.1 ni
      { type := DEdgeType.internal, name_or_idx := T6.2,
        to_node := T5.2 * NODE_FIELD_COUNT } with hA7def
    have hM7 : SaneFrom dc1 A7 :=
      ((((((hF1.trans hF2).trans hF3).trans hF4).trans hF5).trans
        hF6).trans hF7)
    have hM8 := tab_step_sane o.typedArrayBuf dc1 A7 ni hM7 hni
    have hM9 := fn_step_sane o dc1 _ ni hM8 hni
    exact obj_tail_sane o dc1 _ ni hM9 hni

/-- The hashed-shape tail of the shape branch (self_size assignment and
one element edge per shape property) preserves well-formedness. -/
theorem shape_tail_sane (sh : DShape) (dc1 B : DumpCtx) (ni : Nat)
    (hB : SaneFrom dc1 B) (hni : ni < dc1.nodes.length) :
    SaneFrom dc1
      (if (getNode B ni).self_size = 0 ∧ sh.isHashed then
        let dc := modifyNode B ni (fun n =>
          { n with self_size := sizeof_JSShape })
        sh.propAtoms.enum.foldl (fun dc iv =>
          let tp := js_gcdump_node_from_gp dc iv.2.1
          let ta := js_gcdump_add_atom tp.1 iv.2.2
          let dc := modifyNode ta.1 tp.2 (fun n =>
            { n with type := DNodeType.hidden, name := ta.2,
                     self_size := sizeof_JSShapeProperty })
          pushEdgeAt dc ni
            { type := DEdgeType.element, name_or_idx := iv.1,
              to_node := tp.2 * NODE_FIELD_COUNT }) dc
      else B) := by
  split
  case isFalse => exact hB
  case isTrue =>
    dsimp only
    obtain ⟨hF1, hlen1, _, _⟩ := modifyNode_sane B ni
      (fun n => { n with self_size := sizeof_JSShape }) hB.1
      (fun n => rfl) (fun n => Or.inl rfl)
    refine (hB.trans hF1).trans (foldl_sane_pred _
      (fun dcx => ni < dcx.nodes.length)
      (fun dcx dcy hx hle => lt_of_lt_of_le hx hle) ?_
      sh.propAtoms.enum _ hF1.1 ?_)
    · intro dcx iv hsx hnix
      dsimp only
      obtain ⟨hG1, hi1, _, _⟩ := nodeFromGp_sane dcx iv.2.1 hsx
      obtain ⟨hG2, hk2, hnd2, _⟩ := addAtom_sane
        (js_gcdump_node_from_gp dcx iv.2.1).1 iv.2.2 hG1.1
      obtain ⟨hG3, hlen3, _, _⟩ := modifyNode_sane
        (js_gcdump_add_atom (js_gcdump_node_from_gp dcx iv.2.1).1
          iv.2.2).1
        (js_gcdump_node_from_gp dcx iv.2.1).2
        (fun n => { n with
          type := DNodeType.hidden,
          name := (js_gcdump_add_atom
            (js_gcdump_node_from_gp dcx iv.2.1).1 iv.2.2).2,
          self_size := sizeof_JSShapeProperty })
        hG2.1 (fun n => rfl) (fun n => Or.inr (Or.inr ⟨_, hk2, rfl⟩))
      have hni3 : ni < (modifyNode
          (js_gcdump_add_atom (js_gcdump_node_from_gp dcx iv.2.1).1
            iv.2.2).1
          (js_gcdump_node_from_gp dcx iv.2.1).2
          (fun n => { n with
            type := DNodeType.hidden,
            name := (js_gcdump_add_atom
              (js_gcdump_node_from_gp dcx iv.2.1).1 iv.2.2).2,
            self_size := sizeof_JSShapeProperty })).nodes.length := by
        rw [hlen3, hnd2]
        exact lt_of_lt_of_le hnix hG1.2.1
      have hto3 : (js_gcdump_node_from_gp dcx iv.2.1).2 < (modifyNode
          (js_gcdump_add_atom (js_gcdump_node_from_gp dcx iv.2.1).1
            iv.2.2).1
          (js_gcdump_node_from_gp dcx iv.2.1).2
          (fun n => { n with
            type := DNodeType.hidden,
            name := (js_gcdump_add_atom
              (js_gcdump_node_from_gp dcx iv.2.1).1 iv.2.2).2,
            self_size := sizeof_JSShapeProperty })).nodes.length := by
        rw [hlen3, hnd2]
        exact hi1
      obtain ⟨hG4, _, _⟩ := pushEdgeAt_sane _ ni
        { type := DEdgeType.element, name_or_idx := (iv.1 : Int),
          to_node := (js_gcdump_node_from_gp dcx iv.2.1).2 *
            NODE_FIELD_COUNT } hG3.1 hni3
        ⟨(js_gcdump_node_from_gp dcx iv.2.1).2, hto3, rfl⟩
        (fun hpe => DEdgeType.noConfusion hpe)
      exact ((hG1.trans hG2).trans hG3).trans hG4
    · show ni < (modifyNode B ni _).nodes.length
      rw [hlen1]
      exact lt_of_lt_of_le hni hB.2.1

/-- The shape branch of js_gcdump_process_obj preserves
well-formedness. -/
theorem shape_branch_sane (sh : DShape) (dc1 : DumpCtx) (ni : Nat)
    (hs1 : Sane dc1) (hni : ni < dc1.nodes.length) :
    SaneFrom dc1
      (let dc := modifyNode dc1 ni (fun n =>
        { n with type := DNodeType.hidden })
       let dc :=
         if (getNode dc ni).name = -2 then
           let tn := js_gcdump_add_atom dc (DAtom.named "shape")
           modifyNode tn.1 ni (fun n => { n with name := tn.2 })
         else dc
       if (getNode dc ni).self_size = 0 ∧ sh.isHashed then
         let dc := modifyNode dc ni (fun n =>
           { n with self_size := sizeof_JSShape })
         sh.propAtoms.enum.foldl (fun dc iv =>
           let tp := js_gcdump_node_from_gp dc iv.2.1
           let ta := js_gcdump_add_atom tp.1 iv.2.2
           let dc := modifyNode ta.1 tp.2 (fun n =>
             { n with type := DNodeType.hidden, name := ta.2,
                      self_size := sizeof_JSShapeProperty })
           pushEdgeAt dc ni
             { type := DEdgeType.element, name_or_idx := iv.1,
               to_node := tp.2 * NODE_FIELD_COUNT }) dc
       else dc) := by
  dsimp only
  obtain ⟨hF1, hlen1, _, _⟩ := modifyNode_sane dc1 ni
    (fun n => { n with type := DNodeType.hidden }) hs1 (fun n => rfl)
    (fun n => Or.inl rfl)
  split
  case isTrue =>
    obtain ⟨hG1, hk1, hnd1, _⟩ := addAtom_sane
      (modifyNode dc1 ni (fun n => { n with type := DNodeType.hidden }))
      (DAtom.named "shape") hF1.1
    obtain ⟨hG2, _, _, _⟩ := modifyNode_sane
      (js_gcdump_add_atom
        (modifyNode dc1 ni (fun n => { n with type := DNodeType.hidden }))
        (DAtom.named "shape")).1 ni
      (fun n => { n with name := (js_gcdump_add_atom
        (modifyNode dc1 ni (fun n => { n with type := DNodeType.hidden }))
        (DAtom.named "shape")).2 })
      hG1.1 (fun n => rfl) (fun n => Or.inr (Or.inr ⟨_, hk1, rfl⟩))
    exact shape_tail_sane sh dc1 _ ni ((hF1.trans hG1).trans hG2) hni
  case isFalse =>
    exact shape_tail_sane sh dc1 _ ni hF1 hni

/-- js_gcdump_process_obj preserves snapshot well-formedness, for any
cell, label and in-range (or absent) parent. -/
theorem js_gcdump_process_obj_sane (h : DHeap) (cell : Nat)
    (parent : Int) (label : DumpLabel) (dc : DumpCtx) (hs : Sane dc)
    (hpar : parent ≥ 0 → parent.toNat < dc.nodes.length) :
    SaneFrom dc (js_gcdump_process_obj h dc cell parent label) := by
  unfold js_gcdump_process_obj
  dsimp only
  obtain ⟨hF1, hni1, hstr1, _⟩ := nodeFromGp_sane dc cell hs
  refine SaneFrom.trans hF1
    (parent_edge_sane (js_gcdump_node_from_gp dc cell).1 _ parent
      (js_gcdump_node_from_gp dc cell).2 label ?_
      (fun hp => lt_of_lt_of_le (hpar hp) hF1.2.1) hni1)
  split
  · -- property value is a string: type the node from the JSString
    obtain ⟨hG1, hk1, hnd1, _⟩ := addStr_sane h
      (js_gcdump_node_from_gp dc cell).1 cell hF1.1
    obtain ⟨hG2, _, _, _⟩ := modifyNode_sane
      (js_gcdump_add_str h (js_gcdump_node_from_gp dc cell).1 cell).1
      (js_gcdump_node_from_gp dc cell).2
      (fun n => { n with
        type := DNodeType.str,
        name := (js_gcdump_add_str h
          (js_gcdump_node_from_gp dc cell).1 cell).2,
        self_size := (strContent h cell).length })
      hG1.1 (fun n => rfl) (fun n => Or.inr (Or.inr ⟨_, hk1, rfl⟩))
    exact hG1.trans hG2
  · -- property value is an int: intern its decimal spelling
    obtain ⟨hG1, hk1, hnd1, _⟩ := addCstr_sane
      (js_gcdump_node_from_gp dc cell).1 _ hF1.1
    obtain ⟨hG2, _, _, _⟩ := modifyNode_sane
      (js_gcdump_add_cstr (js_gcdump_node_from_gp dc cell).1 _).1
      (js_gcdump_node_from_gp dc cell).2
      (fun n => { n with
        type := DNodeType.str,
        name := (js_gcdump_add_cstr
          (js_gcdump_node_from_gp dc cell).1 _).2,
        self_size := sizeof_double })
      hG1.1 (fun n => rfl) (fun n => Or.inr (Or.inr ⟨_, hk1, rfl⟩))
    exact hG1.trans hG2
  · -- otherwise classify by cell kind
    split
    · exact obj_branch_sane h _ (js_gcdump_node_from_gp dc cell).1
        (js_gcdump_node_from_gp dc cell).2 hF1.1 hni1
    · -- var ref
      split
      · exact (modifyNode_sane (js_gcdump_node_from_gp dc cell).1
          (js_gcdump_node_from_gp dc cell).2
          (fun n => { n with type := DNodeType.str }) hF1.1
          (fun n => rfl) (fun n => Or.inl rfl)).1
      · exact (modifyNode_sane (js_gcdump_node_from_gp dc cell).1
          (js_gcdump_node_from_gp dc cell).2
          (fun n => { n with type := DNodeType.heapNumber }) hF1.1
          (fun n => rfl) (fun n => Or.inl rfl)).1
      · exact SaneFrom.rfl hF1.1
    · exact (modifyNode_sane (js_gcdump_node_from_gp dc cell).1
        (js_gcdump_node_from_gp dc cell).2
        (fun n => { n with type := DNodeType.code, self_size := _ })
        hF1.1 (fun n => rfl) (fun n => Or.inl rfl)).1
    · exact shape_branch_sane _ (js_gcdump_node_from_gp dc cell).1
        (js_gcdump_node_from_gp dc cell).2 hF1.1 hni1
    · exact SaneFrom.rfl hF1.1

/-- JS_GCDumpValue preserves snapshot well-formedness. -/
theorem JS_GCDumpValue_sane (h : DHeap) (v : DValue) (parent : Int)
    (label : DumpLabel) (dc : DumpCtx) (hs : Sane dc)
    (hpar : parent ≥ 0 → parent.toNat < dc.nodes.length) :
    SaneFrom dc (JS_GCDumpValue h dc v parent label) := by
  cases v with
  | vObj p => exact js_gcdump_process_obj_sane h p parent label dc hs hpar
  | vFnBc p => exact js_gcdump_process_obj_sane h p parent label dc hs hpar
  | vStr sid =>
    exact js_gcdump_process_obj_sane h sid parent label dc hs hpar
  | vInt n addr =>
    exact js_gcdump_process_obj_sane h addr parent label dc hs hpar
  | vOther => exact SaneFrom.rfl hs

/-- JS_Context_gcdump preserves snapshot well-formedness (the parent is
the context's own node, always in range). -/
theorem JS_Context_gcdump_sane (h : DHeap) (c : DCtx) (parent : Int)
    (dc : DumpCtx) (hs : Sane dc)
    (hpar : parent.toNat < dc.nodes.length) :
    SaneFrom dc (JS_Context_gcdump h dc c parent) := by
  unfold JS_Context_gcdump
  dsimp only
  have hslots : SaneFrom dc (c.slots.foldl (fun dc sv =>
      JS_GCDumpValue h dc sv.2 parent (DumpLabel.nameLbl sv.1)) dc) := by
    refine foldl_sane_pred _
      (fun dcx => parent.toNat < dcx.nodes.length)
      (fun dcx dcy hx hle => lt_of_lt_of_le hx hle) ?_
      c.slots dc hs hpar
    intro dcx sv hsx hpx
    exact JS_GCDumpValue_sane h sv.2 parent (DumpLabel.nameLbl sv.1) dcx
      hsx (fun _ => hpx)
  set D0 := c.slots.foldl (fun dc sv =>
    JS_GCDumpValue h dc sv.2 parent (DumpLabel.nameLbl sv.1)) dc with hD0
  obtain ⟨hF1, hi1, _, _⟩ := nodeFromGp_sane D0 c.nativeErrorArrPtr
    hslots.1
  set T1 := js_gcdump_node_from_gp D0 c.nativeErrorArrPtr with hT1
  obtain ⟨hF2, hk2, hnd2, _⟩ := addAtom_sane T1.1 (DAtom.named "Array")
    hF1.1
  set T2 := js_gcdump_add_atom T1.1 (DAtom.named "Array") with hT2
  obtain ⟨hF3, hlen3, hstr3, _⟩ := modifyNode_sane T2.1 T1.2
    (fun n => { n with name := T2.2, type := DNodeType.synthetic })
    hF2.1 (fun n => rfl) (fun n => Or.inr (Or.inr ⟨_, hk2, rfl⟩))
  set D1 := modifyNode T2.1 T1.2
    (fun n => { n with name := T2.2, type := DNodeType.synthetic })
    with hD1
  obtain ⟨hF4, hk4, hnd4, _⟩ := addCstr_sane D1 "native_error_proto"
    hF3.1
  set T3 := js_gcdump_add_cstr D1 "native_error_proto" with hT3
  have hparD : parent.toNat < T3.1.nodes.length := by
    rw [hnd4, hlen3, hnd2]
    exact lt_of_lt_of_le hpar
      (le_trans hslots.2.1 hF1.2.1)
  have htoD : T1.2 < T3.1.nodes.length := by
    rw [hnd4, hlen3, hnd2]
    exact hi1
  obtain ⟨hF5, hlen5, hstr5⟩ := pushEdgeAt_sane T3.1 parent.toNat
    { type := DEdgeType.internal, name_or_idx := T3.2,
      to_node := T1.2 * NODE_FIELD_COUNT } hF4.1 hparD
    ⟨T1.2, htoD, rfl⟩ (fun hpe => DEdgeType.noConfusion hpe)
  set D2 := pushEdgeAt T3.1 parent.toNat
    { type := DEdgeType.internal, name_or_idx := T3.2,
      to_node := T1.2 * NODE_FIELD_COUNT } with hD2
  have hM2 : SaneFrom dc D2 :=
    ((((hslots.trans hF1).trans hF2).trans hF3).trans hF4).trans hF5
  have hT12 : T1.2 < D2.nodes.length := by
    rw [hlen5, hnd4, hlen3, hnd2]
    exact hi1
  have hprotos : SaneFrom D2 (c.nativeErrorProtos.enum.foldl
      (fun dc iv => JS_GCDumpValue h dc iv.2 (Int.ofNat T1.2)
        (DumpLabel.idxLbl iv.1)) D2) := by
    refine foldl_sane_pred _
      (fun dcx => T1.2 < dcx.nodes.length)
      (fun dcx dcy hx hle => lt_of_lt_of_le hx hle) ?_
      c.nativeErrorProtos.enum D2 hM2.1 hT12
    intro dcx iv hsx hpx
    refine JS_GCDumpValue_sane h iv.2 (Int.ofNat T1.2)
      (DumpLabel.idxLbl iv.1) dcx hsx ?_
    intro _
    simpa using hpx
  set D3 := c.nativeErrorProtos.enum.foldl
    (fun dc iv => JS_GCDumpValue h dc iv.2 (Int.ofNat T1.2)
      (DumpLabel.idxLbl iv.1)) D2 with hD3
  have hM3 : SaneFrom dc D3 := hM2.trans hprotos
  obtain ⟨hF6, hi6, _, _⟩ := nodeFromGp_sane D3 c.classProtoArrPtr hM3.1
  set T4 := js_gcdump_node_from_gp D3 c.classProtoArrPtr with hT4
  obtain ⟨hF7, hk7, hnd7, _⟩ := addAtom_sane T4.1 (DAtom.named "Array")
    hF6.1
  set T5 := js_gcdump_add_atom T4.1 (DAtom.named "Array") with hT5
  obtain ⟨hF8, hlen8, hstr8, _⟩ := modifyNode_sane T5.1 T4.2
    (fun n => { n with name := T5.2, type := DNodeType.synthetic })
    hF7.1 (fun n => rfl) (fun n => Or.inr (Or.inr ⟨_, hk7, rfl⟩))
  set D4 := modifyNode T5.1 T4.2
    (fun n => { n with name := T5.2, type := DNodeType.synthetic })
    with hD4
  obtain ⟨hF9, hk9, hnd9, _⟩ := addCstr_sane D4 "class_proto" hF8.1
  set T6 := js_gcdump_add_cstr D4 "class_proto" with hT6
  have hM45 : SaneFrom dc T6.1 :=
    (((hM3.trans hF6).trans hF7).trans hF8).trans hF9
  have hparD2 : parent.toNat < T6.1.nodes.length :=
    lt_of_lt_of_le hpar hM45.2.1
  have htoD2 : T4.2 < T6.1.nodes.length := by
    rw [hnd9, hlen8, hnd7]
    exact hi6
  obtain ⟨hF10, hlen10, hstr10⟩ := pushEdgeAt_sane T6.1 parent.toNat
    { type := DEdgeType.internal, name_or_idx := T6.2,
      to_node := T4.2 * NODE_FIELD_COUNT } hF9.1 hparD2
    ⟨T4.2, htoD2, rfl⟩ (fun hpe => DEdgeType.noConfusion hpe)
  set D5 := pushEdgeAt T6.1 parent.toNat
    { type := DEdgeType.internal, name_or_idx := T6.2,
      to_node := T4.2 * NODE_FIELD_COUNT } with hD5
  have hM5 : SaneFrom dc D5 := hM45.trans hF10
  have hT42 : T4.2 < D5.nodes.length := by
    rw [hlen10, hnd9, hlen8, hnd7]
    exact hi6
  have hcprotos : SaneFrom D5 (c.classProtos.enum.foldl
      (fun dc iv => JS_GCDumpValue h dc iv.2 (Int.ofNat T4.2)
        (DumpLabel.idxLbl iv.1)) D5) := by
    refine foldl_sane_pred _
      (fun dcx => T4.2 < dcx.nodes.length)
      (fun dcx dcy hx hle => lt_of_lt_of_le hx hle) ?_
      c.classProtos.enum D5 hM5.1 hT42
    intro dcx iv hsx hpx
    refine JS_GCDumpValue_sane h iv.2 (Int.ofNat T4.2)
      (DumpLabel.idxLbl iv.1) dcx hsx ?_
    intro _
    simpa using hpx
  set D6 := c.classProtos.enum.foldl
    (fun dc iv => JS_GCDumpValue h dc iv.2 (Int.ofNat T4.2)
      (DumpLabel.idxLbl iv.1)) D5 with hD6
  have hM6 : SaneFrom dc D6 := hM5.trans hcprotos
  cases harr : c.arrayShape with
  | none => exact hM6
  | some shp =>
    exact hM6.trans (js_gcdump_process_obj_sane h shp parent
      (DumpLabel.nameLbl "array_shape") D6 hM6.1
      (fun _ => lt_of_lt_of_le hpar hM6.2.1))

/-- gcdump_children preserves snapshot well-formedness for an in-range
parent node. -/
theorem gcdump_children_sane (h : DHeap) (cell : Nat) (parent : Int)
    (dc : DumpCtx) (hs : Sane dc)
    (hpar : parent.toNat < dc.nodes.length) :
    SaneFrom dc (gcdump_children h dc cell parent) := by
  unfold gcdump_children
  cases hc : h.cells cell with
  | obj o =>
    dsimp only
    refine foldl_sane_pred _
      (fun dcx => parent.toNat < dcx.nodes.length)
      (fun dcx dcy hx hle => lt_of_lt_of_le hx hle) ?_ o.props dc hs hpar
    intro dcx pr hsx hpx
    dsimp only
    split
    · -- getter/setter slot
      rename_i atom gtr str
      have hg : SaneFrom dcx (match gtr with
          | some gp => js_gcdump_process_obj h dcx gp parent
              (DumpLabel.propLbl atom none)
          | none => dcx) := by
        cases gtr with
        | none => exact SaneFrom.rfl hsx
        | some gp =>
          exact js_gcdump_process_obj_sane h gp parent
            (DumpLabel.propLbl atom none) dcx hsx (fun _ => hpx)
      cases str with
      | none => exact hg
      | some sp =>
        refine hg.trans (js_gcdump_process_obj_sane h sp parent
          (DumpLabel.propLbl atom none) _ hg.1 ?_)
        intro _
        exact lt_of_lt_of_le hpx hg.2.1
    · -- detached var-ref slot
      rename_i atom vr detached
      split
      · exact js_gcdump_process_obj_sane h vr parent
          (DumpLabel.propLbl atom none) dcx hsx (fun _ => hpx)
      · exact SaneFrom.rfl hsx
    · -- autoinit slot
      rename_i atom realm
      exact js_gcdump_process_obj_sane h realm parent
        (DumpLabel.propLbl atom none) dcx hsx (fun _ => hpx)
    · -- plain value slot
      rename_i atom v
      exact JS_GCDumpValue_sane h v parent
        (DumpLabel.propLbl atom (some v)) dcx hsx (fun _ => hpx)
    · -- anonymous slot
      exact SaneFrom.rfl hsx
  | fnBc b =>
    dsimp only
    have hcp : SaneFrom dc (b.cpool.foldl (fun dc v =>
        JS_GCDumpValue h dc v parent DumpLabel.noLbl) dc) := by
      refine foldl_sane_pred _
        (fun dcx => parent.toNat < dcx.nodes.length)
        (fun dcx dcy hx hle => lt_of_lt_of_le hx hle) ?_ _ dc hs hpar
      intro dcx v hsx hpx
      exact JS_GCDumpValue_sane h v parent DumpLabel.noLbl dcx hsx
        (fun _ => hpx)
    cases hre : b.realm with
    | none => exact hcp
    | some r =>
      refine hcp.trans (js_gcdump_process_obj_sane h r parent
        DumpLabel.noLbl _ hcp.1 ?_)
      intro _
      exact lt_of_lt_of_le hpar hcp.2.1
  | varRef pv =>
    exact JS_GCDumpValue_sane h pv parent DumpLabel.noLbl dc hs
      (fun _ => hpar)
  | shape sh =>
    dsimp only
    split
    · exact js_gcdump_process_obj_sane h sh.proto parent DumpLabel.noLbl
        dc hs (fun _ => hpar)
    · exact SaneFrom.rfl hs
  | context c => exact JS_Context_gcdump_sane h c parent dc hs hpar
  | jsstr s => exact SaneFrom.rfl hs
  | opaquePtr => exact SaneFrom.rfl hs

/-- The whole dump run produces a well-formed snapshot context. -/
theorem js_gcdump_objects_run_sane (h : DHeap) (ctxPtr : Nat) :
    Sane (js_gcdump_objects_run h ctxPtr) := by
  unfold js_gcdump_objects_run
  dsimp only
  have hs0 : Sane js_gcdump_new_ctx := by
    refine ⟨rfl, ?_, ?_, ?_, ?_, ?_⟩ <;>
      exact fun x hx => absurd hx (List.not_mem_nil x)
  obtain ⟨hF0, _, _, _⟩ := nodeFromGp_sane js_gcdump_new_ctx ctxPtr hs0
  refine (foldl_sane_pred _ (fun _ => True) (fun _ _ _ _ => trivial) ?_
    h.list _ hF0.1 trivial).1
  intro dcx gp hsx _
  dsimp only
  obtain ⟨hG1, hi1, _, _⟩ := nodeFromGp_sane dcx gp hsx
  have hpo := js_gcdump_process_obj_sane h gp (-1) DumpLabel.noLbl
    (js_gcdump_node_from_gp dcx gp).1 hG1.1
    (fun hp => absurd hp (by decide))
  have hch := gcdump_children_sane h gp
    (Int.ofNat (js_gcdump_node_from_gp dcx gp).2) _ hpo.1
    (by simpa using lt_of_lt_of_le hi1 hpo.2.1)
  exact (hG1.trans hpo).trans hch

/-- C8 (amended): in every snapshot the dumper writes, the edge_count in
the header equals the number of edge rows written to the edges array;
every edge's to_node is a multiple of NODE_FIELD_COUNT whose quotient
indexes a node present in the nodes array; every property-labelled
edge's name is a valid index into the strings array; and every node's
name is either a valid strings index or the -2 placeholder the node was
created with — the claim's stronger statement that every node name is a
valid strings index fails for the node kinds the classifier never
names. -/
theorem gcdump_snapshot_invariants (h : DHeap) (ctxPtr : Nat) :
    (snapshot_edge_count (js_gcdump_objects_run h ctxPtr) =
      (js_gcdump_edge_rows (js_gcdump_objects_run h ctxPtr)).length) ∧
    (∀ e ∈ js_gcdump_edge_rows (js_gcdump_objects_run h ctxPtr),
      ∃ j, j < snapshot_node_count (js_gcdump_objects_run h ctxPtr) ∧
        e.to_node = j * NODE_FIELD_COUNT) ∧
    (∀ e ∈ js_gcdump_edge_rows (js_gcdump_objects_run h ctxPtr),
      e.type = DEdgeType.property →
      ∃ k, k < (js_gcdump_objects_run h ctxPtr).strs.length ∧
        e.name_or_idx = (k : Int)) ∧
    (∀ n ∈ (js_gcdump_objects_run h ctxPtr).nodes,
      n.name = -2 ∨
      ∃ k, k < (js_gcdump_objects_run h ctxPtr).strs.length ∧
        n.name = (k : Int)) := by
  have hs := js_gcdump_objects_run_sane h ctxPtr
  have hmem : ∀ e ∈ js_gcdump_edge_rows (js_gcdump_objects_run h ctxPtr),
      ∃ n ∈ (js_gcdump_objects_run h ctxPtr).nodes, e ∈ n.edges := by
    intro e he
    unfold js_gcdump_edge_rows at he
    obtain ⟨l, hl, hel⟩ := List.mem_flatten.mp he
    obtain ⟨n, hn, hnl⟩ := List.mem_map.mp hl
    exact ⟨n, hn, hnl ▸ hel⟩
  refine ⟨?_, ?_, ?_, hs.name_ok⟩
  · show (js_gcdump_objects_run h ctxPtr).edges_len = _
    rw [hs.len_eq]
    unfold js_gcdump_edge_rows
    rw [List.length_flatten, List.map_map]
    rfl
  · intro e he
    obtain ⟨n, hn, hne⟩ := hmem e he
    exact hs.edge_to n hn e hne
  · intro e he hp
    obtain ⟨n, hn, hne⟩ := hmem e he
    exact hs.edge_name n hn e hne hp

/-- C8 counterexample: dumping a heap whose only GC cell is a context
leaves the context's node with name -2 (the JS_GC_OBJ_TYPE_JS_CONTEXT
kind falls into the default branch of the classifier switch and is never
named), so its name is not a valid strings index even though the
snapshot's strings array is non-empty and the node carries the two
container edges. -/
theorem gcdump_node_name_cex :
    (getNode (js_gcdump_objects_run gcdumpCexHeap 0) 0).name = -2 ∧
    (js_gcdump_objects_run gcdumpCexHeap 0).nodes.length = 3 ∧
    (js_gcdump_objects_run gcdumpCexHeap 0).strs.length = 3 ∧
    snapshot_edge_count (js_gcdump_objects_run gcdumpCexHeap 0) = 2 := by
  refine ⟨?_, ?_, ?_, ?_⟩ <;> decide

/-! ## C10: interning idempotence -/

theorem alookup_append_self {α β : Type} [DecidableEq α]
    (l : List (α × β)) (k : α) (v : β) (h : alookup l k = none) :
    alookup (l ++ [(k, v)]) k = some v := by
  induction l with
  | nil => simp [alookup]
  | cons e rest ih =>
    by_cases he : e.1 = k
    · exfalso
      simp [alookup, List.find?_cons_of_pos, he] at h
    · have h' : alookup rest k = none := by
        simpa [alookup, List.find?_cons_of_neg, he] using h
      simpa [alookup, List.cons_append, List.find?_cons_of_neg, he]
        using ih h'

/-- C10: node interning and string interning are idempotent — a second
js_gcdump_node_from_gp on the same pointer returns the same node index
and leaves the context (in particular the nodes array) unchanged, and a
second js_gcdump_add_cstr on byte-identical strings returns the same
string index and leaves the context (in particular the strings array)
unchanged. -/
theorem gcdump_interning_idempotent :
    (∀ dc gp,
      (js_gcdump_node_from_gp (js_gcdump_node_from_gp dc gp).1 gp).2 =
        (js_gcdump_node_from_gp dc gp).2 ∧
      (js_gcdump_node_from_gp (js_gcdump_node_from_gp dc gp).1 gp).1 =
        (js_gcdump_node_from_gp dc gp).1) ∧
    (∀ dc cstr,
      (js_gcdump_add_cstr (js_gcdump_add_cstr dc cstr).1 cstr).2 =
        (js_gcdump_add_cstr dc cstr).2 ∧
      (js_gcdump_add_cstr (js_gcdump_add_cstr dc cstr).1 cstr).1 =
        (js_gcdump_add_cstr dc cstr).1) := by
  constructor
  · intro dc gp
    unfold js_gcdump_node_from_gp
    cases hl : alookup dc.obj2node gp with
    | some i => simp [hl]
    | none =>
      simp only [hl]
      have := alookup_append_self dc.obj2node gp dc.nodes.length hl
      simp [this]
  · intro dc cstr
    unfold js_gcdump_add_cstr
    cases hl : alookup dc.str2id cstr with
    | some i => simp [hl]
    | none =>
      simp only [hl]
      have := alookup_append_self dc.str2id cstr dc.strs.length hl
      simp [this]

end SlowJS
